import Mathlib

/-!
# ColorLogPP: colour-markup engine and buffered writer

A shallow embedding of `logger::Utils::ColorHelper`, `logger::Utils::ValidationUtils`
(`log_utils.hpp`), `logger::ColorMap` (`log_type.hpp`),
`logger::Writers::BaseBufferedWriter` / `BufferedWriter` (`log_writers.hpp`),
`Logger::log_internal` (`log_core.hpp`) and the size constants of `logger.hpp`.

Conventions.
* A C string is the list of its characters before the terminating NUL, so
  `strlen(s)` is `s.length`; the terminator itself is the element at index `s.length`.
* `int` variables are `Int` (or `Nat` for loop counters that only count up); lengths
  stay far below `2^31`, so no wrap-around is modelled for them.
* Behaviour that C++ leaves undefined (reading before the start of the input,
  writing outside a buffer) is a `Fault`; every function returns `Except Fault _`.
* Loops are recursions on a fuel argument; the entry points pass enough fuel, and
  running out of fuel is the fault `Fault.fuel` (proved never to happen).
* The output target of `BufferedWriter` (`printf`) is the list `printed` of the strings
  handed to it, one entry for each call.
-/

namespace ColorLogPP

/-- Undefined behaviour of the C++ source, made explicit. -/
inductive Fault where
  /-- the loop bound of the embedding was exhausted -/
  | fuel
  /-- `input[k]` was read with `k` outside `0..strlen(input)` -/
  | read (k : Int)
  /-- a buffer was written at an index outside `0..size-1` -/
  | write (k : Int)
  deriving DecidableEq, Repr

deriving instance DecidableEq for Except

/-! ## The colour table (log_type.hpp) -/

/-- The map `ColorMap::ANSI_COLORS`: the table of tag letters and their ANSI codes (`\033` is ESC). -/
def ANSI_COLORS : List (Char × List Char) :=
  [ ('r', "\x1b[31m".toList),
    ('g', "\x1b[32m".toList),
    ('y', "\x1b[33m".toList),
    ('b', "\x1b[34m".toList),
    ('p', "\x1b[35m".toList),
    ('a', "\x1b[36m".toList),
    ('l', "\x1b[92m".toList),
    ('s', "\x1b[97m".toList),
    ('m', "\x1b[91m".toList),
    ('o', "\x1b[93m".toList),
    ('t', "\x1b[96m".toList),
    ('n', "\x1b[94m".toList),
    ('f', "\x1b[95m".toList),
    ('z', "\x1b[90m".toList),
    ('w', "\x1b[37m".toList),
    ('k', "\x1b[30m".toList) ]

/-- The lookup `ColorMap::ANSI_COLORS.find(c)`: the code of `c`, or `none` for `end()`. -/
def ANSI_COLORS_find (c : Char) : Option (List Char) :=
  ANSI_COLORS.lookup c

/-- The count `ColorMap::ANSI_COLORS.count(c)`: 1 when `c` is a key, 0 otherwise. -/
def ANSI_COLORS_count (c : Char) : Nat :=
  if (ANSI_COLORS_find c).isSome then 1 else 0

/-- The reset code `ColorMap::RESET`. -/
def RESET : List Char := "\x1b[0m".toList

/-! ## Memory accesses of the markup functions -/

/-- The read `input[k]` of a C string: defined for `0 ≤ k ≤ strlen(input)`,
the element at `strlen(input)` being the terminator. -/
def charAt (input : List Char) (k : Int) : Except Fault Char :=
  if k < 0 then .error (.read k)
  else if k.toNat < input.length then .ok (input.getD k.toNat '\x00')
  else if k.toNat = input.length then .ok '\x00'
  else .error (.read k)

/-- The write `output[out_pos] = c` into a buffer of `max_len` characters. `output` holds
the characters written so far from index 0; what lies at and after `out_pos` is replaced. -/
def poke (max_len out_pos : Int) (output : List Char) (c : Char) :
    Except Fault (List Char) :=
  if 0 ≤ out_pos ∧ out_pos < max_len then .ok (output.take out_pos.toNat ++ [c])
  else .error (.write out_pos)

/-- The call `strcpy(output + out_pos, src)`: writes `src` and its terminator, so the
indices `out_pos .. out_pos + strlen(src)` must lie in the buffer. -/
def strcpy (max_len out_pos : Int) (output src : List Char) :
    Except Fault (List Char) :=
  if 0 ≤ out_pos ∧ out_pos + src.length < max_len then .ok (output.take out_pos.toNat ++ src)
  else .error (.write out_pos)

/-- The final `output[out_pos] = 0` followed by reading `output` back as a C string. -/
def terminate (max_len out_pos : Int) (output : List Char) : Except Fault (List Char) :=
  if 0 ≤ out_pos ∧ out_pos < max_len then .ok (output.take out_pos.toNat)
  else .error (.write out_pos)

/-! ## The class `ColorHelper` (log_utils.hpp) -/

/-- The state of the two scanning loops of `ColorHelper`. -/
structure Scan where
  pipe_odd : Bool
  out_pos : Int
  output : List Char
  deriving DecidableEq, Repr

/-- The `for` loop of `ColorHelper::parse_color_tags`, from index `i`. -/
def parse_loop (input : List Char) (max_len : Int) :
    Nat → Nat → Scan → Except Fault Scan
  | 0, _, _ => .error .fuel
  | fuel + 1, i, s =>
    if i < input.length ∧ s.out_pos < max_len - 1 then
      if input.getD i '\x00' ≠ '|' then
        match poke max_len s.out_pos s.output (input.getD i '\x00') with
        | .error e => .error e
        | .ok out => parse_loop input max_len fuel (i + 1) ⟨s.pipe_odd, s.out_pos + 1, out⟩
      else if !s.pipe_odd then
        if i + 1 < input.length ∧ input.getD (i + 1) '\x00' = '|' then
          match poke max_len s.out_pos s.output '|' with
          | .error e => .error e
          | .ok out => parse_loop input max_len fuel (i + 2) ⟨s.pipe_odd, s.out_pos + 1, out⟩
        else
          match charAt input ((i : Int) - 1) with
          | .error e => .error e
          | .ok c =>
            match ANSI_COLORS_find c with
            | some color_code =>
              if (s.out_pos - 1) + color_code.length < max_len - 1 then
                match strcpy max_len (s.out_pos - 1) s.output color_code with
                | .error e => .error e
                | .ok out =>
                  parse_loop input max_len fuel (i + 1)
                    ⟨true, (s.out_pos - 1) + color_code.length, out⟩
              else
                parse_loop input max_len fuel (i + 1) ⟨true, s.out_pos - 1, s.output⟩
            | none => parse_loop input max_len fuel (i + 1) ⟨true, s.out_pos, s.output⟩
      else
        if s.out_pos + RESET.length < max_len - 1 then
          match strcpy max_len s.out_pos s.output RESET with
          | .error e => .error e
          | .ok out =>
            parse_loop input max_len fuel (i + 1) ⟨false, s.out_pos + RESET.length, out⟩
        else
          parse_loop input max_len fuel (i + 1) ⟨false, s.out_pos, s.output⟩
    else .ok s

/-- The function `ColorHelper::parse_color_tags(input, output, max_len)`: the C string left in `output`. -/
def parse_color_tags (input : List Char) (max_len : Int) : Except Fault (List Char) :=
  match parse_loop input max_len (input.length + 1) 0 ⟨false, 0, []⟩ with
  | .error e => .error e
  | .ok s => terminate max_len s.out_pos s.output

/-- The `for` loop of `ColorHelper::strip_color_tags`, from index `i`. -/
def strip_loop (input : List Char) (max_len : Int) :
    Nat → Nat → Scan → Except Fault Scan
  | 0, _, _ => .error .fuel
  | fuel + 1, i, s =>
    if i < input.length ∧ s.out_pos < max_len - 1 then
      if input.getD i '\x00' ≠ '|' then
        match poke max_len s.out_pos s.output (input.getD i '\x00') with
        | .error e => .error e
        | .ok out => strip_loop input max_len fuel (i + 1) ⟨s.pipe_odd, s.out_pos + 1, out⟩
      else if !s.pipe_odd then
        if i + 1 < input.length ∧ input.getD (i + 1) '\x00' = '|' then
          match poke max_len s.out_pos s.output '|' with
          | .error e => .error e
          | .ok out => strip_loop input max_len fuel (i + 2) ⟨s.pipe_odd, s.out_pos + 1, out⟩
        else
          strip_loop input max_len fuel (i + 1) ⟨true, s.out_pos, s.output⟩
      else
        strip_loop input max_len fuel (i + 1) ⟨false, s.out_pos, s.output⟩
    else .ok s

/-- The function `ColorHelper::strip_color_tags(input, output, max_len)`: the C string left in `output`. -/
def strip_color_tags (input : List Char) (max_len : Int) : Except Fault (List Char) :=
  match strip_loop input max_len (input.length + 1) 0 ⟨false, 0, []⟩ with
  | .error e => .error e
  | .ok s => terminate max_len s.out_pos s.output

/-! ## The class `ValidationUtils` (log_utils.hpp) -/

/-- The `for` loop of `ValidationUtils::check_colors_ct`, from index `i`. -/
def check_loop (input : List Char) : Nat → Nat → Bool → Except Fault Bool
  | 0, _, _ => .error .fuel
  | fuel + 1, i, pipe_odd =>
    if i < input.length then
      if input.getD i '\x00' ≠ '|' then
        check_loop input fuel (i + 1) pipe_odd
      else if !pipe_odd then
        if i + 1 < input.length ∧ input.getD (i + 1) '\x00' = '|' then
          check_loop input fuel (i + 2) pipe_odd
        else
          match charAt input ((i : Int) - 1) with
          | .error e => .error e
          | .ok c =>
            if c < 'a' ∨ c > 'z' then .ok false
            else check_loop input fuel (i + 1) true
      else check_loop input fuel (i + 1) false
    else .ok (!pipe_odd)

/-- The function `ValidationUtils::check_colors_ct(input)`; the `while` loop that
computes `input_len` is `input.length`. -/
def check_colors_ct (input : List Char) : Except Fault Bool :=
  if 0 < input.length ∧ input.getD 0 '\x00' = '|' then .ok false
  else check_loop input (input.length + 1) 0 false

/-- The `for` loop of `ValidationUtils::validate_color_tags_runtime`, from index `i`,
together with the `if (!pipe_odd)` that follows it. -/
def validate_loop (input : List Char) : Nat → Nat → Bool → Except Fault Bool
  | 0, _, _ => .error .fuel
  | fuel + 1, i, pipe_odd =>
    if i < input.length then
      if input.getD i '\x00' ≠ '|' then
        validate_loop input fuel (i + 1) pipe_odd
      else if !pipe_odd then
        if i + 1 < input.length ∧ input.getD (i + 1) '\x00' = '|' then
          validate_loop input fuel (i + 2) pipe_odd
        else
          match charAt input ((i : Int) - 1) with
          | .error e => .error e
          | .ok c =>
            if ANSI_COLORS_count c = 0 then .ok false
            else validate_loop input fuel (i + 1) true
      else validate_loop input fuel (i + 1) false
    else if !pipe_odd then .ok true else .ok false

/-- The function `ValidationUtils::validate_color_tags_runtime(input)`. -/
def validate_color_tags_runtime (input : List Char) : Except Fault Bool :=
  if 0 < input.length ∧ input.getD 0 '\x00' = '|' then .ok false
  else validate_loop input (input.length + 1) 0 false

/-! ## List-recursive forms of the loops

Each loop above walks the input by index. The functions below walk the remaining
input as a list, carrying the character before it (`input[i - 1]`, absent at `i = 0`);
they are proved equal to the loops and carry the inductions. -/

/-- The read `input[i - 1]` when the character before position `i` is `prev`. -/
def readPrev : Option Char → Except Fault Char
  | none => .error (.read (-1))
  | some c => .ok c

/-- The tag-opening branch of `parse_color_tags` (lines 65-77). -/
def open_tag (max_len : Int) (prev : Option Char) (s : Scan) : Except Fault Scan :=
  match readPrev prev with
  | .error e => .error e
  | .ok p =>
    match ANSI_COLORS_find p with
    | some color_code =>
      if (s.out_pos - 1) + color_code.length < max_len - 1 then
        match strcpy max_len (s.out_pos - 1) s.output color_code with
        | .error e => .error e
        | .ok out => .ok ⟨true, (s.out_pos - 1) + color_code.length, out⟩
      else .ok ⟨true, s.out_pos - 1, s.output⟩
    | none => .ok ⟨true, s.out_pos, s.output⟩

/-- The tag-closing branch of `parse_color_tags` (lines 78-86). -/
def close_tag (max_len : Int) (s : Scan) : Except Fault Scan :=
  if s.out_pos + RESET.length < max_len - 1 then
    match strcpy max_len s.out_pos s.output RESET with
    | .error e => .error e
    | .ok out => .ok ⟨false, s.out_pos + RESET.length, out⟩
  else .ok ⟨false, s.out_pos, s.output⟩

/-- List form of `parse_loop`. -/
def render_rec (max_len : Int) : Option Char → List Char → Scan → Except Fault Scan
  | _, [], s => .ok s
  | prev, c :: rest, s =>
    if s.out_pos < max_len - 1 then
      if c ≠ '|' then
        match poke max_len s.out_pos s.output c with
        | .error e => .error e
        | .ok out => render_rec max_len (some c) rest ⟨s.pipe_odd, s.out_pos + 1, out⟩
      else if !s.pipe_odd then
        match rest with
        | d :: rest2 =>
          if d = '|' then
            match poke max_len s.out_pos s.output '|' with
            | .error e => .error e
            | .ok out => render_rec max_len (some d) rest2 ⟨s.pipe_odd, s.out_pos + 1, out⟩
          else
            match open_tag max_len prev s with
            | .error e => .error e
            | .ok s2 => render_rec max_len (some c) (d :: rest2) s2
        | [] => open_tag max_len prev s
      else
        match close_tag max_len s with
        | .error e => .error e
        | .ok s2 => render_rec max_len (some c) rest s2
    else .ok s

/-- List form of `strip_loop`. -/
def strip_rec (max_len : Int) : List Char → Scan → Except Fault Scan
  | [], s => .ok s
  | c :: rest, s =>
    if s.out_pos < max_len - 1 then
      if c ≠ '|' then
        match poke max_len s.out_pos s.output c with
        | .error e => .error e
        | .ok out => strip_rec max_len rest ⟨s.pipe_odd, s.out_pos + 1, out⟩
      else if !s.pipe_odd then
        match rest with
        | d :: rest2 =>
          if d = '|' then
            match poke max_len s.out_pos s.output '|' with
            | .error e => .error e
            | .ok out => strip_rec max_len rest2 ⟨s.pipe_odd, s.out_pos + 1, out⟩
          else strip_rec max_len (d :: rest2) ⟨true, s.out_pos, s.output⟩
        | [] => .ok ⟨true, s.out_pos, s.output⟩
      else strip_rec max_len rest ⟨false, s.out_pos, s.output⟩
    else .ok s

/-- List form of `check_loop` and `validate_loop`; `bad` is the test that rejects a tag
letter. -/
def valid_rec (bad : Char → Bool) : Option Char → List Char → Bool → Except Fault Bool
  | _, [], pipe_odd => .ok (!pipe_odd)
  | prev, c :: rest, pipe_odd =>
    if c ≠ '|' then valid_rec bad (some c) rest pipe_odd
    else if !pipe_odd then
      match rest with
      | d :: rest2 =>
        if d = '|' then valid_rec bad (some d) rest2 pipe_odd
        else
          match readPrev prev with
          | .error e => .error e
          | .ok p => if bad p then .ok false else valid_rec bad (some c) (d :: rest2) true
      | [] =>
        match readPrev prev with
        | .error e => .error e
        | .ok p => if bad p then .ok false else valid_rec bad (some c) [] true
    else valid_rec bad (some c) rest false

/-- The rejection test of `check_colors_ct`. -/
def bad_ct (c : Char) : Bool := decide (c < 'a' ∨ c > 'z')

/-- The rejection test of `validate_color_tags_runtime`. -/
def bad_rt (c : Char) : Bool := decide (ANSI_COLORS_count c = 0)

/-- The scan state in which `out` has been written and the cursor stands after it. -/
def st (odd : Bool) (out : List Char) : Scan := ⟨odd, out.length, out⟩

/-! ## Messages: spans, `colorString` of main.cpp, the scan state -/

/-- One span `letter|text|`. -/
def span (p : Char × List Char) : List Char := [p.1] ++ ['|'] ++ p.2 ++ ['|']

/-- The concatenation of the spans `letter|text|` of a list of pairs. -/
def span_message : List (Char × List Char) → List Char
  | [] => []
  | p :: ps => span p ++ span_message ps

/-- The table `ct` of main.cpp: sixteen one-character strings. -/
def ct : List Char := "rgybpalsmotnfzwk".toList

/-- The function `colorString(str)` of main.cpp; `rand k` is the value of the `k`-th call
of `rand()`. -/
def colorString (rand : Nat → Nat) : Nat → List Char → List Char
  | _, [] => []
  | k, c :: str => [ct.getD (rand k % 16) '\x00'] ++ ['|'] ++ [c] ++ ['|']
      ++ colorString rand (k + 1) str

/-- The scan shared by the four functions of `log_utils.hpp`, reduced to its state: the
value of `pipe_odd` after the input has been walked from the state `pipe_odd`, escape
pairs being skipped while outside a span (no output, no check of the tag letter). -/
def scan_pipe_odd : Bool → List Char → Bool
  | pipe_odd, [] => pipe_odd
  | pipe_odd, c :: rest =>
    if c ≠ '|' then scan_pipe_odd pipe_odd rest
    else if !pipe_odd then
      match rest with
      | d :: rest2 =>
        if d = '|' then scan_pipe_odd pipe_odd rest2 else scan_pipe_odd true (d :: rest2)
      | [] => true
    else scan_pipe_odd false rest

/-- An input begins with a lone delimiter: its first character is a delimiter and its
second, if any, is not. -/
def lone_lead (input : List Char) : Prop :=
  input.head? = some '|' ∧ input.tail.head? ≠ some '|'

instance (input : List Char) : Decidable (lone_lead input) := by
  unfold lone_lead; infer_instance

/-! ## The classes `BaseBufferedWriter` and `BufferedWriter` (log_writers.hpp) -/

/-- The constant `BUFFER_SIZE` (logger.hpp). -/
def BUFFER_SIZE : Nat := 1024

/-- The store `buf[k] = c` into an array. -/
def store (buf : List Char) (k : Int) (c : Char) : Except Fault (List Char) :=
  if 0 ≤ k ∧ k < buf.length then .ok (buf.set k.toNat c) else .error (.write k)

/-- The call `strncpy(buf + k, src, n)`: exactly `n` cells are written, the first
`min(n, strlen(src))` with the characters of `src` and the others with NUL. The count is a
`size_t`: a negative `n` stands for the huge value it wraps to, which passes the end of
every array. -/
def strncpy (buf : List Char) (k : Int) (src : List Char) (n : Int) :
    Except Fault (List Char) :=
  if 0 ≤ k ∧ 0 ≤ n ∧ k + n ≤ buf.length then
    .ok (buf.take k.toNat
      ++ (src.take n.toNat ++ List.replicate (n.toNat - src.length) '\x00')
      ++ buf.drop (k.toNat + n.toNat))
  else .error (.write (if k < 0 then k else buf.length))

/-- Reading an array as a C string (`printf("%s", buf)`): the characters before the first
NUL; without a NUL in the array the read passes its end. -/
def cstr (buf : List Char) : Except Fault (List Char) :=
  if '\x00' ∈ buf then .ok (buf.takeWhile (fun c => c ≠ '\x00'))
  else .error (.read buf.length)

/-- A `BaseBufferedWriter` object together with the output target: `buffer` is the array
`char buffer[BUFFER_SIZE]` (all its cells, so `BUFFER_SIZE` is `buffer.length`),
`buffer_pos` the cursor, and `printed` the strings handed to `printf` so far, one entry
for each call. -/
structure Writer where
  buffer : List Char
  buffer_pos : Int
  printed : List (List Char)
  deriving DecidableEq, Repr

/-- The constructor `BaseBufferedWriter()`; `cells` is the content of the array before
construction. -/
def BaseBufferedWriter_new (cells : List Char) : Except Fault Writer :=
  match store cells 0 '\x00' with
  | .error e => .error e
  | .ok buf => .ok ⟨buf, 0, []⟩

/-- The accessor `BaseBufferedWriter::get_buffer()`, read as a C string. -/
def get_buffer (w : Writer) : Except Fault (List Char) := cstr w.buffer

/-- The method `BaseBufferedWriter::clear_buffer()`. -/
def clear_buffer (w : Writer) : Except Fault Writer :=
  match store w.buffer 0 '\x00' with
  | .error e => .error e
  | .ok buf => .ok ⟨buf, 0, w.printed⟩

/-- The method `BaseBufferedWriter::is_empty()`. -/
def is_empty (w : Writer) : Bool := decide (w.buffer_pos = 0)

/-- The method `BaseBufferedWriter::flush()`. -/
def BaseBufferedWriter_flush (w : Writer) : Except Fault Writer :=
  if !is_empty w then clear_buffer w else .ok w

/-- The override `BufferedWriter::flush()`. -/
def BufferedWriter_flush (w : Writer) : Except Fault Writer :=
  if !is_empty w then
    match get_buffer w with
    | .error e => .error e
    | .ok s => BaseBufferedWriter_flush ⟨w.buffer, w.buffer_pos, w.printed ++ [s]⟩
  else .ok w

/-- The method `BaseBufferedWriter::write(entry)` on an object whose virtual `flush` is `flush`;
`formatedMsg` is `entry.formatedMsg`. -/
def BaseBufferedWriter_write (flush : Writer → Except Fault Writer) (w : Writer)
    (formatedMsg : List Char) : Except Fault Writer :=
  let msg_len : Int := formatedMsg.length
  match (if w.buffer_pos + msg_len + 1 ≥ w.buffer.length then flush w else .ok w) with
  | .error e => .error e
  | .ok w1 =>
    match strncpy w1.buffer w1.buffer_pos formatedMsg
        ((w1.buffer.length : Int) - w1.buffer_pos - 1) with
    | .error e => .error e
    | .ok buf1 =>
      let pos1 := w1.buffer_pos + msg_len
      if pos1 + 2 < w1.buffer.length then
        match store buf1 pos1 '\r' with
        | .error e => .error e
        | .ok buf2 =>
          match store buf2 (pos1 + 1) '\n' with
          | .error e => .error e
          | .ok buf3 =>
            match store buf3 (pos1 + 2) '\x00' with
            | .error e => .error e
            | .ok buf4 => .ok ⟨buf4, pos1 + 2, w1.printed⟩
      else
        match store buf1 pos1 '\x00' with
        | .error e => .error e
        | .ok buf2 => .ok ⟨buf2, pos1, w1.printed⟩

/-- The method `write` called on a `BufferedWriter`. -/
def BufferedWriter_write (w : Writer) (formatedMsg : List Char) : Except Fault Writer :=
  BaseBufferedWriter_write BufferedWriter_flush w formatedMsg

/-- The invariant of the buffer: `0 ≤ buffer_pos < BUFFER_SIZE`, the cell at the cursor is
NUL and no cell before it is. -/
def Writer.wf (w : Writer) : Prop :=
  0 ≤ w.buffer_pos ∧ w.buffer_pos < w.buffer.length ∧
    w.buffer.getD w.buffer_pos.toNat 'x' = '\x00' ∧
    '\x00' ∉ w.buffer.take w.buffer_pos.toNat

instance (w : Writer) : Decidable w.wf := by
  unfold Writer.wf; infer_instance

/-- Successive `write` calls on a `BufferedWriter`, one for each line. -/
def BufferedWriter_writes (w : Writer) : List (List Char) → Except Fault Writer
  | [] => .ok w
  | line :: lines =>
    match BufferedWriter_write w line with
    | .error e => .error e
    | .ok w1 => BufferedWriter_writes w1 lines

/-- A freshly constructed writer of capacity 16 (the cells hold `u` before construction). -/
def fresh16 : Writer := ⟨'\x00' :: List.replicate 15 'u', 0, []⟩

/-- The part of `BaseBufferedWriter::write` that follows the flush test: copy, advance,
line terminator, NUL. -/
def write_store (w1 : Writer) (formatedMsg : List Char) : Except Fault Writer :=
  let msg_len : Int := formatedMsg.length
  match strncpy w1.buffer w1.buffer_pos formatedMsg
      ((w1.buffer.length : Int) - w1.buffer_pos - 1) with
  | .error e => .error e
  | .ok buf1 =>
    let pos1 := w1.buffer_pos + msg_len
    if pos1 + 2 < w1.buffer.length then
      match store buf1 pos1 '\r' with
      | .error e => .error e
      | .ok buf2 =>
        match store buf2 (pos1 + 1) '\n' with
        | .error e => .error e
        | .ok buf3 =>
          match store buf3 (pos1 + 2) '\x00' with
          | .error e => .error e
          | .ok buf4 => .ok ⟨buf4, pos1 + 2, w1.printed⟩
    else
      match store buf1 pos1 '\x00' with
      | .error e => .error e
      | .ok buf2 => .ok ⟨buf2, pos1, w1.printed⟩

/-- The line terminator `write` appends when `room` holds. -/
def line_end (room : Bool) : List Char := if room then ['\r', '\n'] else []

/-- The writer `fresh16` after `write("ab")`: the line, CR LF, the terminator, the NULs with
which `strncpy` filled the rest of its count, and the last cell. -/
def after_ab16 : Writer :=
  ⟨"ab\r\n".toList ++ List.replicate 11 '\x00' ++ ['u'], 4, []⟩

/-! ## Escape sequences and well-formed messages -/

/-- The escape sequences `parse_color_tags` can write: the reset code and the sixteen
colour codes. -/
def escape_sequences : List (List Char) := RESET :: ANSI_COLORS.map Prod.snd

/-- Whether the list `l` begins with the list `e`. -/
def starts_with (l e : List Char) : Bool := l.take e.length == e

/-- The text `l` with every escape sequence of `escape_sequences` deleted; `skip` is the
number of characters of a sequence under deletion that are still to be dropped. -/
def delete_escapes : Nat → List Char → List Char
  | _, [] => []
  | skip + 1, _ :: rest => delete_escapes skip rest
  | 0, c :: rest =>
    match escape_sequences.find? (fun e => starts_with (c :: rest) e) with
    | some e => delete_escapes (e.length - 1) rest
    | none => c :: delete_escapes 0 rest

/-- A piece of a well-formed message: plain text, or a span `letter|text|`. -/
inductive Piece where
  | plain (text : List Char)
  | span (letter : Char) (text : List Char)
  deriving DecidableEq, Repr

/-- The markup of a piece. -/
def Piece.source : Piece → List Char
  | .plain t => t
  | .span c t => c :: '|' :: (t ++ ['|'])

/-- The text of a piece, markup removed. -/
def Piece.text : Piece → List Char
  | .plain t => t
  | .span _ t => t

/-- The rendering of a piece: the text of a span stands between the colour code of its
letter and the reset code. -/
def Piece.rendered : Piece → List Char
  | .plain t => t
  | .span c t => (ANSI_COLORS_find c).getD [] ++ t ++ RESET

/-- A piece is well formed: its text holds no delimiter and no ESC character, and a span
has a letter of the colour table and a non-empty text. -/
def Piece.ok : Piece → Prop
  | .plain t => '|' ∉ t ∧ '\x1b' ∉ t
  | .span c t => (ANSI_COLORS_find c).isSome = true ∧ t ≠ [] ∧ '|' ∉ t ∧ '\x1b' ∉ t

instance (p : Piece) : Decidable p.ok := by
  cases p <;> (unfold Piece.ok; infer_instance)

/-- The message made of the pieces `ps`, in order. -/
def pieces_source : List Piece → List Char
  | [] => []
  | p :: ps => p.source ++ pieces_source ps

/-- The texts of the pieces `ps`, in order. -/
def pieces_text : List Piece → List Char
  | [] => []
  | p :: ps => p.text ++ pieces_text ps

/-- The renderings of the pieces `ps`, in order. -/
def pieces_rendered : List Piece → List Char
  | [] => []
  | p :: ps => p.rendered ++ pieces_rendered ps

/-! ## Destruction and runs of operations of a `BufferedWriter` -/

/-- The destructor of a `BufferedWriter`: the class declares none, so `~BaseBufferedWriter()`
is what runs, and its call `flush()` is made while the object is a `BaseBufferedWriter` (the
`BufferedWriter` part is gone): the function called is `BaseBufferedWriter::flush`. -/
def BufferedWriter_destroy (w : Writer) : Except Fault Writer :=
  BaseBufferedWriter_flush w

/-- An operation on the sink: `write` of a line, or `flush`. -/
inductive Op where
  | append (line : List Char)
  | flush
  deriving DecidableEq, Repr

/-- One operation on a `BufferedWriter`. -/
def BufferedWriter_step (w : Writer) : Op → Except Fault Writer
  | .append line => BufferedWriter_write w line
  | .flush => BufferedWriter_flush w

/-- A sequence of operations on a `BufferedWriter`, stopped by the first fault. -/
def BufferedWriter_run (w : Writer) : List Op → Except Fault Writer
  | [] => .ok w
  | op :: ops =>
    match BufferedWriter_step w op with
    | .error e => .error e
    | .ok w1 => BufferedWriter_run w1 ops

/-- The lines appended by a sequence of operations, in order. -/
def lines_of : List Op → List (List Char)
  | [] => []
  | .append line :: ops => line :: lines_of ops
  | .flush :: ops => lines_of ops

/-- The lines `ls`, each followed by the line terminator CR LF. -/
def terminated : List (List Char) → List Char
  | [] => []
  | l :: ls => l ++ ['\r', '\n'] ++ terminated ls

/-- A freshly constructed writer of capacity `BUFFER_SIZE` (the cells hold `u` before
construction). -/
def fresh1024 : Writer := ⟨'\x00' :: List.replicate (BUFFER_SIZE - 1) 'u', 0, []⟩

/-- A content handed to the output target is in order, with respect to the lines `done`
appended so far and the capacity `cap`: it is not empty, and when shorter than `cap - 2` it
is a run of consecutive lines of `done`, each followed by CR LF. -/
def handed_ok (cap : Nat) (done : List (List Char)) (p : List Char) : Prop :=
  p ≠ [] ∧ ((p.length : Int) + 2 < cap →
    ∃ pre ls post, done = pre ++ ls ++ post ∧ p = terminated ls)

/-- The invariant of a run of operations: the buffer invariant, the capacity, every content
handed over so far in order, and the buffer content, when shorter than `cap - 2`, made of
the last lines appended, each followed by CR LF. -/
def run_inv (cap : Nat) (done : List (List Char)) (w : Writer) : Prop :=
  w.wf ∧ w.buffer.length = cap ∧ (∀ p ∈ w.printed, handed_ok cap done p) ∧
    ∃ content, get_buffer w = .ok content ∧ ((content.length : Int) + 2 < cap →
      ∃ pre pend, done = pre ++ pend ∧ content = terminated pend)

/-! ## The class `Logger` (log_core.hpp) -/

/-- The enum `LogLevel` (log_type.hpp). -/
inductive LogLevel where
  | DEBUG_
  | INFO_
  | WARN_
  | ERROR_
  deriving DecidableEq, Repr

/-- The underlying value of a `LogLevel`, which `<` compares. -/
def LogLevel.value : LogLevel → Nat
  | .DEBUG_ => 0
  | .INFO_ => 1
  | .WARN_ => 2
  | .ERROR_ => 3

/-- The struct `LogEntry` (log_type.hpp), without `formatedMsg`, the buffer a formatter
fills. -/
structure LogEntry where
  level : LogLevel
  filename : List Char
  line : Int
  message : List Char
  deriving DecidableEq, Repr

/-- The method `Logger::create_log_entry`. -/
def create_log_entry (level : LogLevel) (file : List Char) (line : Int)
    (message : List Char) : LogEntry :=
  ⟨level, file, line, message⟩

/-- The method `Logger::log_internal` of a logger whose threshold is `current_level`. The
loop over `output_pairs`, which calls `format(entry)` and `write(entry)` on each pair, is
recorded as the list of the pairs with the entry handed to them. -/
def log_internal {ι : Type} (current_level : LogLevel) (output_pairs : List ι)
    (level : LogLevel) (file : List Char) (line : Int) (message : List Char) :
    Except Fault (List (ι × LogEntry)) :=
  if level.value < current_level.value then .ok []
  else
    match validate_color_tags_runtime message with
    | .error e => .error e
    | .ok valid =>
      let entry :=
        if !valid then create_log_entry .ERROR_ file line "Invalid color tags".toList
        else create_log_entry level file line message
      .ok (output_pairs.map (fun pair => (pair, entry)))

/-! ## Tag letters, constants of the pipeline, accounting of lines, units of the output -/

/-- The tag letters of the scan shared by the four functions of `log_utils.hpp`: the
characters `input[i - 1]` that stand before the delimiters opening a span, in order, when
the input is walked from the state `pipe_odd` with `prev` the character before it (a
delimiter with no character before it has no letter). -/
def tag_letters : Option Char → Bool → List Char → List Char
  | _, _, [] => []
  | prev, pipe_odd, c :: rest =>
    if c ≠ '|' then tag_letters (some c) pipe_odd rest
    else if !pipe_odd then
      match rest with
      | d :: rest2 =>
        if d = '|' then tag_letters (some d) pipe_odd rest2
        else prev.toList ++ tag_letters (some c) true (d :: rest2)
      | [] => prev.toList
    else tag_letters (some c) false rest

/-- The constant `LOG_MSG_SIZE` (logger.hpp). -/
def LOG_MSG_SIZE : Nat := 256

/-- The constant `LOG_FMT_SIZE` (logger.hpp): the size of `LogEntry::formatedMsg`, which
`log_sprintf` fills through `vsnprintf`, so a formatted line has at most `LOG_FMT_SIZE - 1`
characters. -/
def LOG_FMT_SIZE : Nat := LOG_MSG_SIZE * 2

/-- The concatenation of the strings `ps`, in order. -/
def concat_all : List (List Char) → List Char
  | [] => []
  | p :: ps => p ++ concat_all ps

/-- The lines `ls` in order, the `k`-th followed by CR LF when the `k`-th entry of `rooms`
is true and by nothing when it is false. -/
def lines_with_ends : List (List Char) → List Bool → List Char
  | l :: ls, room :: rooms => l ++ line_end room ++ lines_with_ends ls rooms
  | _, _ => []

/-- What has been handed over, followed by the buffer content, is the lines appended so
far, in order, each followed by CR LF or by nothing. -/
def conserved (done : List (List Char)) (w : Writer) : Prop :=
  ∃ content rooms, get_buffer w = .ok content ∧ rooms.length = done.length ∧
    concat_all w.printed ++ content = lines_with_ends done rooms

/-- A unit of the output of `parse_color_tags` on `input`: one character of the input, or
one whole escape sequence (a colour code of the table or the reset code). -/
def is_unit (input : List Char) (t : List Char) : Prop :=
  (∃ c ∈ input, t = [c]) ∨ t ∈ escape_sequences

/-- The string `out` is a concatenation of units of `input`. -/
def whole_units (input : List Char) (out : List Char) : Prop :=
  ∃ units : List (List Char), out = concat_all units ∧ ∀ t ∈ units, is_unit input t

/-- The invariant of the loop of `parse_color_tags`: what stands before the cursor is a
concatenation of units, and a character other than the delimiter that has just been
scanned is the last of them. -/
def units_inv (input : List Char) (p : Char) (s : Scan) : Prop :=
  0 ≤ s.out_pos ∧ s.out_pos.toNat ≤ s.output.length ∧
    whole_units input (s.output.take s.out_pos.toNat) ∧
    (p ≠ '|' → ∃ pre, s.output.take s.out_pos.toNat = pre ++ [p] ∧ whole_units input pre)

/-! ## The loops and their list forms agree; lemmas on the list forms -/

theorem getD_at_length (pre : List Char) (c : Char) (rest : List Char) (d : Char) :
    (pre ++ c :: rest).getD pre.length d = c := by
  rw [List.getD_eq_getElem?_getD, List.getElem?_append_right (le_refl _)]
  simp

theorem getD_at_length_succ (pre : List Char) (c e : Char) (rest : List Char) (d : Char) :
    (pre ++ c :: e :: rest).getD (pre.length + 1) d = e := by
  rw [List.getD_eq_getElem?_getD, List.getElem?_append_right (Nat.le_succ _)]
  simp

theorem charAt_before (pre rest : List Char) :
    charAt (pre ++ rest) ((pre.length : Int) - 1) = readPrev pre.getLast? := by
  rcases List.eq_nil_or_concat pre with h | ⟨l, a, h⟩
  · subst h; simp [charAt, readPrev]
  · subst h
    rw [List.concat_eq_append]
    have h0 : (((l ++ [a]).length : Int) - 1) = (l.length : Int) := by simp
    have h2 : ¬ ((l.length : Int) < 0) := by omega
    have h3 : (l ++ [a] ++ rest).getD l.length '\x00' = a := by
      simpa using getD_at_length l a rest '\x00'
    have h4 : l.length < (l ++ [a] ++ rest).length := by simp
    rw [h0]
    unfold charAt
    rw [if_neg h2, Int.toNat_natCast, if_pos h4, h3]
    simp [readPrev]

theorem parse_loop_eq (input : List Char) (max_len : Int) :
    ∀ (fuel : Nat) (pre rest : List Char) (s : Scan), input = pre ++ rest →
      rest.length < fuel →
      parse_loop input max_len fuel pre.length s = render_rec max_len pre.getLast? rest s := by
  intro fuel
  induction fuel using Nat.strong_induction_on with
  | _ fuel ih =>
    intro pre rest s hin hf
    cases fuel with
    | zero => omega
    | succ fuel =>
      cases rest with
      | nil => subst hin; simp [parse_loop, render_rec]
      | cons c rest =>
        have hlen : pre.length < input.length := by subst hin; simp
        have hget : input.getD pre.length '\x00' = c := by subst hin; exact getD_at_length _ _ _ _
        have hstep := fun s2 => ih fuel (Nat.lt_succ_self _) (pre ++ [c]) rest s2 (by simp [hin])
          (by simp at hf; omega)
        simp only [List.length_append, List.length_singleton, List.getLast?_append,
          List.getLast?_singleton, Option.or_some] at hstep
        have hprev : charAt input ((pre.length : Int) - 1) = readPrev pre.getLast? := by
          subst hin; exact charAt_before _ _
        rw [parse_loop]
        simp only [hlen, hget, true_and, hprev, hstep]
        cases rest with
        | nil =>
          have h1 : ¬ (pre.length + 1 < input.length) := by subst hin; simp
          simp only [h1, false_and, if_false, render_rec, open_tag, close_tag]
          repeat' split
          all_goals first | rfl | simp_all
        | cons d rest2 =>
          have h1 : pre.length + 1 < input.length := by subst hin; simp
          have h2 : input.getD (pre.length + 1) '\x00' = d := by
            subst hin; exact getD_at_length_succ _ _ _ _ _
          have hstep2 := fun s2 => ih fuel (Nat.lt_succ_self _) (pre ++ [c, d]) rest2 s2
            (by simp [hin]) (by simp at hf; omega)
          simp only [List.length_append, List.length_cons, List.length_nil, List.getLast?_append,
            List.getLast?_cons_cons, List.getLast?_singleton, Option.or_some] at hstep2
          simp only [h1, h2, true_and, render_rec, open_tag, close_tag, hstep2]
          repeat' split
          all_goals first | rfl | simp_all

theorem strip_loop_eq (input : List Char) (max_len : Int) :
    ∀ (fuel : Nat) (pre rest : List Char) (s : Scan), input = pre ++ rest →
      rest.length < fuel →
      strip_loop input max_len fuel pre.length s = strip_rec max_len rest s := by
  intro fuel
  induction fuel using Nat.strong_induction_on with
  | _ fuel ih =>
    intro pre rest s hin hf
    cases fuel with
    | zero => omega
    | succ fuel =>
      cases rest with
      | nil => subst hin; simp [strip_loop, strip_rec]
      | cons c rest =>
        have hlen : pre.length < input.length := by subst hin; simp
        have hget : input.getD pre.length '\x00' = c := by subst hin; exact getD_at_length _ _ _ _
        have hstep := fun s2 => ih fuel (Nat.lt_succ_self _) (pre ++ [c]) rest s2 (by simp [hin])
          (by simp at hf; omega)
        simp only [List.length_append, List.length_singleton] at hstep
        rw [strip_loop]
        simp only [hlen, hget, true_and, hstep]
        cases rest with
        | nil =>
          have h1 : ¬ (pre.length + 1 < input.length) := by subst hin; simp
          simp only [h1, false_and, if_false, strip_rec]
        | cons d rest2 =>
          have h1 : pre.length + 1 < input.length := by subst hin; simp
          have h2 : input.getD (pre.length + 1) '\x00' = d := by
            subst hin; exact getD_at_length_succ _ _ _ _ _
          have hstep2 := fun s2 => ih fuel (Nat.lt_succ_self _) (pre ++ [c, d]) rest2 s2
            (by simp [hin]) (by simp at hf; omega)
          simp only [List.length_append, List.length_cons, List.length_nil] at hstep2
          simp only [h1, h2, true_and, strip_rec, hstep2]

theorem check_loop_eq (input : List Char) :
    ∀ (fuel : Nat) (pre rest : List Char) (pipe_odd : Bool), input = pre ++ rest →
      rest.length < fuel →
      check_loop input fuel pre.length pipe_odd
        = valid_rec bad_ct pre.getLast? rest pipe_odd := by
  intro fuel
  induction fuel using Nat.strong_induction_on with
  | _ fuel ih =>
    intro pre rest s hin hf
    cases fuel with
    | zero => omega
    | succ fuel =>
      cases rest with
      | nil => subst hin; simp [check_loop, valid_rec]
      | cons c rest =>
        have hlen : pre.length < input.length := by subst hin; simp
        have hget : input.getD pre.length '\x00' = c := by subst hin; exact getD_at_length _ _ _ _
        have hstep := fun s2 => ih fuel (Nat.lt_succ_self _) (pre ++ [c]) rest s2 (by simp [hin])
          (by simp at hf; omega)
        simp only [List.length_append, List.length_singleton, List.getLast?_append,
          List.getLast?_singleton, Option.or_some] at hstep
        have hprev : charAt input ((pre.length : Int) - 1) = readPrev pre.getLast? := by
          subst hin; exact charAt_before _ _
        rw [check_loop]
        simp only [hlen, hget, if_true, hprev, hstep]
        cases rest with
        | nil =>
          have h1 : ¬ (pre.length + 1 < input.length) := by subst hin; simp
          simp only [h1, false_and, if_false, valid_rec, bad_ct, decide_eq_true_eq]
        | cons d rest2 =>
          have h1 : pre.length + 1 < input.length := by subst hin; simp
          have h2 : input.getD (pre.length + 1) '\x00' = d := by
            subst hin; exact getD_at_length_succ _ _ _ _ _
          have hstep2 := fun s2 => ih fuel (Nat.lt_succ_self _) (pre ++ [c, d]) rest2 s2
            (by simp [hin]) (by simp at hf; omega)
          simp only [List.length_append, List.length_cons, List.length_nil, List.getLast?_append,
            List.getLast?_cons_cons, List.getLast?_singleton, Option.or_some] at hstep2
          simp only [h1, h2, true_and, valid_rec, bad_ct, hstep2, decide_eq_true_eq]

theorem validate_loop_eq (input : List Char) :
    ∀ (fuel : Nat) (pre rest : List Char) (pipe_odd : Bool), input = pre ++ rest →
      rest.length < fuel →
      validate_loop input fuel pre.length pipe_odd
        = valid_rec bad_rt pre.getLast? rest pipe_odd := by
  intro fuel
  induction fuel using Nat.strong_induction_on with
  | _ fuel ih =>
    intro pre rest s hin hf
    cases fuel with
    | zero => omega
    | succ fuel =>
      cases rest with
      | nil => subst hin; cases s <;> simp [validate_loop, valid_rec]
      | cons c rest =>
        have hlen : pre.length < input.length := by subst hin; simp
        have hget : input.getD pre.length '\x00' = c := by subst hin; exact getD_at_length _ _ _ _
        have hstep := fun s2 => ih fuel (Nat.lt_succ_self _) (pre ++ [c]) rest s2 (by simp [hin])
          (by simp at hf; omega)
        simp only [List.length_append, List.length_singleton, List.getLast?_append,
          List.getLast?_singleton, Option.or_some] at hstep
        have hprev : charAt input ((pre.length : Int) - 1) = readPrev pre.getLast? := by
          subst hin; exact charAt_before _ _
        rw [validate_loop]
        simp only [hlen, hget, if_true, hprev, hstep]
        cases rest with
        | nil =>
          have h1 : ¬ (pre.length + 1 < input.length) := by subst hin; simp
          simp only [h1, false_and, if_false, valid_rec, bad_rt, decide_eq_true_eq]
        | cons d rest2 =>
          have h1 : pre.length + 1 < input.length := by subst hin; simp
          have h2 : input.getD (pre.length + 1) '\x00' = d := by
            subst hin; exact getD_at_length_succ _ _ _ _ _
          have hstep2 := fun s2 => ih fuel (Nat.lt_succ_self _) (pre ++ [c, d]) rest2 s2
            (by simp [hin]) (by simp at hf; omega)
          simp only [List.length_append, List.length_cons, List.length_nil, List.getLast?_append,
            List.getLast?_cons_cons, List.getLast?_singleton, Option.or_some] at hstep2
          simp only [h1, h2, true_and, valid_rec, bad_rt, hstep2, decide_eq_true_eq]

/-- The function `parse_color_tags` through the list form of its loop. -/
theorem parse_color_tags_eq (input : List Char) (max_len : Int) :
    parse_color_tags input max_len =
      match render_rec max_len none input ⟨false, 0, []⟩ with
      | .error e => .error e
      | .ok s => terminate max_len s.out_pos s.output := by
  have h := parse_loop_eq input max_len (input.length + 1) [] input ⟨false, 0, []⟩ rfl
    (Nat.lt_succ_self _)
  simp only [List.length_nil, List.getLast?_nil] at h
  rw [parse_color_tags, h]

/-- The function `strip_color_tags` through the list form of its loop. -/
theorem strip_color_tags_eq (input : List Char) (max_len : Int) :
    strip_color_tags input max_len =
      match strip_rec max_len input ⟨false, 0, []⟩ with
      | .error e => .error e
      | .ok s => terminate max_len s.out_pos s.output := by
  have h := strip_loop_eq input max_len (input.length + 1) [] input ⟨false, 0, []⟩ rfl
    (Nat.lt_succ_self _)
  simp only [List.length_nil] at h
  rw [strip_color_tags, h]

/-- The function `check_colors_ct` through the list form of its loop. -/
theorem check_colors_ct_eq (input : List Char) :
    check_colors_ct input =
      if input.head? = some '|' then .ok false else valid_rec bad_ct none input false := by
  have h := check_loop_eq input (input.length + 1) [] input false rfl (Nat.lt_succ_self _)
  simp only [List.length_nil, List.getLast?_nil] at h
  rw [check_colors_ct, h]
  cases input with
  | nil => simp
  | cons c rest => simp

/-- The function `validate_color_tags_runtime` through the list form of its loop. -/
theorem validate_color_tags_runtime_eq (input : List Char) :
    validate_color_tags_runtime input =
      if input.head? = some '|' then .ok false else valid_rec bad_rt none input false := by
  have h := validate_loop_eq input (input.length + 1) [] input false rfl (Nat.lt_succ_self _)
  simp only [List.length_nil, List.getLast?_nil] at h
  rw [validate_color_tags_runtime, h]
  cases input with
  | nil => simp
  | cons c rest => simp

theorem lookup_mem {α β : Type} [BEq α] [LawfulBEq α] (l : List (α × β)) (a : α) (b : β) :
    l.lookup a = some b → (a, b) ∈ l := by
  induction l with
  | nil => simp
  | cons p l ih =>
    obtain ⟨x, y⟩ := p
    simp only [List.lookup_cons]
    by_cases h : a == x
    · simp only [h]
      intro hb
      have : a = x := by simpa using h
      simp at hb
      subst this; subst hb
      simp
    · simp only [h]
      intro hb
      exact List.mem_cons_of_mem _ (ih hb)

theorem ANSI_COLORS_all : ∀ p ∈ ANSI_COLORS, p.1 ≠ '|' ∧ p.2.length = 5 := by decide

theorem find_some (c : Char) (code : List Char) (h : ANSI_COLORS_find c = some code) :
    c ≠ '|' ∧ code.length = 5 :=
  ANSI_COLORS_all (c, code) (lookup_mem _ _ _ h)

theorem RESET_length : RESET.length = 4 := by decide

theorem render_rec_cons (max_len : Int) (prev : Option Char) (c : Char) (rest : List Char)
    (s : Scan) :
    render_rec max_len prev (c :: rest) s =
      if s.out_pos < max_len - 1 then
        if c ≠ '|' then
          match poke max_len s.out_pos s.output c with
          | .error e => .error e
          | .ok out => render_rec max_len (some c) rest ⟨s.pipe_odd, s.out_pos + 1, out⟩
        else if !s.pipe_odd then
          if rest.head? = some '|' then
            match poke max_len s.out_pos s.output '|' with
            | .error e => .error e
            | .ok out => render_rec max_len (some '|') rest.tail ⟨s.pipe_odd, s.out_pos + 1, out⟩
          else
            match open_tag max_len prev s with
            | .error e => .error e
            | .ok s2 => render_rec max_len (some c) rest s2
        else
          match close_tag max_len s with
          | .error e => .error e
          | .ok s2 => render_rec max_len (some c) rest s2
      else .ok s := by
  cases rest with
  | nil =>
    simp only [render_rec, List.head?_nil, List.tail_nil]
    repeat' split
    all_goals first | rfl | simp_all
  | cons d rest2 =>
    simp only [render_rec, List.head?_cons, List.tail_cons, Option.some.injEq]
    repeat' split
    all_goals first | rfl | simp_all

theorem poke_end (max_len : Int) (out : List Char) (c : Char)
    (h : (out.length : Int) < max_len) :
    poke max_len out.length out c = .ok (out ++ [c]) := by
  have h0 : (0 : Int) ≤ out.length := Int.natCast_nonneg _
  simp [poke, h0, h]

theorem strcpy_end (max_len : Int) (out src : List Char)
    (h : (out.length : Int) + src.length < max_len) :
    strcpy max_len out.length out src = .ok (out ++ src) := by
  have h0 : (0 : Int) ≤ out.length := Int.natCast_nonneg _
  simp [strcpy, h0, h]

theorem terminate_end (max_len : Int) (out : List Char)
    (h : (out.length : Int) < max_len) :
    terminate max_len out.length out = .ok out := by
  have h0 : (0 : Int) ≤ out.length := Int.natCast_nonneg _
  simp [terminate, h0, h]

theorem getLast?_cons_or (a : Char) (t : List Char) (prev : Option Char) :
    ((a :: t).getLast?).or prev = (t.getLast?).or (some a) := by
  rcases List.eq_nil_or_concat t with h | ⟨l, b, h⟩
  · subst h; simp
  · subst h
    have h1 : (a :: (l ++ [b])).getLast? = some b := by
      rw [← List.cons_append, List.getLast?_append]; simp
    simp [h1]

/-- Scanning a run of text without delimiters copies it, while room remains. -/
theorem render_rec_plain (max_len : Int) (t rest : List Char) :
    ∀ (prev : Option Char) (odd : Bool) (out : List Char), '|' ∉ t →
      (out.length : Int) + t.length ≤ max_len - 1 →
      render_rec max_len prev (t ++ rest) ⟨odd, out.length, out⟩
        = render_rec max_len ((t.getLast?).or prev) rest ⟨odd, (out ++ t).length, out ++ t⟩ := by
  induction t with
  | nil => intro prev odd out _ _; simp
  | cons a t ih =>
    intro prev odd out hp hm
    have ha : a ≠ '|' := fun h => hp (by simp [h])
    have ht : '|' ∉ t := fun h => hp (List.mem_cons_of_mem _ h)
    simp only [List.length_cons, Nat.cast_add, Nat.cast_one] at hm
    have h1 : (out.length : Int) < max_len - 1 := by omega
    rw [List.cons_append, render_rec_cons]
    simp only [h1, if_true, ne_eq, ha, not_false_eq_true]
    rw [poke_end _ _ _ (by omega)]
    have hl : (out.length : Int) + 1 = ((out ++ [a]).length : Int) := by simp
    simp only [hl]
    rw [ih (some a) odd (out ++ [a]) ht (by simp; omega), getLast?_cons_or]
    simp

theorem render_rec_plain_st (max_len : Int) (t rest : List Char) (prev : Option Char)
    (odd : Bool) (out : List Char) (hp : '|' ∉ t)
    (hm : (out.length : Int) + t.length ≤ max_len - 1) :
    render_rec max_len prev (t ++ rest) (st odd out)
      = render_rec max_len ((t.getLast?).or prev) rest (st odd (out ++ t)) :=
  render_rec_plain max_len t rest prev odd out hp hm

theorem strcpy_rewind (max_len : Int) (out src : List Char) (c : Char)
    (h : (out.length : Int) + src.length < max_len) :
    strcpy max_len ((out.length : Int) + 1 - 1) (out ++ [c]) src = .ok (out ++ src) := by
  have h0 : (0 : Int) ≤ out.length := Int.natCast_nonneg _
  simp [strcpy, h0, h]

/-- A recognised tag letter followed by an opening delimiter: the letter is replaced by
its colour code. -/
theorem render_rec_open (max_len : Int) (prev : Option Char) (c : Char) (code rest out : List Char)
    (hc : ANSI_COLORS_find c = some code) (hr : rest.head? ≠ some '|')
    (hm : (out.length : Int) + 5 < max_len - 1) :
    render_rec max_len prev (c :: '|' :: rest) (st false out)
      = render_rec max_len (some '|') rest (st true (out ++ code)) := by
  obtain ⟨hcp, hlen⟩ := find_some c code hc
  have h1 : (out.length : Int) < max_len - 1 := by omega
  have h2 : (out.length : Int) + 1 < max_len - 1 := by omega
  have h3 : (out.length : Int) + 1 - 1 + ((5 : Nat) : Int) < max_len - 1 := by
    simp; omega
  rw [render_rec_cons]
  simp only [st, h1, if_true, ne_eq, hcp, not_false_eq_true]
  rw [poke_end _ _ _ (by omega)]
  dsimp only
  rw [render_rec_cons]
  simp only [h2, if_true, ne_eq, not_true_eq_false, if_false, Bool.not_false, hr, open_tag,
    readPrev, hc, hlen, h3]
  rw [strcpy_rewind _ _ _ _ (by rw [hlen]; simp; omega)]
  simp [hlen]

/-- An opening delimiter whose preceding character is not a tag letter of the table:
nothing is written. -/
theorem render_rec_open_unknown (max_len : Int) (p : Char) (rest out : List Char)
    (hc : ANSI_COLORS_find p = none) (hr : rest.head? ≠ some '|')
    (hm : (out.length : Int) < max_len - 1) :
    render_rec max_len (some p) ('|' :: rest) (st false out)
      = render_rec max_len (some '|') rest (st true out) := by
  rw [render_rec_cons]
  simp only [st, hm, if_true, ne_eq, not_true_eq_false, if_false, Bool.not_false, hr, open_tag,
    readPrev, hc]

/-- A closing delimiter: the reset code is written. -/
theorem render_rec_close (max_len : Int) (prev : Option Char) (rest out : List Char)
    (hm : (out.length : Int) + 4 < max_len - 1) :
    render_rec max_len prev ('|' :: rest) (st true out)
      = render_rec max_len (some '|') rest (st false (out ++ RESET)) := by
  have h1 : (out.length : Int) < max_len - 1 := by omega
  have hR := RESET_length
  have h2 : (out.length : Int) + ((RESET.length : Nat) : Int) < max_len - 1 := by
    rw [hR]; simp; omega
  rw [render_rec_cons]
  simp only [st, h1, if_true, ne_eq, not_true_eq_false, if_false, Bool.not_true,
    Bool.false_eq_true, close_tag, h2]
  rw [strcpy_end _ _ _ (by omega)]
  simp

/-- An escape pair outside a span: one literal delimiter is written. -/
theorem render_rec_escape (max_len : Int) (prev : Option Char) (rest out : List Char)
    (hm : (out.length : Int) < max_len - 1) :
    render_rec max_len prev ('|' :: '|' :: rest) (st false out)
      = render_rec max_len (some '|') rest (st false (out ++ ['|'])) := by
  rw [render_rec_cons]
  simp only [st, hm, if_true, ne_eq, not_true_eq_false, if_false, Bool.not_false,
    List.head?_cons, List.tail_cons]
  rw [poke_end _ _ _ (by omega)]
  simp

theorem render_rec_nil (max_len : Int) (prev : Option Char) (s : Scan) :
    render_rec max_len prev [] s = .ok s := by
  simp [render_rec]

/-- The result of `parse_color_tags` when the scan ends in the state `st odd out`. -/
theorem parse_color_tags_of_scan (input : List Char) (max_len : Int) (odd : Bool)
    (out : List Char) (h : render_rec max_len none input (st false []) = .ok (st odd out))
    (hm : (out.length : Int) < max_len) :
    parse_color_tags input max_len = .ok out := by
  have h2 : render_rec max_len none input ⟨false, 0, []⟩ = .ok (st odd out) := h
  rw [parse_color_tags_eq, h2]
  exact terminate_end _ _ hm

theorem strip_rec_cons (max_len : Int) (c : Char) (rest : List Char) (s : Scan) :
    strip_rec max_len (c :: rest) s =
      if s.out_pos < max_len - 1 then
        if c ≠ '|' then
          match poke max_len s.out_pos s.output c with
          | .error e => .error e
          | .ok out => strip_rec max_len rest ⟨s.pipe_odd, s.out_pos + 1, out⟩
        else if !s.pipe_odd then
          if rest.head? = some '|' then
            match poke max_len s.out_pos s.output '|' with
            | .error e => .error e
            | .ok out => strip_rec max_len rest.tail ⟨s.pipe_odd, s.out_pos + 1, out⟩
          else strip_rec max_len rest ⟨true, s.out_pos, s.output⟩
        else strip_rec max_len rest ⟨false, s.out_pos, s.output⟩
      else .ok s := by
  cases rest with
  | nil =>
    simp only [strip_rec, List.head?_nil, List.tail_nil]
    repeat' split
    all_goals first | rfl | simp_all
  | cons d rest2 =>
    simp only [strip_rec, List.head?_cons, List.tail_cons, Option.some.injEq]

theorem strip_rec_nil (max_len : Int) (s : Scan) : strip_rec max_len [] s = .ok s := by
  simp [strip_rec]

/-- Scanning a run of text without delimiters copies it, while room remains. -/
theorem strip_rec_plain (max_len : Int) (t rest : List Char) :
    ∀ (odd : Bool) (out : List Char), '|' ∉ t →
      (out.length : Int) + t.length ≤ max_len - 1 →
      strip_rec max_len (t ++ rest) (st odd out) = strip_rec max_len rest (st odd (out ++ t)) := by
  induction t with
  | nil => intro odd out _ _; simp
  | cons a t ih =>
    intro odd out hp hm
    have ha : a ≠ '|' := fun h => hp (by simp [h])
    have ht : '|' ∉ t := fun h => hp (List.mem_cons_of_mem _ h)
    simp only [List.length_cons, Nat.cast_add, Nat.cast_one] at hm
    have h1 : (out.length : Int) < max_len - 1 := by omega
    rw [List.cons_append, strip_rec_cons]
    simp only [st, h1, if_true, ne_eq, ha, not_false_eq_true]
    rw [poke_end _ _ _ (by omega)]
    have hl : (out.length : Int) + 1 = ((out ++ [a]).length : Int) := by simp
    simp only [hl]
    have := ih odd (out ++ [a]) ht (by simp; omega)
    simp only [st] at this
    rw [this]
    simp

/-- An opening delimiter is dropped by `strip_color_tags`. -/
theorem strip_rec_open (max_len : Int) (rest out : List Char)
    (hr : rest.head? ≠ some '|') (hm : (out.length : Int) < max_len - 1) :
    strip_rec max_len ('|' :: rest) (st false out) = strip_rec max_len rest (st true out) := by
  rw [strip_rec_cons]
  simp only [st, hm, if_true, ne_eq, not_true_eq_false, if_false, Bool.not_false, hr]

/-- A closing delimiter is dropped by `strip_color_tags`. -/
theorem strip_rec_close (max_len : Int) (rest out : List Char)
    (hm : (out.length : Int) < max_len - 1) :
    strip_rec max_len ('|' :: rest) (st true out) = strip_rec max_len rest (st false out) := by
  rw [strip_rec_cons]
  simp only [st, hm, if_true, ne_eq, not_true_eq_false, if_false, Bool.not_true,
    Bool.false_eq_true]

/-- An escape pair outside a span: one literal delimiter is written. -/
theorem strip_rec_escape (max_len : Int) (rest out : List Char)
    (hm : (out.length : Int) < max_len - 1) :
    strip_rec max_len ('|' :: '|' :: rest) (st false out)
      = strip_rec max_len rest (st false (out ++ ['|'])) := by
  rw [strip_rec_cons]
  simp only [st, hm, if_true, ne_eq, not_true_eq_false, if_false, Bool.not_false,
    List.head?_cons, List.tail_cons]
  rw [poke_end _ _ _ (by omega)]
  simp

/-- The result of `strip_color_tags` when the scan ends in the state `st odd out`. -/
theorem strip_color_tags_of_scan (input : List Char) (max_len : Int) (odd : Bool)
    (out : List Char) (h : strip_rec max_len input (st false []) = .ok (st odd out))
    (hm : (out.length : Int) < max_len) :
    strip_color_tags input max_len = .ok out := by
  have h2 : strip_rec max_len input ⟨false, 0, []⟩ = .ok (st odd out) := h
  rw [strip_color_tags_eq, h2]
  exact terminate_end _ _ hm

/-- What `strip_color_tags` does with one span: the tag letter stays in the output. -/
theorem strip_single_span (c : Char) (t : List Char) (max_len : Int)
    (hc : c ≠ '|') (ht : t ≠ []) (hp : '|' ∉ t) (hm : (t.length : Int) + 3 ≤ max_len) :
    strip_color_tags (c :: '|' :: (t ++ ['|'])) max_len = .ok (c :: t) := by
  have hh : (t ++ ['|']).head? ≠ some '|' := by
    obtain ⟨a, t2, rfl⟩ := List.exists_cons_of_ne_nil ht
    have ha : a ≠ '|' := fun h => hp (by simp [h])
    simp [ha]
  apply strip_color_tags_of_scan _ _ false
  · have h1 := strip_rec_plain max_len [c] ('|' :: (t ++ ['|'])) false [] (by simp [hc.symm])
      (by simp; omega)
    simp only [List.singleton_append, List.nil_append] at h1
    rw [h1, strip_rec_open max_len _ _ hh (by simp; omega),
      strip_rec_plain max_len t ['|'] true _ hp (by simp; omega),
      strip_rec_close max_len _ _ (by simp; omega), strip_rec_nil]
    simp
  · simp; omega

theorem valid_rec_cons (bad : Char → Bool) (prev : Option Char) (c : Char) (rest : List Char)
    (odd : Bool) :
    valid_rec bad prev (c :: rest) odd =
      if c ≠ '|' then valid_rec bad (some c) rest odd
      else if !odd then
        if rest.head? = some '|' then valid_rec bad (some '|') rest.tail odd
        else
          match readPrev prev with
          | .error e => .error e
          | .ok p => if bad p then .ok false else valid_rec bad (some c) rest true
      else valid_rec bad (some c) rest false := by
  cases rest with
  | nil =>
    simp only [valid_rec, List.head?_nil, List.tail_nil]
    repeat' split
    all_goals first | rfl | simp_all
  | cons d rest2 =>
    simp only [valid_rec, List.head?_cons, List.tail_cons, Option.some.injEq]
    repeat' split
    all_goals first | rfl | simp_all

theorem valid_rec_nil (bad : Char → Bool) (prev : Option Char) (odd : Bool) :
    valid_rec bad prev [] odd = .ok (!odd) := by
  simp [valid_rec]

/-- A run of text without delimiters does not change the validator state. -/
theorem valid_rec_plain (bad : Char → Bool) (t rest : List Char) :
    ∀ (prev : Option Char) (odd : Bool), '|' ∉ t →
      valid_rec bad prev (t ++ rest) odd = valid_rec bad ((t.getLast?).or prev) rest odd := by
  induction t with
  | nil => intro prev odd _; simp
  | cons a t ih =>
    intro prev odd hp
    have ha : a ≠ '|' := fun h => hp (by simp [h])
    have ht : '|' ∉ t := fun h => hp (List.mem_cons_of_mem _ h)
    rw [List.cons_append, valid_rec_cons]
    simp only [ne_eq, ha, not_false_eq_true, if_true]
    rw [ih (some a) odd ht, getLast?_cons_or]

/-- The validator on one well-formed span followed by `rest`. -/
theorem valid_rec_span (bad : Char → Bool) (prev : Option Char) (p : Char × List Char)
    (rest : List Char) (h1 : p.1 ≠ '|') (h2 : p.2 ≠ []) (h3 : '|' ∉ p.2) :
    valid_rec bad prev (span p ++ rest) false
      = if bad p.1 then .ok false else valid_rec bad (some '|') rest false := by
  obtain ⟨l, t⟩ := p
  simp only at h1 h2 h3
  have hh : (t ++ '|' :: rest).head? ≠ some '|' := by
    obtain ⟨a, t2, rfl⟩ := List.exists_cons_of_ne_nil h2
    have ha : a ≠ '|' := fun h => h3 (by simp [h])
    simp [ha]
  have e : span (l, t) ++ rest = l :: '|' :: (t ++ '|' :: rest) := by simp [span]
  rw [e, valid_rec_cons]
  simp only [ne_eq, h1, not_false_eq_true, if_true]
  rw [valid_rec_cons]
  simp only [ne_eq, not_true_eq_false, if_false, Bool.not_false, hh, readPrev]
  by_cases hb : bad l = true
  · simp [hb]
  · simp only [hb, if_false]
    rw [valid_rec_plain bad t _ _ _ h3, valid_rec_cons]
    simp

/-- The validator on a message of well-formed spans. -/
theorem valid_rec_spans (bad : Char → Bool) :
    ∀ (ps : List (Char × List Char)) (prev : Option Char),
      (∀ p ∈ ps, p.1 ≠ '|' ∧ p.2 ≠ [] ∧ '|' ∉ p.2) →
      valid_rec bad prev (span_message ps) false = .ok (ps.all fun p => !bad p.1) := by
  intro ps
  induction ps with
  | nil => intro prev _; simp [span_message, valid_rec]
  | cons p ps ih =>
    intro prev h
    obtain ⟨h1, h2, h3⟩ := h p (List.mem_cons_self _ _)
    rw [span_message, valid_rec_span bad prev p _ h1 h2 h3]
    by_cases hb : bad p.1 = true
    · simp [hb]
    · rw [if_neg hb, ih (some '|') (fun q hq => h q (List.mem_cons_of_mem _ hq))]
      simp [hb]

theorem span_message_head (ps : List (Char × List Char))
    (h : ∀ p ∈ ps, p.1 ≠ '|' ∧ p.2 ≠ [] ∧ '|' ∉ p.2) :
    (span_message ps).head? ≠ some '|' := by
  cases ps with
  | nil => simp [span_message]
  | cons p ps =>
    have := (h p (List.mem_cons_self _ _)).1
    simp [span_message, span, this]

theorem scan_pipe_odd_cons (odd : Bool) (c : Char) (rest : List Char) :
    scan_pipe_odd odd (c :: rest) =
      if c ≠ '|' then scan_pipe_odd odd rest
      else if !odd then
        if rest.head? = some '|' then scan_pipe_odd odd rest.tail else scan_pipe_odd true rest
      else scan_pipe_odd false rest := by
  cases rest with
  | nil =>
    simp only [scan_pipe_odd, List.head?_nil, List.tail_nil]
    repeat' split
    all_goals first | rfl | simp_all
  | cons d rest2 =>
    simp only [scan_pipe_odd, List.head?_cons, List.tail_cons, Option.some.injEq]

/-- A validator that accepts has ended its scan outside a span. -/
theorem valid_rec_true (bad : Char → Bool) :
    ∀ (n : Nat) (rest : List Char), rest.length ≤ n → ∀ (prev : Option Char) (odd : Bool),
      valid_rec bad prev rest odd = .ok true → scan_pipe_odd odd rest = false := by
  intro n
  induction n with
  | zero =>
    intro rest hl prev odd h
    have : rest = [] := List.length_eq_zero.mp (Nat.le_zero.mp hl)
    subst this
    simpa [valid_rec, scan_pipe_odd] using h
  | succ n ih =>
    intro rest hl prev odd h
    cases rest with
    | nil => simpa [valid_rec, scan_pipe_odd] using h
    | cons c rest =>
      have hl1 : rest.length ≤ n := by simpa using hl
      have hl2 : rest.tail.length ≤ n := by simp; omega
      rw [valid_rec_cons] at h
      rw [scan_pipe_odd_cons]
      by_cases hc : c = '|'
      · simp only [hc, ne_eq, not_true_eq_false, if_false] at h ⊢
        cases odd with
        | true =>
          simp only [Bool.not_true, Bool.false_eq_true, if_false] at h ⊢
          exact ih rest hl1 _ _ h
        | false =>
          simp only [Bool.not_false, if_true] at h ⊢
          by_cases hh : rest.head? = some '|'
          · simp only [hh, if_true] at h ⊢
            exact ih _ hl2 _ _ h
          · simp only [hh, if_false] at h ⊢
            cases hr : readPrev prev with
            | error e => simp [hr] at h
            | ok p =>
              simp only [hr] at h
              by_cases hb : bad p = true
              · simp [hb] at h
              · simp only [hb, if_false] at h
                exact ih rest hl1 _ _ h
      · simp only [ne_eq, hc, not_false_eq_true, if_true] at h ⊢
        exact ih rest hl1 _ _ h

/-- Once a character has been passed, the validator loop reads no position before the
input and so returns a verdict. -/
theorem valid_rec_total (bad : Char → Bool) :
    ∀ (n : Nat) (rest : List Char), rest.length ≤ n → ∀ (p : Char) (odd : Bool),
      ∃ b, valid_rec bad (some p) rest odd = .ok b := by
  intro n
  induction n with
  | zero =>
    intro rest hl p odd
    have : rest = [] := List.length_eq_zero.mp (Nat.le_zero.mp hl)
    subst this
    exact ⟨!odd, by simp [valid_rec]⟩
  | succ n ih =>
    intro rest hl p odd
    cases rest with
    | nil => exact ⟨!odd, by simp [valid_rec]⟩
    | cons c rest =>
      have hl1 : rest.length ≤ n := by simpa using hl
      have hl2 : rest.tail.length ≤ n := by simp; omega
      rw [valid_rec_cons]
      by_cases hc : c = '|'
      · simp only [hc, ne_eq, not_true_eq_false, if_false]
        cases odd with
        | true =>
          simp only [Bool.not_true, Bool.false_eq_true, if_false]
          exact ih rest hl1 _ _
        | false =>
          simp only [Bool.not_false, if_true]
          by_cases hh : rest.head? = some '|'
          · simp only [hh, if_true]
            exact ih _ hl2 _ _
          · simp only [hh, if_false, readPrev]
            by_cases hb : bad p = true
            · exact ⟨false, by simp [hb]⟩
            · simp only [hb, if_false]
              exact ih rest hl1 _ _
      · simp only [ne_eq, hc, not_false_eq_true, if_true]
        exact ih rest hl1 _ _

/-- Behind the leading-delimiter check the validator loop always returns a verdict. -/
theorem valid_rec_total_top (bad : Char → Bool) (input : List Char)
    (h : input.head? ≠ some '|') : ∃ b, valid_rec bad none input false = .ok b := by
  cases input with
  | nil => exact ⟨true, by simp [valid_rec]⟩
  | cons c rest =>
    have hc : c ≠ '|' := by simpa using h
    rw [valid_rec_cons]
    simp only [ne_eq, hc, not_false_eq_true, if_true]
    exact valid_rec_total bad rest.length rest (le_refl _) c false

/-- The function `check_colors_ct` reads no position outside the input: it always returns a verdict. -/
theorem check_colors_ct_total (input : List Char) : ∃ b, check_colors_ct input = .ok b := by
  rw [check_colors_ct_eq]
  by_cases h : input.head? = some '|'
  · exact ⟨false, by simp [h]⟩
  · simp only [h, if_false]
    exact valid_rec_total_top _ _ h

/-- The function `validate_color_tags_runtime` reads no position outside the input: it always returns
a verdict. -/
theorem validate_color_tags_runtime_total (input : List Char) :
    ∃ b, validate_color_tags_runtime input = .ok b := by
  rw [validate_color_tags_runtime_eq]
  by_cases h : input.head? = some '|'
  · exact ⟨false, by simp [h]⟩
  · simp only [h, if_false]
    exact valid_rec_total_top _ _ h

/-- An accepted input ends its scan outside a span (`check_colors_ct`). -/
theorem check_colors_ct_true (input : List Char) (h : check_colors_ct input = .ok true) :
    scan_pipe_odd false input = false := by
  rw [check_colors_ct_eq] at h
  by_cases hh : input.head? = some '|'
  · simp [hh] at h
  · simp only [hh, if_false] at h
    exact valid_rec_true _ _ _ (le_refl _) _ _ h

/-- An accepted input ends its scan outside a span (`validate_color_tags_runtime`). -/
theorem validate_color_tags_runtime_true (input : List Char)
    (h : validate_color_tags_runtime input = .ok true) :
    scan_pipe_odd false input = false := by
  rw [validate_color_tags_runtime_eq] at h
  by_cases hh : input.head? = some '|'
  · simp [hh] at h
  · simp only [hh, if_false] at h
    exact valid_rec_true _ _ _ (le_refl _) _ _ h

theorem scan_pipe_odd_plain (t : List Char) (odd : Bool) (hp : '|' ∉ t) :
    scan_pipe_odd odd t = odd := by
  induction t with
  | nil => simp [scan_pipe_odd]
  | cons a t ih =>
    have ha : a ≠ '|' := fun h => hp (by simp [h])
    have ht : '|' ∉ t := fun h => hp (List.mem_cons_of_mem _ h)
    rw [scan_pipe_odd_cons]
    simp [ha, ih ht]

theorem scan_pipe_odd_unclosed (c : Char) (t : List Char) (hc : c ≠ '|') (hp : '|' ∉ t) :
    scan_pipe_odd false (c :: '|' :: t) = true := by
  have hh : t.head? ≠ some '|' := by
    cases t with
    | nil => simp
    | cons a t => 
      have ha : a ≠ '|' := fun h => hp (by simp [h])
      simp [ha]
  rw [scan_pipe_odd_cons]
  simp only [ne_eq, hc, not_false_eq_true, if_true]
  rw [scan_pipe_odd_cons]
  simp only [ne_eq, not_true_eq_false, if_false, Bool.not_false, if_true, hh]
  exact scan_pipe_odd_plain t true hp

/-- A run of text without delimiters is copied until the buffer is full (render). -/
theorem render_rec_plain_trunc (max_len : Int) (t : List Char) :
    ∀ (prev : Option Char) (odd : Bool) (out : List Char), '|' ∉ t →
      (out.length : Int) ≤ max_len - 1 →
      render_rec max_len prev t (st odd out)
        = .ok (st odd (out ++ t.take ((max_len - 1).toNat - out.length))) := by
  induction t with
  | nil => intro prev odd out _ _; simp [render_rec]
  | cons a t ih =>
    intro prev odd out hp hm
    have ha : a ≠ '|' := fun h => hp (by simp [h])
    have ht : '|' ∉ t := fun h => hp (List.mem_cons_of_mem _ h)
    rw [render_rec_cons]
    by_cases h1 : (out.length : Int) < max_len - 1
    · simp only [st, h1, if_true, ne_eq, ha, not_false_eq_true]
      rw [poke_end _ _ _ (by omega)]
      have hl : (out.length : Int) + 1 = ((out ++ [a]).length : Int) := by simp
      have := ih (some a) odd (out ++ [a]) ht (by simp; omega)
      simp only [st] at this
      simp only [hl]
      rw [this]
      have hk : (max_len - 1).toNat - out.length = ((max_len - 1).toNat - (out ++ [a]).length) + 1 := by
        simp; omega
      rw [hk, List.take_succ_cons]
      simp
    · have hk : (max_len - 1).toNat - out.length = 0 := by omega
      rw [hk]
      simp only [st, h1, if_false, List.take_zero, List.append_nil]

/-- A run of text without delimiters is copied until the buffer is full (strip). -/
theorem strip_rec_plain_trunc (max_len : Int) (t : List Char) :
    ∀ (odd : Bool) (out : List Char), '|' ∉ t →
      (out.length : Int) ≤ max_len - 1 →
      strip_rec max_len t (st odd out)
        = .ok (st odd (out ++ t.take ((max_len - 1).toNat - out.length))) := by
  induction t with
  | nil => intro odd out _ _; simp [strip_rec]
  | cons a t ih =>
    intro odd out hp hm
    have ha : a ≠ '|' := fun h => hp (by simp [h])
    have ht : '|' ∉ t := fun h => hp (List.mem_cons_of_mem _ h)
    rw [strip_rec_cons]
    by_cases h1 : (out.length : Int) < max_len - 1
    · simp only [st, h1, if_true, ne_eq, ha, not_false_eq_true]
      rw [poke_end _ _ _ (by omega)]
      have hl : (out.length : Int) + 1 = ((out ++ [a]).length : Int) := by simp
      have := ih odd (out ++ [a]) ht (by simp; omega)
      simp only [st] at this
      simp only [hl]
      rw [this]
      have hk : (max_len - 1).toNat - out.length = ((max_len - 1).toNat - (out ++ [a]).length) + 1 := by
        simp; omega
      rw [hk, List.take_succ_cons]
      simp
    · have hk : (max_len - 1).toNat - out.length = 0 := by omega
      rw [hk]
      simp only [st, h1, if_false, List.take_zero, List.append_nil]

theorem head_ne_pipe (t rest : List Char) (ht : t ≠ []) (hp : '|' ∉ t) :
    (t ++ rest).head? ≠ some '|' := by
  obtain ⟨a, t2, rfl⟩ := List.exists_cons_of_ne_nil ht
  have ha : a ≠ '|' := fun h => hp (by simp [h])
  simp [ha]

theorem find_pipe : ANSI_COLORS_find '|' = none := by decide

/-- Escape pair outside a span (render). -/
theorem render_escape_outside (u v : List Char) (max_len : Int) (hu : '|' ∉ u) (hv : '|' ∉ v)
    (hm : (u.length : Int) + v.length + 2 ≤ max_len) :
    parse_color_tags (u ++ '|' :: '|' :: v) max_len = .ok (u ++ '|' :: v) := by
  apply parse_color_tags_of_scan _ _ false
  · rw [render_rec_plain_st max_len u _ none false [] hu (by simp; omega),
      render_rec_escape max_len _ _ _ (by simp; omega)]
    have := render_rec_plain_st max_len v [] (some '|') false ([] ++ u ++ ['|']) hv
      (by simp; omega)
    rw [List.append_nil] at this
    rw [this, render_rec_nil]
    simp
  · simp; omega

/-- Escape pair outside a span (strip). -/
theorem strip_escape_outside (u v : List Char) (max_len : Int) (hu : '|' ∉ u) (hv : '|' ∉ v)
    (hm : (u.length : Int) + v.length + 2 ≤ max_len) :
    strip_color_tags (u ++ '|' :: '|' :: v) max_len = .ok (u ++ '|' :: v) := by
  apply strip_color_tags_of_scan _ _ false
  · rw [strip_rec_plain max_len u _ false [] hu (by simp; omega),
      strip_rec_escape max_len _ _ (by simp; omega)]
    have := strip_rec_plain max_len v [] false ([] ++ u ++ ['|']) hv (by simp; omega)
    rw [List.append_nil] at this
    rw [this, strip_rec_nil]
    simp
  · simp; omega

/-- Two delimiters inside an open span, more text following (render). -/
theorem render_pair_inside (c : Char) (code u v : List Char) (max_len : Int)
    (hc : ANSI_COLORS_find c = some code) (hu0 : u ≠ []) (hv0 : v ≠ [])
    (hu : '|' ∉ u) (hv : '|' ∉ v) (hm : (u.length : Int) + v.length + 15 ≤ max_len) :
    parse_color_tags (c :: '|' :: (u ++ '|' :: '|' :: (v ++ ['|']))) max_len
      = .ok (code ++ u ++ RESET ++ v ++ RESET) := by
  obtain ⟨hcp, hlen⟩ := find_some c code hc
  have hR := RESET_length
  apply parse_color_tags_of_scan _ _ false
  · rw [render_rec_open max_len none c code _ [] hc (head_ne_pipe u _ hu0 hu) (by simp; omega),
      render_rec_plain_st max_len u _ _ true _ hu (by simp [hlen]; omega),
      render_rec_close max_len _ _ _ (by simp [hlen]; omega),
      render_rec_open_unknown max_len '|' _ _ find_pipe (head_ne_pipe v _ hv0 hv)
        (by simp [hlen, hR]; omega),
      render_rec_plain_st max_len v _ _ true _ hv (by simp [hlen, hR]; omega),
      render_rec_close max_len _ _ _ (by simp [hlen, hR]; omega), render_rec_nil]
    simp
  · simp [hlen, hR]; omega

/-- Three delimiters ending an open span (render). -/
theorem render_pair_inside_end (c : Char) (code u : List Char) (max_len : Int)
    (hc : ANSI_COLORS_find c = some code) (hu0 : u ≠ [])
    (hu : '|' ∉ u) (hm : (u.length : Int) + 11 ≤ max_len) :
    parse_color_tags (c :: '|' :: (u ++ ['|', '|', '|'])) max_len
      = .ok (code ++ u ++ RESET ++ ['|']) := by
  obtain ⟨hcp, hlen⟩ := find_some c code hc
  have hR := RESET_length
  apply parse_color_tags_of_scan _ _ false
  · rw [render_rec_open max_len none c code _ [] hc (head_ne_pipe u _ hu0 hu) (by simp; omega),
      render_rec_plain_st max_len u _ _ true _ hu (by simp [hlen]; omega),
      render_rec_close max_len _ _ _ (by simp [hlen]; omega)]
    simp only [List.nil_append]
    rw [render_rec_escape max_len _ _ _ (by simp [hlen, hR]; omega), render_rec_nil]
  · simp [hlen, hR]; omega

/-- Two delimiters inside an open span (strip): both are dropped. -/
theorem strip_pair_inside (c : Char) (u v : List Char) (max_len : Int)
    (hcp : c ≠ '|') (hu0 : u ≠ []) (hv0 : v ≠ [])
    (hu : '|' ∉ u) (hv : '|' ∉ v) (hm : (u.length : Int) + v.length + 3 ≤ max_len) :
    strip_color_tags (c :: '|' :: (u ++ '|' :: '|' :: (v ++ ['|']))) max_len
      = .ok (c :: (u ++ v)) := by
  apply strip_color_tags_of_scan _ _ false
  · have h1 := strip_rec_plain max_len [c] ('|' :: (u ++ '|' :: '|' :: (v ++ ['|']))) false []
      (by simp [hcp.symm]) (by simp; omega)
    simp only [List.singleton_append, List.nil_append] at h1
    rw [h1, strip_rec_open max_len _ _ (head_ne_pipe u _ hu0 hu) (by simp; omega),
      strip_rec_plain max_len u _ true _ hu (by simp; omega),
      strip_rec_close max_len _ _ (by simp; omega),
      strip_rec_open max_len _ _ (head_ne_pipe v _ hv0 hv) (by simp; omega),
      strip_rec_plain max_len v _ true _ hv (by simp; omega),
      strip_rec_close max_len _ _ (by simp; omega), strip_rec_nil]
    simp
  · simp; omega

/-- The strip loop never leaves the buffer: from a cursor in `0..max_len-1` it returns a
state whose cursor is in `0..max_len-1`. -/
theorem strip_rec_bound (max_len : Int) :
    ∀ (n : Nat) (rest : List Char), rest.length ≤ n → ∀ (s : Scan),
      0 ≤ s.out_pos → s.out_pos ≤ max_len - 1 →
      ∃ s2, strip_rec max_len rest s = .ok s2 ∧ 0 ≤ s2.out_pos ∧ s2.out_pos ≤ max_len - 1 := by
  intro n
  induction n with
  | zero =>
    intro rest hl s h0 h1
    have : rest = [] := List.length_eq_zero.mp (Nat.le_zero.mp hl)
    subst this
    exact ⟨s, by simp [strip_rec], h0, h1⟩
  | succ n ih =>
    intro rest hl s h0 h1
    cases rest with
    | nil => exact ⟨s, by simp [strip_rec], h0, h1⟩
    | cons c rest =>
      have hl1 : rest.length ≤ n := by simpa using hl
      have hl2 : rest.tail.length ≤ n := by simp; omega
      rw [strip_rec_cons]
      by_cases hlt : s.out_pos < max_len - 1
      · have hpk : ∀ x, poke max_len s.out_pos s.output x
            = .ok (s.output.take s.out_pos.toNat ++ [x]) := by
          intro x
          have : s.out_pos < max_len := by omega
          simp [poke, h0, this]
        simp only [hlt, if_true, hpk]
        by_cases hc : c = '|'
        · simp only [hc, ne_eq, not_true_eq_false, if_false]
          cases hodd : s.pipe_odd with
          | true =>
            simp only [Bool.not_true, Bool.false_eq_true, if_false]
            exact ih rest hl1 _ h0 h1
          | false =>
            simp only [Bool.not_false, if_true]
            by_cases hh : rest.head? = some '|'
            · simp only [hh, if_true]
              exact ih _ hl2 _ (by simp; omega) (by simp; omega)
            · simp only [hh, if_false]
              exact ih rest hl1 _ h0 h1
        · simp only [ne_eq, hc, not_false_eq_true, if_true]
          exact ih rest hl1 _ (by simp; omega) (by simp; omega)
      · simp only [hlt, if_false]
        exact ⟨s, rfl, h0, h1⟩

/-- For every input, `strip_color_tags` writes inside the buffer only and returns a string
of at most `max_len - 1` characters. -/
theorem strip_color_tags_bound (input : List Char) (max_len : Int) (hm : 1 ≤ max_len) :
    ∃ out, strip_color_tags input max_len = .ok out ∧ (out.length : Int) ≤ max_len - 1 := by
  obtain ⟨s2, h, h0, h1⟩ := strip_rec_bound max_len input.length input (le_refl _)
    ⟨false, 0, []⟩ (le_refl _) (by simp; omega)
  rw [strip_color_tags_eq, h]
  have h2 : s2.out_pos < max_len := by omega
  refine ⟨s2.output.take s2.out_pos.toNat, by simp [terminate, h0, h2], ?_⟩
  have := List.length_take_le s2.out_pos.toNat s2.output
  omega

/-- Behind a character that is not read before the input, the render loop never leaves
the buffer: the cursor stays in `0..max_len-1`, and it is at least 1 whenever the character
just passed was copied (was not a delimiter), which is when the rewind may happen. -/
theorem render_rec_bound (max_len : Int) :
    ∀ (n : Nat) (rest : List Char), rest.length ≤ n → ∀ (p : Char) (s : Scan),
      0 ≤ s.out_pos → s.out_pos ≤ max_len - 1 → (p ≠ '|' → 1 ≤ s.out_pos) →
      ∃ s2, render_rec max_len (some p) rest s = .ok s2 ∧ 0 ≤ s2.out_pos ∧
        s2.out_pos ≤ max_len - 1 := by
  intro n
  induction n with
  | zero =>
    intro rest hl p s h0 h1 _
    have : rest = [] := List.length_eq_zero.mp (Nat.le_zero.mp hl)
    subst this
    exact ⟨s, by simp [render_rec], h0, h1⟩
  | succ n ih =>
    intro rest hl p s h0 h1 hp
    cases rest with
    | nil => exact ⟨s, by simp [render_rec], h0, h1⟩
    | cons c rest =>
      have hl1 : rest.length ≤ n := by simpa using hl
      have hl2 : rest.tail.length ≤ n := by simp; omega
      rw [render_rec_cons]
      by_cases hlt : s.out_pos < max_len - 1
      · have hpk : ∀ x, poke max_len s.out_pos s.output x
            = .ok (s.output.take s.out_pos.toNat ++ [x]) := by
          intro x
          have : s.out_pos < max_len := by omega
          simp [poke, h0, this]
        simp only [hlt, if_true, hpk]
        by_cases hc : c = '|'
        · simp only [hc, ne_eq, not_true_eq_false, if_false]
          cases hodd : s.pipe_odd with
          | true =>
            simp only [Bool.not_true, Bool.false_eq_true, if_false, close_tag]
            by_cases hfit : s.out_pos + RESET.length < max_len - 1
            · have hcp : strcpy max_len s.out_pos s.output RESET
                  = .ok (s.output.take s.out_pos.toNat ++ RESET) := by
                have : s.out_pos + RESET.length < max_len := by omega
                simp [strcpy, h0, this]
              simp only [hfit, if_true, hcp]
              exact ih rest hl1 _ _ (by simp; omega) (by simp; omega) (fun h => absurd rfl h)
            · simp only [hfit, if_false]
              exact ih rest hl1 _ _ h0 h1 (fun h => absurd rfl h)
          | false =>
            simp only [Bool.not_false, if_true]
            by_cases hh : rest.head? = some '|'
            · simp only [hh, if_true]
              exact ih _ hl2 _ _ (by simp; omega) (by simp; omega) (fun h => absurd rfl h)
            · simp only [hh, if_false, open_tag, readPrev]
              cases hf : ANSI_COLORS_find p with
              | none =>
                simp only
                exact ih rest hl1 _ _ h0 h1 (fun h => absurd rfl h)
              | some code =>
                have hp1 : 1 ≤ s.out_pos := hp (find_some p code hf).1
                simp only
                by_cases hfit : s.out_pos - 1 + code.length < max_len - 1
                · have hcp : strcpy max_len (s.out_pos - 1) s.output code
                      = .ok (s.output.take (s.out_pos - 1).toNat ++ code) := by
                    have h3 : 0 ≤ s.out_pos - 1 := by omega
                    have : s.out_pos - 1 + code.length < max_len := by omega
                    simp [strcpy, h3, this]
                  simp only [hfit, if_true, hcp]
                  exact ih rest hl1 _ _ (by simp; omega) (by simp; omega) (fun h => absurd rfl h)
                · simp only [hfit, if_false]
                  exact ih rest hl1 _ _ (by simp; omega) (by simp; omega) (fun h => absurd rfl h)
        · simp only [ne_eq, hc, not_false_eq_true, if_true]
          exact ih rest hl1 _ _ (by simp; omega) (by simp; omega) (fun _ => by simp; omega)
      · simp only [hlt, if_false]
        exact ⟨s, rfl, h0, h1⟩

/-- Unless the input begins with a lone delimiter and the buffer has room for a character,
`parse_color_tags` writes inside the buffer only and returns a string of at most
`max_len - 1` characters. -/
theorem parse_color_tags_bound (input : List Char) (max_len : Int) (hm : 1 ≤ max_len)
    (h : ¬ (lone_lead input ∧ 2 ≤ max_len)) :
    ∃ out, parse_color_tags input max_len = .ok out ∧ (out.length : Int) ≤ max_len - 1 := by
  have key : ∃ s2, render_rec max_len none input ⟨false, 0, []⟩ = .ok s2 ∧ 0 ≤ s2.out_pos ∧
      s2.out_pos ≤ max_len - 1 := by
    cases input with
    | nil => exact ⟨⟨false, 0, []⟩, by simp [render_rec], le_refl _, by simp; omega⟩
    | cons c rest =>
      rw [render_rec_cons]
      by_cases hlt : (0 : Int) < max_len - 1
      · have hpk : ∀ x, poke max_len 0 [] x = .ok [x] := by
          intro x
          have : (0 : Int) < max_len := by omega
          simp [poke, this]
        simp only [hlt, if_true, hpk]
        by_cases hc : c = '|'
        · subst hc
          simp only [ne_eq, not_true_eq_false, if_false, Bool.not_false, if_true]
          by_cases hh : rest.head? = some '|'
          · simp only [hh, if_true]
            exact render_rec_bound max_len _ _ (le_refl _) _ _ (by simp) (by simp; omega)
              (fun h => absurd rfl h)
          · exfalso
            apply h
            refine ⟨⟨by simp, by simpa using hh⟩, by omega⟩
        · simp only [ne_eq, hc, not_false_eq_true, if_true]
          exact render_rec_bound max_len _ _ (le_refl _) _ _ (by simp) (by simp; omega)
            (fun _ => by simp)
      · simp only [hlt, if_false]
        exact ⟨⟨false, 0, []⟩, rfl, le_refl _, by simp; omega⟩
  obtain ⟨s2, hk, h0, h1⟩ := key
  rw [parse_color_tags_eq, hk]
  have h2 : s2.out_pos < max_len := by omega
  refine ⟨s2.output.take s2.out_pos.toNat, by simp [terminate, h0, h2], ?_⟩
  have := List.length_take_le s2.out_pos.toNat s2.output
  omega

/-- On an input that begins with a lone delimiter, with room for a character in the
buffer, `parse_color_tags` reads `input[-1]`. -/
theorem parse_color_tags_lone_lead (input : List Char) (max_len : Int)
    (h : lone_lead input) (hm : 2 ≤ max_len) :
    parse_color_tags input max_len = .error (.read (-1)) := by
  obtain ⟨h1, h2⟩ := h
  cases input with
  | nil => simp at h1
  | cons c rest =>
    have hc : c = '|' := by simpa using h1
    subst hc
    have hh : ¬ (rest.head? = some '|') := by simpa using h2
    have hlt : (0 : Int) < max_len - 1 := by omega
    rw [parse_color_tags_eq, render_rec_cons]
    simp [hlt, hh, open_tag, readPrev]

theorem store_at (pre post : List Char) (x c : Char) :
    store (pre ++ x :: post) pre.length c = .ok (pre ++ c :: post) := by
  have h0 : (0 : Int) ≤ pre.length := Int.natCast_nonneg _
  have h1 : (pre.length : Int) < ((pre ++ x :: post).length : Nat) := by simp
  simp only [store, h0, h1, and_self, if_true, Int.toNat_natCast]
  congr 1
  rw [List.set_append_right _ _ (le_refl _)]
  simp

theorem store_at_add (pre post : List Char) (x c : Char) (k : Int) (hk : k = pre.length) :
    store (pre ++ x :: post) k c = .ok (pre ++ c :: post) := by
  subst hk; exact store_at pre post x c

theorem strncpy_at (pre mid post src : List Char) :
    strncpy (pre ++ mid ++ post) pre.length src mid.length
      = .ok (pre ++ (src.take mid.length ++ List.replicate (mid.length - src.length) '\x00')
          ++ post) := by
  have h0 : (0 : Int) ≤ pre.length := Int.natCast_nonneg _
  have h1 : (0 : Int) ≤ mid.length := Int.natCast_nonneg _
  have h2 : (pre.length : Int) + mid.length ≤ ((pre ++ mid ++ post).length : Nat) := by
    simp
  simp only [strncpy, h0, h1, h2, and_self, if_true, Int.toNat_natCast]
  congr 1
  have e1 : (pre ++ mid ++ post).take pre.length = pre := by
    rw [List.append_assoc, List.take_left']
    rfl
  have e2 : (pre ++ mid ++ post).drop (pre.length + mid.length) = post := by
    have : pre.length + mid.length = (pre ++ mid).length := by simp
    rw [this, List.drop_left']
    rfl
  rw [e1, e2]

theorem cstr_at (content junk : List Char) (h : '\x00' ∉ content) :
    cstr (content ++ '\x00' :: junk) = .ok content := by
  have hm : '\x00' ∈ content ++ '\x00' :: junk := by simp
  simp only [cstr, hm, if_true]
  congr 1
  clear hm
  induction content with
  | nil => simp
  | cons a t ih =>
    have ha : a ≠ '\x00' := fun e => h (by simp [e])
    have ht : '\x00' ∉ t := fun e => h (List.mem_cons_of_mem _ e)
    have := ih ht
    simp only [List.cons_append, List.takeWhile_cons, ne_eq, ha, not_false_eq_true,
      decide_True, if_true, this]

/-- A buffer satisfying the invariant is its content, a NUL and the cells behind it. -/
theorem wf_split (w : Writer) (h : w.wf) :
    ∃ content junk, w.buffer = content ++ '\x00' :: junk ∧ '\x00' ∉ content ∧
      w.buffer_pos = content.length := by
  obtain ⟨h0, h1, h2, h3⟩ := h
  have hn : w.buffer_pos.toNat < w.buffer.length := by omega
  refine ⟨w.buffer.take w.buffer_pos.toNat, w.buffer.drop (w.buffer_pos.toNat + 1), ?_, h3, ?_⟩
  · have e := List.getD_eq_getElem w.buffer 'x' hn
    rw [h2] at e
    conv_lhs => rw [← List.take_append_drop w.buffer_pos.toNat w.buffer]
    rw [List.drop_eq_getElem_cons hn, ← e]
  · rw [List.length_take]
    omega

theorem wf_of_split (content junk : List Char) (printed : List (List Char))
    (h : '\x00' ∉ content) :
    (Writer.mk (content ++ '\x00' :: junk) content.length printed).wf := by
  refine ⟨Int.natCast_nonneg _, by simp, ?_, ?_⟩
  · simp only [Int.toNat_natCast]
    exact getD_at_length content '\x00' junk 'x'
  · simp only [Int.toNat_natCast]
    rw [List.take_left']
    · exact h
    · rfl

theorem BaseBufferedWriter_write_eq (flush : Writer → Except Fault Writer) (w : Writer)
    (msg : List Char) :
    BaseBufferedWriter_write flush w msg =
      match (if w.buffer_pos + (msg.length : Int) + 1 ≥ w.buffer.length then flush w
        else .ok w) with
      | .error e => .error e
      | .ok w1 => write_store w1 msg := rfl

theorem exists_cons_of_length_pos (l : List Char) (h : 0 < l.length) :
    ∃ y rest, l = y :: rest := by
  cases l with
  | nil => simp at h
  | cons y rest => exact ⟨y, rest, rfl⟩

/-- The store phase of `write` on a buffer that satisfies the invariant, for a line that
fits behind the cursor. -/
theorem write_store_ok (content junk line : List Char) (printed : List (List Char))
    (hl : line.length ≤ junk.length) :
    ∃ junk2, write_store ⟨content ++ '\x00' :: junk, content.length, printed⟩ line
      = .ok ⟨content ++ line ++ line_end (decide (line.length + 1 < junk.length))
              ++ '\x00' :: junk2,
            ((content ++ line ++ line_end (decide (line.length + 1 < junk.length))).length : Nat),
            printed⟩ ∧
      (content ++ line ++ line_end (decide (line.length + 1 < junk.length))
        ++ '\x00' :: junk2).length = (content ++ '\x00' :: junk).length := by
  have hne : ('\x00' :: junk) ≠ [] := by simp
  have hsplit := List.dropLast_append_getLast hne
  set mid := ('\x00' :: junk).dropLast with hmid
  set z := ('\x00' :: junk).getLast hne with hz
  have hmidlen : mid.length = junk.length := by simp [hmid]
  have hn : (((content ++ '\x00' :: junk).length : Nat) : Int) - (content.length : Int) - 1
      = (mid.length : Int) := by
    rw [hmidlen]; simp
  have hbuf : content ++ '\x00' :: junk = content ++ mid ++ [z] := by
    rw [List.append_assoc, hsplit]
  have hcopy : strncpy (content ++ '\x00' :: junk) content.length line (mid.length : Int)
      = .ok (content ++ line ++ (List.replicate (junk.length - line.length) '\x00' ++ [z])) := by
    rw [hbuf, strncpy_at, hmidlen, List.take_of_length_le hl]
    simp
  unfold write_store
  simp only [hn, hcopy]
  by_cases hroom : line.length + 1 < junk.length
  · have hc : (content.length : Int) + (line.length : Int) + 2
        < (((content ++ '\x00' :: junk).length : Nat) : Int) := by
      simp; omega
    obtain ⟨m, hm⟩ : ∃ m, junk.length - line.length = m + 2 := ⟨junk.length - line.length - 2, by omega⟩
    obtain ⟨y, rest, hy⟩ := exists_cons_of_length_pos (List.replicate m '\x00' ++ [z]) (by simp)
    have hfill : List.replicate (junk.length - line.length) '\x00' ++ [z]
        = '\x00' :: '\x00' :: y :: rest := by
      rw [hm, List.replicate_succ, List.replicate_succ, List.cons_append, List.cons_append, hy]
    have s1 := store_at_add (content ++ line) ('\x00' :: y :: rest) '\x00' '\r'
      ((content.length : Int) + line.length) (by simp)
    have s2 := store_at_add (content ++ line ++ ['\r']) (y :: rest) '\x00' '\n'
      ((content.length : Int) + line.length + 1) (by simp; omega)
    have s3 := store_at_add (content ++ line ++ ['\r', '\n']) rest y '\x00'
      ((content.length : Int) + line.length + 2) (by simp; omega)
    simp only [List.append_assoc, List.cons_append, List.nil_append] at s1 s2 s3
    simp only [hc, if_true, hfill, List.append_assoc, s1, s2, s3, hroom, decide_True, line_end,
      List.cons_append, List.nil_append]
    refine ⟨rest, ?_, ?_⟩
    · congr 2
      simp; omega
    · have := congrArg List.length hfill
      simp at this
      simp
      omega
  · have hc : ¬ ((content.length : Int) + (line.length : Int) + 2
        < (((content ++ '\x00' :: junk).length : Nat) : Int)) := by
      simp; omega
    obtain ⟨y, rest, hy⟩ := exists_cons_of_length_pos
      (List.replicate (junk.length - line.length) '\x00' ++ [z]) (by simp)
    have s1 := store_at_add (content ++ line) rest y '\x00'
      ((content.length : Int) + line.length) (by simp)
    simp only [List.append_assoc] at s1
    simp only [hc, if_false, hy, List.append_assoc, s1, hroom, decide_False, line_end,
      List.nil_append, Bool.false_eq_true]
    refine ⟨rest, ?_, ?_⟩
    · congr 2
      simp
    · have := congrArg List.length hy
      simp at this
      simp
      omega

theorem line_end_no_nul (b : Bool) : '\x00' ∉ line_end b := by
  cases b <;> decide

theorem store_zero (buf : List Char) (c : Char) (h : buf ≠ []) :
    store buf 0 c = .ok (c :: buf.tail) := by
  obtain ⟨a, t, rfl⟩ := List.exists_cons_of_ne_nil h
  simpa using store_at [] t a c

/-- The override `BufferedWriter::flush` on a non-empty buffer that satisfies the invariant. -/
theorem BufferedWriter_flush_nonempty (content junk : List Char) (printed : List (List Char))
    (hc : '\x00' ∉ content) (hne : content ≠ []) :
    BufferedWriter_flush ⟨content ++ '\x00' :: junk, content.length, printed⟩
      = .ok ⟨'\x00' :: (content ++ '\x00' :: junk).tail, 0, printed ++ [content]⟩ := by
  have hpos : ¬ ((content.length : Nat) : Int) = 0 := by
    have := List.length_pos.mpr hne
    omega
  have hs := store_zero (content ++ '\x00' :: junk) '\x00' (by simp)
  simp only [BufferedWriter_flush, is_empty, hpos, decide_False, Bool.not_false, if_true,
    get_buffer, cstr_at _ _ hc, BaseBufferedWriter_flush, clear_buffer, hs]

/-- The override `BufferedWriter::flush` on an empty buffer changes nothing. -/
theorem BufferedWriter_flush_empty (w : Writer) (h : w.buffer_pos = 0) :
    BufferedWriter_flush w = .ok w := by
  simp [BufferedWriter_flush, is_empty, h]

theorem no_nul_stored (content line : List Char) (b : Bool) (hc : '\x00' ∉ content)
    (hz : '\x00' ∉ line) : '\x00' ∉ content ++ line ++ line_end b := by
  simp only [List.mem_append, not_or]
  exact ⟨⟨hc, hz⟩, line_end_no_nul b⟩

/-- The store phase re-establishes the invariant, keeps the capacity and leaves
`content ++ line ++ terminator` as the content of the buffer. -/
theorem write_store_wf (content junk line : List Char) (printed : List (List Char))
    (hc : '\x00' ∉ content) (hz : '\x00' ∉ line) (hl : line.length ≤ junk.length) :
    ∃ w2, write_store ⟨content ++ '\x00' :: junk, content.length, printed⟩ line = .ok w2 ∧
      w2.printed = printed ∧
      get_buffer w2 = .ok (content ++ line ++ line_end (decide (line.length + 1 < junk.length))) ∧
      w2.wf ∧ w2.buffer.length = (content ++ '\x00' :: junk).length := by
  obtain ⟨junk2, hst, hlen⟩ := write_store_ok content junk line printed hl
  have hn := no_nul_stored content line (decide (line.length + 1 < junk.length)) hc hz
  exact ⟨_, hst, rfl, cstr_at _ _ hn, wf_of_split _ _ _ hn, hlen⟩

/-- With room for the whole input, the strip loop ends in the state `scan_pipe_odd`
computes. -/
theorem strip_rec_scan (max_len : Int) :
    ∀ (n : Nat) (rest : List Char), rest.length ≤ n → ∀ (odd : Bool) (out : List Char),
      (out.length : Int) + rest.length ≤ max_len - 1 →
      ∃ out2, strip_rec max_len rest (st odd out) = .ok (st (scan_pipe_odd odd rest) out2) ∧
        out2.length ≤ out.length + rest.length := by
  intro n
  induction n with
  | zero =>
    intro rest hl odd out _
    have : rest = [] := List.length_eq_zero.mp (Nat.le_zero.mp hl)
    subst this
    exact ⟨out, by simp [strip_rec, scan_pipe_odd], by simp⟩
  | succ n ih =>
    intro rest hl odd out hm
    cases rest with
    | nil => exact ⟨out, by simp [strip_rec, scan_pipe_odd], by simp⟩
    | cons c rest =>
      have hl1 : rest.length ≤ n := by simpa using hl
      have hl2 : rest.tail.length ≤ n := by simp; omega
      simp only [List.length_cons, Nat.cast_add, Nat.cast_one] at hm
      have hlt : (out.length : Int) < max_len - 1 := by omega
      have hpk : ∀ x, poke max_len out.length out x = .ok (out ++ [x]) :=
        fun x => poke_end _ _ _ (by omega)
      have hl3 : (out.length : Int) + 1 = ((out ++ ['|']).length : Nat) := by simp
      rw [strip_rec_cons, scan_pipe_odd_cons]
      simp only [st, hlt, if_true, hpk]
      by_cases hc : c = '|'
      · simp only [hc, ne_eq, not_true_eq_false, if_false]
        cases odd with
        | true =>
          simp only [Bool.not_true, Bool.false_eq_true, if_false]
          obtain ⟨out2, h1, h2⟩ := ih rest hl1 false out (by omega)
          exact ⟨out2, h1, by simp; omega⟩
        | false =>
          simp only [Bool.not_false, if_true]
          by_cases hh : rest.head? = some '|'
          · simp only [hh, if_true, hl3]
            have htl : (rest.tail.length : Int) ≤ rest.length := by simp
            obtain ⟨out2, h1, h2⟩ := ih rest.tail hl2 false (out ++ ['|']) (by simp; omega)
            refine ⟨out2, h1, ?_⟩
            simp at h2 ⊢; omega
          · simp only [hh, if_false]
            obtain ⟨out2, h1, h2⟩ := ih rest hl1 true out (by omega)
            exact ⟨out2, h1, by simp; omega⟩
      · simp only [ne_eq, hc, not_false_eq_true, if_true]
        have hl4 : (out.length : Int) + 1 = ((out ++ [c]).length : Nat) := by simp
        simp only [hl4]
        obtain ⟨out2, h1, h2⟩ := ih rest hl1 odd (out ++ [c]) (by simp; omega)
        refine ⟨out2, h1, ?_⟩
        simp at h2 ⊢; omega

/-- The state `scan_pipe_odd false input` is the value of `pipe_odd` with which the loop
of `strip_color_tags` ends when the buffer has room for the whole input. -/
theorem scan_pipe_odd_is_loop_state (input : List Char) :
    ∃ out, strip_loop input (input.length + 2) (input.length + 1) 0 ⟨false, 0, []⟩
      = .ok ⟨scan_pipe_odd false input, out.length, out⟩ := by
  have h := strip_loop_eq input (input.length + 2) (input.length + 1) [] input ⟨false, 0, []⟩
    rfl (Nat.lt_succ_self _)
  simp only [List.length_nil] at h
  obtain ⟨out2, h1, _⟩ := strip_rec_scan (input.length + 2) input.length input (le_refl _)
    false [] (by simp; omega)
  exact ⟨out2, by rw [h]; exact h1⟩

/-! ## Further facts used by the claims -/

theorem ANSI_COLORS_keys_lower : ∀ p ∈ ANSI_COLORS, 'a' ≤ p.1 ∧ p.1 ≤ 'z' := by decide

theorem find_isSome_lower (c : Char) (h : (ANSI_COLORS_find c).isSome = true) :
    'a' ≤ c ∧ c ≤ 'z' := by
  obtain ⟨code, hcode⟩ := Option.isSome_iff_exists.mp h
  exact ANSI_COLORS_keys_lower (c, code) (lookup_mem _ _ _ hcode)

theorem ct_keys : ∀ n, n < 16 → (ANSI_COLORS_find (ct.getD n '\x00')).isSome = true := by
  decide

/-- The pairs (letter, text) of which `colorString` builds its message. -/
theorem colorString_spans (rand : Nat → Nat) (str : List Char) :
    ∀ k, ∃ ps : List (Char × List Char), colorString rand k str = span_message ps ∧
      (∀ p ∈ ps, (ANSI_COLORS_find p.1).isSome = true) ∧
      (∀ p ∈ ps, ∃ c ∈ str, p.2 = [c]) := by
  induction str with
  | nil => intro k; exact ⟨[], rfl, by simp, by simp⟩
  | cons c str ih =>
    intro k
    obtain ⟨ps, h1, h2, h3⟩ := ih (k + 1)
    refine ⟨(ct.getD (rand k % 16) '\x00', [c]) :: ps, ?_, ?_, ?_⟩
    · simp [colorString, span_message, span, h1]
    · intro p hp
      rcases List.mem_cons.mp hp with rfl | hp
      · exact ct_keys _ (Nat.mod_lt _ (by decide))
      · exact h2 p hp
    · intro p hp
      rcases List.mem_cons.mp hp with rfl | hp
      · exact ⟨c, by simp, rfl⟩
      · obtain ⟨d, hd, e⟩ := h3 p hp
        exact ⟨d, List.mem_cons_of_mem _ hd, e⟩

/-- On a message of well-formed spans the runtime validator accepts exactly when every
letter is a key of the colour table. -/
theorem validate_runtime_spans_eq (ps : List (Char × List Char))
    (h : ∀ p ∈ ps, p.1 ≠ '|' ∧ p.2 ≠ [] ∧ '|' ∉ p.2) :
    validate_color_tags_runtime (span_message ps)
      = .ok (decide (∀ p ∈ ps, (ANSI_COLORS_find p.1).isSome = true)) := by
  rw [validate_color_tags_runtime_eq, if_neg (span_message_head ps h),
    valid_rec_spans bad_rt ps none h]
  congr 1
  rw [Bool.eq_iff_iff]
  simp only [List.all_eq_true, decide_eq_true_eq, bad_rt, ANSI_COLORS_count]
  constructor
  · intro hh p hp
    have := hh p hp
    by_contra hc
    simp [hc] at this
  · intro hh p hp
    simp [hh p hp]

/-- Every message `colorString` builds from a string without delimiter passes runtime
validation, whatever `rand()` returns. -/
theorem colorString_valid (rand : Nat → Nat) (str : List Char) (h : '|' ∉ str) :
    validate_color_tags_runtime (colorString rand 0 str) = .ok true := by
  obtain ⟨ps, h1, h2, h3⟩ := colorString_spans rand str 0
  have hps : ∀ p ∈ ps, p.1 ≠ '|' ∧ p.2 ≠ [] ∧ '|' ∉ p.2 := by
    intro p hp
    obtain ⟨code, hcode⟩ := Option.isSome_iff_exists.mp (h2 p hp)
    obtain ⟨c, hc, e⟩ := h3 p hp
    refine ⟨(find_some p.1 code hcode).1, by simp [e], ?_⟩
    rw [e]
    intro hm
    have : '|' = c := by simpa using hm
    exact h (this ▸ hc)
  rw [h1, validate_runtime_spans_eq ps hps]
  congr 1
  exact decide_eq_true h2

/-- The literal of `LOG_INFO` in main.cpp, line 28, passes the `static_assert`. -/
theorem check_colors_ct_main_literal :
    check_colors_ct "Logger color tag test: p|red| g|green| t|yellow| b|blue|.".toList
      = .ok true := by
  decide

/-- Three delimiters ending an open span (strip): the first two are dropped, the pair
that remains outside the span yields one literal delimiter. -/
theorem strip_pair_inside_end (c : Char) (u : List Char) (max_len : Int)
    (hcp : c ≠ '|') (hu0 : u ≠ []) (hu : '|' ∉ u) (hm : (u.length : Int) + 3 ≤ max_len) :
    strip_color_tags (c :: '|' :: (u ++ ['|', '|', '|'])) max_len = .ok (c :: (u ++ ['|'])) := by
  apply strip_color_tags_of_scan _ _ false
  · have h1 := strip_rec_plain max_len [c] ('|' :: (u ++ ['|', '|', '|'])) false []
      (by simp [hcp.symm]) (by simp; omega)
    simp only [List.singleton_append, List.nil_append] at h1
    rw [h1, strip_rec_open max_len _ _ (head_ne_pipe u _ hu0 hu) (by simp; omega),
      strip_rec_plain max_len u _ true _ hu (by simp; omega),
      strip_rec_close max_len _ _ (by simp; omega),
      strip_rec_escape max_len _ _ (by simp; omega), strip_rec_nil]
    simp
  · simp; omega

/-- What `write` does on a `BufferedWriter` whose buffer satisfies the invariant, for a
line that fits in the buffer: the content handed over, the new content, the invariant. -/
theorem BufferedWriter_write_spec (w : Writer) (line : List Char) (hw : w.wf)
    (hz : '\x00' ∉ line) (hfit : (line.length : Int) + 1 ≤ w.buffer.length) :
    ∃ content w2, get_buffer w = .ok content ∧ (content.length : Int) = w.buffer_pos ∧
      BufferedWriter_write w line = .ok w2 ∧
      (if w.buffer_pos + (line.length : Int) + 1 ≥ w.buffer.length ∧ w.buffer_pos > 0 then
        w2.printed = w.printed ++ [content] ∧
        get_buffer w2 = .ok (line ++
          line_end (decide ((line.length : Int) + 2 < w.buffer.length)))
      else
        w2.printed = w.printed ∧
        get_buffer w2 = .ok (content ++ line ++
          line_end (decide (w.buffer_pos + (line.length : Int) + 2 < w.buffer.length)))) ∧
      w2.wf ∧ w2.buffer.length = w.buffer.length := by
  obtain ⟨content, junk, hb, hc, hp⟩ := wf_split w hw
  obtain ⟨buffer, buffer_pos, printed⟩ := w
  simp only at hb hp hfit
  subst hb hp
  have hcap : (((content ++ '\x00' :: junk).length : Nat) : Int)
      = (content.length : Int) + 1 + junk.length := by simp; omega
  refine ⟨content, ?_⟩
  by_cases htrig : (content.length : Int) + (line.length : Int) + 1
      ≥ (((content ++ '\x00' :: junk).length : Nat) : Int)
  · by_cases hpos : (content.length : Int) > 0
    · -- the buffer is flushed, then the line is stored at the start
      have hne : content ≠ [] := by
        intro h; subst h; simp at hpos
      have hfl := BufferedWriter_flush_nonempty content junk printed hc hne
      have htl : ((content ++ '\x00' :: junk).tail.length : Int)
          = (((content ++ '\x00' :: junk).length : Nat) : Int) - 1 := by
        simp; omega
      obtain ⟨w2, hst, hpr, hgb, hwf, hlen⟩ := write_store_wf [] (content ++ '\x00' :: junk).tail
        line (printed ++ [content]) (by simp) hz (by omega)
      simp only [List.nil_append, List.length_nil, Nat.cast_zero] at hst hgb hlen
      have hd : decide (line.length + 1 < (content ++ '\x00' :: junk).tail.length)
          = decide ((line.length : Int) + 2 < (((content ++ '\x00' :: junk).length : Nat) : Int)) := by
        rw [Bool.eq_iff_iff]; simp only [decide_eq_true_eq]; omega
      rw [hd] at hgb
      have hwr : BufferedWriter_write ⟨content ++ '\x00' :: junk, content.length, printed⟩ line
          = .ok w2 := by
        rw [BufferedWriter_write, BaseBufferedWriter_write_eq]
        simp only [htrig, if_true, hfl, hst]
      refine ⟨w2, cstr_at _ _ hc, rfl, hwr, ?_, hwf, ?_⟩
      · rw [if_pos ⟨htrig, hpos⟩]
        exact ⟨hpr, hgb⟩
      · rw [hlen]; simp; omega
    · -- the buffer is empty: nothing is handed over
      have hnil : content = [] := by
        cases content with
        | nil => rfl
        | cons a t => simp at hpos
      subst hnil
      obtain ⟨w2, hst, hpr, hgb, hwf, hlen⟩ := write_store_wf [] junk line printed (by simp) hz
        (by simp at hfit; omega)
      have hd : decide (line.length + 1 < junk.length)
          = decide ((([] : List Char).length : Int) + (line.length : Int) + 2
              < ((([] ++ '\x00' :: junk).length : Nat) : Int)) := by
        rw [Bool.eq_iff_iff]; simp only [decide_eq_true_eq]; simp; omega
      rw [hd] at hgb
      have hwr : BufferedWriter_write ⟨[] ++ '\x00' :: junk, (([] : List Char).length : Nat),
          printed⟩ line = .ok w2 := by
        rw [BufferedWriter_write, BaseBufferedWriter_write_eq]
        have hfe := BufferedWriter_flush_empty
          ⟨[] ++ '\x00' :: junk, (([] : List Char).length : Nat), printed⟩ (by simp)
        simp only [htrig, if_true, hfe, hst]
      refine ⟨w2, cstr_at _ _ hc, rfl, hwr, ?_, hwf, hlen⟩
      rw [if_neg (fun h => hpos h.2)]
      exact ⟨hpr, hgb⟩
  · -- the line fits behind the cursor: nothing is handed over
    obtain ⟨w2, hst, hpr, hgb, hwf, hlen⟩ := write_store_wf content junk line printed hc hz
      (by omega)
    have hd : decide (line.length + 1 < junk.length)
        = decide ((content.length : Int) + (line.length : Int) + 2
            < (((content ++ '\x00' :: junk).length : Nat) : Int)) := by
      rw [Bool.eq_iff_iff]; simp only [decide_eq_true_eq]; omega
    rw [hd] at hgb
    have hwr : BufferedWriter_write ⟨content ++ '\x00' :: junk, content.length, printed⟩ line
        = .ok w2 := by
      rw [BufferedWriter_write, BaseBufferedWriter_write_eq]
      simp only [htrig, if_false, hst]
    refine ⟨w2, cstr_at _ _ hc, rfl, hwr, ?_, hwf, hlen⟩
    rw [if_neg (fun h => htrig h.1)]
    exact ⟨hpr, hgb⟩

/-! ## Further facts: what follows an escape pair -/

/-- The opening delimiter behind a letter of the table that has been copied: the code
replaces the letter. -/
theorem render_rec_open_copied (max_len : Int) (c : Char) (code rest out : List Char)
    (hc : ANSI_COLORS_find c = some code) (hr : rest.head? ≠ some '|')
    (hm : (out.length : Int) + 5 < max_len - 1) :
    render_rec max_len (some c) ('|' :: rest) (st false (out ++ [c]))
      = render_rec max_len (some '|') rest (st true (out ++ code)) := by
  have hcp : '|' ∉ [c] := by
    have := (find_some c code hc).1
    simpa using this.symm
  have h1 := render_rec_plain_st max_len [c] ('|' :: rest) (some c) false out hcp
    (by simp; omega)
  simp only [List.singleton_append, List.getLast?_singleton, Option.or_some] at h1
  rw [← h1]
  exact render_rec_open max_len (some c) c code rest out hc hr hm

/-- With room for the whole input, the loop of `strip_color_tags` does the same from every
state: what it appends and the state it ends in depend on the rest of the input and on
`pipe_odd` only. -/
theorem strip_rec_frame (m1 m2 : Int) :
    ∀ (n : Nat) (rest : List Char), rest.length ≤ n → ∀ (odd : Bool) (a1 a2 y : List Char),
      ((a1 ++ y).length : Int) + rest.length ≤ m1 - 1 →
      ((a2 ++ y).length : Int) + rest.length ≤ m2 - 1 →
      ∃ odd2 z, strip_rec m1 rest (st odd (a1 ++ y)) = .ok (st odd2 (a1 ++ z)) ∧
        strip_rec m2 rest (st odd (a2 ++ y)) = .ok (st odd2 (a2 ++ z)) ∧
        z.length ≤ y.length + rest.length := by
  intro n
  induction n with
  | zero =>
    intro rest hl odd a1 a2 y _ _
    have : rest = [] := List.length_eq_zero.mp (Nat.le_zero.mp hl)
    subst this
    exact ⟨odd, y, strip_rec_nil _ _, strip_rec_nil _ _, by simp⟩
  | succ n ih =>
    intro rest hl odd a1 a2 y h1 h2
    cases rest with
    | nil => exact ⟨odd, y, strip_rec_nil _ _, strip_rec_nil _ _, by simp⟩
    | cons c rest =>
      have hl1 : rest.length ≤ n := by simpa using hl
      simp only [List.length_cons, List.length_append, Nat.cast_add, Nat.cast_one] at h1 h2
      by_cases hc : c = '|'
      · subst hc
        cases odd with
        | true =>
          rw [strip_rec_close m1 _ _ (by simp; omega), strip_rec_close m2 _ _ (by simp; omega)]
          obtain ⟨odd2, z, e1, e2, hz⟩ := ih rest hl1 false a1 a2 y (by simp; omega)
            (by simp; omega)
          exact ⟨odd2, z, e1, e2, by simp; omega⟩
        | false =>
          by_cases hh : rest.head? = some '|'
          · obtain ⟨r2, hr2⟩ : ∃ r2, rest = '|' :: r2 := by
              cases rest with
              | nil => simp at hh
              | cons d r2 => exact ⟨r2, by simpa using hh⟩
            subst hr2
            simp only [List.length_cons, Nat.cast_add, Nat.cast_one] at h1 h2 hl1
            rw [strip_rec_escape m1 _ _ (by simp; omega),
              strip_rec_escape m2 _ _ (by simp; omega)]
            obtain ⟨odd2, z, e1, e2, hz⟩ := ih r2 (by omega) false a1 a2 (y ++ ['|'])
              (by simp; omega) (by simp; omega)
            simp only [List.append_assoc] at e1 e2 ⊢
            exact ⟨odd2, z, e1, e2, by simp at hz ⊢; omega⟩
          · rw [strip_rec_open m1 _ _ hh (by simp; omega),
              strip_rec_open m2 _ _ hh (by simp; omega)]
            obtain ⟨odd2, z, e1, e2, hz⟩ := ih rest hl1 true a1 a2 y (by simp; omega)
              (by simp; omega)
            exact ⟨odd2, z, e1, e2, by simp; omega⟩
      · have hcp : '|' ∉ [c] := by simpa using fun h => hc h.symm
        have s1 := strip_rec_plain m1 [c] rest odd (a1 ++ y) hcp (by simp; omega)
        have s2 := strip_rec_plain m2 [c] rest odd (a2 ++ y) hcp (by simp; omega)
        simp only [List.singleton_append] at s1 s2
        rw [s1, s2]
        obtain ⟨odd2, z, e1, e2, hz⟩ := ih rest hl1 odd a1 a2 (y ++ [c])
          (by simp; omega) (by simp; omega)
        simp only [List.append_assoc] at e1 e2 ⊢
        exact ⟨odd2, z, e1, e2, by simp at hz ⊢; omega⟩

/-- With room for the whole rendering, the loop of `parse_color_tags` does the same from
every state: what it appends and the state it ends in depend on the rest of the input, on
`pipe_odd` and on what it has written since the last delimiter only. -/
theorem render_rec_frame (m1 m2 : Int) :
    ∀ (n : Nat) (rest : List Char), rest.length ≤ n →
      ∀ (p : Char) (odd : Bool) (a1 a2 y : List Char),
      ((a1 ++ y).length : Int) + 5 * rest.length + 1 ≤ m1 - 1 →
      ((a2 ++ y).length : Int) + 5 * rest.length + 1 ≤ m2 - 1 →
      (∀ code, ANSI_COLORS_find p = some code → ∃ y0, y = y0 ++ [p]) →
      ∃ odd2 z, render_rec m1 (some p) rest (st odd (a1 ++ y)) = .ok (st odd2 (a1 ++ z)) ∧
        render_rec m2 (some p) rest (st odd (a2 ++ y)) = .ok (st odd2 (a2 ++ z)) ∧
        z.length ≤ y.length + 5 * rest.length := by
  intro n
  induction n with
  | zero =>
    intro rest hl p odd a1 a2 y _ _ _
    have : rest = [] := List.length_eq_zero.mp (Nat.le_zero.mp hl)
    subst this
    exact ⟨odd, y, render_rec_nil _ _ _, render_rec_nil _ _ _, by simp⟩
  | succ n ih =>
    intro rest hl p odd a1 a2 y h1 h2 hy
    cases rest with
    | nil => exact ⟨odd, y, render_rec_nil _ _ _, render_rec_nil _ _ _, by simp⟩
    | cons c rest =>
      have hl1 : rest.length ≤ n := by simpa using hl
      simp only [List.length_cons, List.length_append, Nat.cast_add, Nat.cast_one] at h1 h2
      by_cases hc : c = '|'
      · subst hc
        cases odd with
        | true =>
          rw [render_rec_close m1 _ _ _ (by simp; omega),
            render_rec_close m2 _ _ _ (by simp; omega)]
          obtain ⟨odd2, z, e1, e2, hz⟩ := ih rest hl1 '|' false a1 a2 (y ++ RESET)
            (by simp [RESET_length]; omega) (by simp [RESET_length]; omega)
            (fun code h => by rw [find_pipe] at h; cases h)
          simp only [List.append_assoc] at e1 e2 ⊢
          exact ⟨odd2, z, e1, e2, by simp [RESET_length] at hz ⊢; omega⟩
        | false =>
          by_cases hh : rest.head? = some '|'
          · obtain ⟨r2, hr2⟩ : ∃ r2, rest = '|' :: r2 := by
              cases rest with
              | nil => simp at hh
              | cons d r2 => exact ⟨r2, by simpa using hh⟩
            subst hr2
            simp only [List.length_cons, Nat.cast_add, Nat.cast_one] at h1 h2 hl1
            rw [render_rec_escape m1 _ _ _ (by simp; omega),
              render_rec_escape m2 _ _ _ (by simp; omega)]
            obtain ⟨odd2, z, e1, e2, hz⟩ := ih r2 (by omega) '|' false a1 a2 (y ++ ['|'])
              (by simp; omega) (by simp; omega)
              (fun code h => by rw [find_pipe] at h; cases h)
            simp only [List.append_assoc] at e1 e2 ⊢
            exact ⟨odd2, z, e1, e2, by simp at hz ⊢; omega⟩
          · cases hf : ANSI_COLORS_find p with
            | none =>
              rw [render_rec_open_unknown m1 p _ _ hf hh (by simp; omega),
                render_rec_open_unknown m2 p _ _ hf hh (by simp; omega)]
              obtain ⟨odd2, z, e1, e2, hz⟩ := ih rest hl1 '|' true a1 a2 y
                (by simp; omega) (by simp; omega)
                (fun code h => by rw [find_pipe] at h; cases h)
              exact ⟨odd2, z, e1, e2, by simp; omega⟩
            | some code =>
              obtain ⟨y0, hy0⟩ := hy code hf
              subst hy0
              have hlen := (find_some p code hf).2
              simp only [List.length_append, List.length_singleton, Nat.cast_add,
                Nat.cast_one] at h1 h2
              have e1 : a1 ++ (y0 ++ [p]) = (a1 ++ y0) ++ [p] := by simp
              have e2 : a2 ++ (y0 ++ [p]) = (a2 ++ y0) ++ [p] := by simp
              rw [e1, e2, render_rec_open_copied m1 p code _ _ hf hh (by simp; omega),
                render_rec_open_copied m2 p code _ _ hf hh (by simp; omega)]
              obtain ⟨odd2, z, r1, r2, hz⟩ := ih rest hl1 '|' true a1 a2 (y0 ++ code)
                (by simp [hlen]; omega) (by simp [hlen]; omega)
                (fun code h => by rw [find_pipe] at h; cases h)
              simp only [List.append_assoc] at r1 r2 ⊢
              exact ⟨odd2, z, r1, r2, by simp [hlen] at hz ⊢; omega⟩
      · have hcp : '|' ∉ [c] := by simpa using fun h => hc h.symm
        have s1 := render_rec_plain_st m1 [c] rest (some p) odd (a1 ++ y) hcp (by simp; omega)
        have s2 := render_rec_plain_st m2 [c] rest (some p) odd (a2 ++ y) hcp (by simp; omega)
        simp only [List.singleton_append, List.getLast?_singleton, Option.or_some] at s1 s2
        rw [s1, s2]
        obtain ⟨odd2, z, e1, e2, hz⟩ := ih rest hl1 c odd a1 a2 (y ++ [c])
          (by simp; omega) (by simp; omega) (fun _ _ => ⟨y, rfl⟩)
        simp only [List.append_assoc] at e1 e2 ⊢
        exact ⟨odd2, z, e1, e2, by simp at hz ⊢; omega⟩

/-- What follows an escape pair met outside a span is stripped as it is on its own. -/
theorem strip_after_escape (u rest : List Char) (m1 m2 : Int) (hu : '|' ∉ u)
    (h1 : (u.length : Int) + rest.length + 2 ≤ m1) (h2 : (rest.length : Int) + 1 ≤ m2) :
    ∃ z, strip_color_tags rest m2 = .ok z ∧
      strip_color_tags (u ++ '|' :: '|' :: rest) m1 = .ok (u ++ '|' :: z) := by
  obtain ⟨odd2, z, e1, e2, hz⟩ := strip_rec_frame m1 m2 rest.length rest (le_refl _) false
    (u ++ ['|']) [] [] (by simp; omega) (by simp; omega)
  simp only [List.append_nil, List.nil_append, List.length_nil, Nat.zero_add] at e1 e2 hz
  refine ⟨z, strip_color_tags_of_scan rest m2 odd2 z e2 (by omega), ?_⟩
  apply strip_color_tags_of_scan _ _ odd2
  · have s1 := strip_rec_plain m1 u ('|' :: '|' :: rest) false [] hu (by simp; omega)
    simp only [List.nil_append] at s1
    rw [s1, strip_rec_escape m1 _ _ (by omega), e1]
    simp
  · simp; omega

/-- What follows an escape pair met outside a span is rendered as it is on its own, unless
it begins with a lone delimiter (the rendering of such an input on its own is undefined). -/
theorem render_after_escape (u rest : List Char) (m1 m2 : Int) (hu : '|' ∉ u)
    (hr : ¬ lone_lead rest) (h1 : (u.length : Int) + 5 * rest.length + 3 ≤ m1)
    (h2 : 5 * (rest.length : Int) + 2 ≤ m2) :
    ∃ z, parse_color_tags rest m2 = .ok z ∧
      parse_color_tags (u ++ '|' :: '|' :: rest) m1 = .ok (u ++ '|' :: z) := by
  have key : ∃ odd2 z, render_rec m1 (some '|') rest (st false (u ++ ['|']))
        = .ok (st odd2 ((u ++ ['|']) ++ z)) ∧
      render_rec m2 none rest (st false []) = .ok (st odd2 z) ∧
      z.length ≤ 5 * rest.length := by
    cases rest with
    | nil => exact ⟨false, [], by simp [render_rec_nil], render_rec_nil _ _ _, by simp⟩
    | cons c r =>
      simp only [List.length_cons, Nat.cast_add, Nat.cast_one] at h1 h2
      by_cases hc : c = '|'
      · subst hc
        have hh : r.head? = some '|' := by
          by_contra hne
          exact hr ⟨by simp, by simpa using hne⟩
        obtain ⟨r2, hr2⟩ : ∃ r2, r = '|' :: r2 := by
          cases r with
          | nil => simp at hh
          | cons d r2 => exact ⟨r2, by simpa using hh⟩
        subst hr2
        simp only [List.length_cons, Nat.cast_add, Nat.cast_one] at h1 h2
        rw [render_rec_escape m1 _ _ _ (by simp; omega),
          render_rec_escape m2 _ _ _ (by simp; omega)]
        obtain ⟨odd2, z, e1, e2, hz⟩ := render_rec_frame m1 m2 r2.length r2 (le_refl _) '|'
          false (u ++ ['|']) [] ['|'] (by simp; omega) (by simp; omega)
          (fun code h => by rw [find_pipe] at h; cases h)
        simp only [List.nil_append] at e1 e2
        exact ⟨odd2, z, e1, e2, by simp at hz ⊢; omega⟩
      · have hcp : '|' ∉ [c] := by simpa using fun h => hc h.symm
        have s1 := render_rec_plain_st m1 [c] r (some '|') false (u ++ ['|']) hcp
          (by simp; omega)
        have s2 := render_rec_plain_st m2 [c] r none false [] hcp (by simp; omega)
        simp only [List.singleton_append, List.getLast?_singleton, Option.or_some,
          List.nil_append] at s1 s2
        rw [s1, s2]
        obtain ⟨odd2, z, e1, e2, hz⟩ := render_rec_frame m1 m2 r.length r (le_refl _) c
          false (u ++ ['|']) [] [c] (by simp; omega) (by simp; omega) (fun _ _ => ⟨[], rfl⟩)
        simp only [List.nil_append] at e1 e2
        exact ⟨odd2, z, e1, e2, by simp at hz ⊢; omega⟩
  obtain ⟨odd2, z, e1, e2, hz⟩ := key
  refine ⟨z, parse_color_tags_of_scan rest m2 odd2 z e2 (by omega), ?_⟩
  apply parse_color_tags_of_scan _ _ odd2
  · have s1 := render_rec_plain_st m1 u ('|' :: '|' :: rest) none false [] hu (by simp; omega)
    simp only [List.nil_append] at s1
    rw [s1, render_rec_escape m1 _ _ _ (by omega), e1]
    simp
  · simp; omega

/-! ## The claims -/

/-- Claim C1: for every colour letter `c` of the table, with code `code`, and every
non-empty text `t` without delimiter, when `max_len` is at least `length t + 11`,
`parse_color_tags` of `c|t|` returns exactly `code`, then `t`, then the reset code. -/
theorem C1_render_single_span (c : Char) (code t : List Char) (max_len : Int)
    (hc : ANSI_COLORS_find c = some code) (ht : t ≠ []) (hp : '|' ∉ t)
    (hm : (t.length : Int) + 11 ≤ max_len) :
    parse_color_tags (c :: '|' :: (t ++ ['|'])) max_len = .ok (code ++ t ++ RESET) := by
  obtain ⟨hcp, hlen⟩ := find_some c code hc
  have hR := RESET_length
  apply parse_color_tags_of_scan _ _ false
  · rw [render_rec_open max_len none c code _ [] hc (head_ne_pipe t _ ht hp) (by simp; omega),
      render_rec_plain_st max_len t ['|'] _ true _ hp (by simp [hlen]; omega),
      render_rec_close max_len _ [] _ (by simp [hlen]; omega), render_rec_nil]
    simp
  · simp [hlen, hR]; omega

/-- Witness of C1: the message `r|hello|` with `max_len = 256`. -/
theorem C1_witness :
    parse_color_tags "r|hello|".toList 256
      = .ok ("\x1b[31m".toList ++ "hello".toList ++ "\x1b[0m".toList) :=
  C1_render_single_span 'r' "\x1b[31m".toList "hello".toList 256 (by decide) (by decide)
    (by decide) (by decide)

/-- Claim C2, evaluated on the code: `strip_color_tags` of `r|hello|` is `rhello`, not
`hello`: the two delimiters are dropped but the tag letter stays in the output. -/
theorem C2_strip_keeps_tag_letter :
    strip_color_tags "r|hello|".toList 256 = .ok "rhello".toList ∧
    strip_color_tags "r|hello|".toList 256 ≠ .ok "hello".toList := by
  decide

/-- Claim C3: on the concatenation of well-formed spans `letter|text|` (letter other than
the delimiter, text non-empty and without delimiter), `validate_color_tags_runtime` returns
true exactly when every letter is a key of the colour table. -/
theorem C3_validate_runtime_spans (ps : List (Char × List Char))
    (h : ∀ p ∈ ps, p.1 ≠ '|' ∧ p.2 ≠ [] ∧ '|' ∉ p.2) :
    validate_color_tags_runtime (span_message ps)
      = .ok (decide (∀ p ∈ ps, (ANSI_COLORS_find p.1).isSome = true)) :=
  validate_runtime_spans_eq ps h

/-- Witness of C3: the message `colorString` builds for `Hi!` when `rand()` returns
0, 1, 2, which is `r|H|g|i|y|!|`. -/
theorem C3_witness :
    validate_color_tags_runtime (colorString (fun k => k) 0 "Hi!".toList) = .ok true :=
  C3_validate_runtime_spans [('r', ['H']), ('g', ['i']), ('y', ['!'])] (by decide)

/-- Claim C4: on the concatenation of well-formed spans `letter|text|`, `check_colors_ct`
returns true exactly when every letter lies in `a..z`; so it returns true whenever every
letter is a key of the colour table. -/
theorem C4_check_ct_spans (ps : List (Char × List Char))
    (h : ∀ p ∈ ps, p.1 ≠ '|' ∧ p.2 ≠ [] ∧ '|' ∉ p.2) :
    check_colors_ct (span_message ps) = .ok (decide (∀ p ∈ ps, 'a' ≤ p.1 ∧ p.1 ≤ 'z')) ∧
    ((∀ p ∈ ps, (ANSI_COLORS_find p.1).isSome = true) →
      check_colors_ct (span_message ps) = .ok true) := by
  have main : check_colors_ct (span_message ps)
      = .ok (decide (∀ p ∈ ps, 'a' ≤ p.1 ∧ p.1 ≤ 'z')) := by
    rw [check_colors_ct_eq, if_neg (span_message_head ps h), valid_rec_spans bad_ct ps none h]
    congr 1
    rw [Bool.eq_iff_iff]
    simp only [List.all_eq_true, decide_eq_true_eq, bad_ct]
    constructor
    · intro hh p hp
      have := hh p hp
      simp only [Bool.not_eq_true', decide_eq_false_iff_not, not_or, not_lt] at this
      exact this
    · intro hh p hp
      simp only [Bool.not_eq_true', decide_eq_false_iff_not, not_or, not_lt]
      exact hh p hp
  refine ⟨main, fun hk => ?_⟩
  rw [main]
  congr 1
  exact decide_eq_true (fun p hp => find_isSome_lower p.1 (hk p hp))

/-- Witness of C4: the four spans of the literal of main.cpp, line 28. -/
theorem C4_witness :
    check_colors_ct "p|red|g|green|t|yellow|b|blue|".toList = .ok true :=
  (C4_check_ct_spans [('p', "red".toList), ('g', "green".toList), ('t', "yellow".toList),
    ('b', "blue".toList)] (by decide)).1

/-- Claim C5: an input whose scan ends inside a span (an odd number of unescaped
delimiters), and in particular every `c|t` with `t` without delimiter, is rejected by
`check_colors_ct` and by `validate_color_tags_runtime`. -/
theorem C5_unbalanced_rejected (input : List Char)
    (h : scan_pipe_odd false input = true ∨
      ∃ (c : Char) (t : List Char), '|' ∉ t ∧ input = c :: '|' :: t) :
    check_colors_ct input = .ok false ∧ validate_color_tags_runtime input = .ok false := by
  have main : ∀ input : List Char, scan_pipe_odd false input = true →
      check_colors_ct input = .ok false ∧ validate_color_tags_runtime input = .ok false := by
    intro input hs
    constructor
    · obtain ⟨b, hb⟩ := check_colors_ct_total input
      cases b with
      | false => exact hb
      | true => rw [check_colors_ct_true input hb] at hs; exact absurd hs (by decide)
    · obtain ⟨b, hb⟩ := validate_color_tags_runtime_total input
      cases b with
      | false => exact hb
      | true => rw [validate_color_tags_runtime_true input hb] at hs; exact absurd hs (by decide)
  rcases h with h | ⟨c, t, hp, rfl⟩
  · exact main input h
  · by_cases hc : c = '|'
    · subst hc
      constructor
      · rw [check_colors_ct_eq]; simp
      · rw [validate_color_tags_runtime_eq]; simp
    · exact main _ (scan_pipe_odd_unclosed c t hc hp)

/-- Witness of C5: the unclosed span `r|hello`. -/
theorem C5_witness :
    check_colors_ct "r|hello".toList = .ok false ∧
    validate_color_tags_runtime "r|hello".toList = .ok false :=
  C5_unbalanced_rejected "r|hello".toList (Or.inr ⟨'r', "hello".toList, by decide, rfl⟩)

/-- Claim C6: an input whose first character is the delimiter and whose second character,
if any, is not, is rejected by `check_colors_ct` and by `validate_color_tags_runtime`,
whatever follows. -/
theorem C6_leading_delimiter_rejected (input : List Char) (h1 : input.head? = some '|')
    (_h2 : input.tail.head? ≠ some '|') :
    check_colors_ct input = .ok false ∧ validate_color_tags_runtime input = .ok false := by
  constructor
  · rw [check_colors_ct_eq, if_pos h1]
  · rw [validate_color_tags_runtime_eq, if_pos h1]

/-- Witness of C6: the message `|hello|`. -/
theorem C6_witness :
    check_colors_ct "|hello|".toList = .ok false ∧
    validate_color_tags_runtime "|hello|".toList = .ok false :=
  C6_leading_delimiter_rejected "|hello|".toList (by decide) (by decide)

/-- Counterexample to C7 as stated: inside the open span of `r|a||b|` the pair is not an
escape; the output is red, `a`, reset, `b`, reset and not red, `a|b`, reset; and
`strip_color_tags` returns `rab`, not `a|b`. -/
theorem C7_counterexample :
    parse_color_tags "r|a||b|".toList 256
      = .ok ("\x1b[31m".toList ++ "a".toList ++ RESET ++ "b".toList ++ RESET) ∧
    parse_color_tags "r|a||b|".toList 256
      ≠ .ok ("\x1b[31m".toList ++ "a|b".toList ++ RESET) ∧
    strip_color_tags "r|a||b|".toList 256 ≠ .ok "a|b".toList := by
  decide

/-- Claim C7, amended: outside a span an escape pair `||` yields exactly one literal
delimiter in the output of `parse_color_tags` and of `strip_color_tags` and leaves the span
state alone: behind text `u` without delimiters, whatever follows the pair is processed as
it is on its own, from the initial state (for `parse_color_tags`, unless it begins with a
lone delimiter, on which the function is undefined); and at every point of the scan outside
a span the pair writes one delimiter and the scan goes on outside a span. Inside an open
span there is no escape: the first delimiter of the pair closes the span (reset code) and
the second is scanned as a delimiter met outside a span, so `c|u||v|` renders as colour,
`u`, reset, `v`, reset, and `c|u|||` as colour, `u`, reset and one literal delimiter;
`strip_color_tags` writes `u` directly followed by `v` (or by the literal delimiter). -/
theorem C7_escape_pair_amended :
    (∀ (u v : List Char) (max_len : Int), '|' ∉ u → '|' ∉ v →
      (u.length : Int) + v.length + 2 ≤ max_len →
      parse_color_tags (u ++ '|' :: '|' :: v) max_len = .ok (u ++ '|' :: v) ∧
      strip_color_tags (u ++ '|' :: '|' :: v) max_len = .ok (u ++ '|' :: v)) ∧
    (∀ (c : Char) (code u v : List Char) (max_len : Int), ANSI_COLORS_find c = some code →
      u ≠ [] → v ≠ [] → '|' ∉ u → '|' ∉ v → (u.length : Int) + v.length + 15 ≤ max_len →
      parse_color_tags (c :: '|' :: (u ++ '|' :: '|' :: (v ++ ['|']))) max_len
        = .ok (code ++ u ++ RESET ++ v ++ RESET) ∧
      ∃ pre, strip_color_tags (c :: '|' :: (u ++ '|' :: '|' :: (v ++ ['|']))) max_len
        = .ok (pre ++ u ++ v) ∧ '|' ∉ pre) ∧
    (∀ (c : Char) (code u : List Char) (max_len : Int), ANSI_COLORS_find c = some code →
      u ≠ [] → '|' ∉ u → (u.length : Int) + 11 ≤ max_len →
      parse_color_tags (c :: '|' :: (u ++ ['|', '|', '|'])) max_len
        = .ok (code ++ u ++ RESET ++ ['|']) ∧
      ∃ pre, strip_color_tags (c :: '|' :: (u ++ ['|', '|', '|'])) max_len
        = .ok (pre ++ u ++ ['|']) ∧ '|' ∉ pre) ∧
    (∀ (u rest : List Char) (m1 m2 : Int), '|' ∉ u → ¬ lone_lead rest →
      (u.length : Int) + 5 * rest.length + 3 ≤ m1 → 5 * (rest.length : Int) + 2 ≤ m2 →
      ∃ z, parse_color_tags rest m2 = .ok z ∧
        parse_color_tags (u ++ '|' :: '|' :: rest) m1 = .ok (u ++ '|' :: z)) ∧
    (∀ (u rest : List Char) (m1 m2 : Int), '|' ∉ u →
      (u.length : Int) + rest.length + 2 ≤ m1 → (rest.length : Int) + 1 ≤ m2 →
      ∃ z, strip_color_tags rest m2 = .ok z ∧
        strip_color_tags (u ++ '|' :: '|' :: rest) m1 = .ok (u ++ '|' :: z)) ∧
    (∀ (max_len : Int) (prev : Option Char) (rest out : List Char),
      (out.length : Int) < max_len - 1 →
      render_rec max_len prev ('|' :: '|' :: rest) (st false out)
        = render_rec max_len (some '|') rest (st false (out ++ ['|'])) ∧
      strip_rec max_len ('|' :: '|' :: rest) (st false out)
        = strip_rec max_len rest (st false (out ++ ['|']))) := by
  refine ⟨?_, ?_, ?_, ?_, ?_, ?_⟩
  · intro u v max_len hu hv hm
    exact ⟨render_escape_outside u v max_len hu hv hm, strip_escape_outside u v max_len hu hv hm⟩
  · intro c code u v max_len hc hu0 hv0 hu hv hm
    have hcp := (find_some c code hc).1
    refine ⟨render_pair_inside c code u v max_len hc hu0 hv0 hu hv hm, [c], ?_, ?_⟩
    · rw [strip_pair_inside c u v max_len hcp hu0 hv0 hu hv (by omega)]
      simp
    · simpa using hcp.symm
  · intro c code u max_len hc hu0 hu hm
    have hcp := (find_some c code hc).1
    refine ⟨render_pair_inside_end c code u max_len hc hu0 hu hm, [c], ?_, ?_⟩
    · rw [strip_pair_inside_end c u max_len hcp hu0 hu (by omega)]
      simp
    · simpa using hcp.symm
  · intro u rest m1 m2 hu hr h1 h2
    exact render_after_escape u rest m1 m2 hu hr h1 h2
  · intro u rest m1 m2 hu h1 h2
    exact strip_after_escape u rest m1 m2 hu h1 h2
  · intro max_len prev rest out hm
    exact ⟨render_rec_escape max_len prev rest out hm, strip_rec_escape max_len rest out hm⟩

/-- Witness of C7 amended: `a||b` outside a span, and `a||b r|x|`, where a span follows the
pair: the span is rendered as a span (`max_len = 256`). -/
theorem C7_witness :
    (parse_color_tags "a||b".toList 256 = .ok "a|b".toList ∧
      strip_color_tags "a||b".toList 256 = .ok "a|b".toList) ∧
    (∃ z, parse_color_tags "b r|x|".toList 256 = .ok z ∧
      parse_color_tags "a||b r|x|".toList 256 = .ok ("a|".toList ++ z)) ∧
    parse_color_tags "a||b r|x|".toList 256 = .ok "a|b \x1b[31mx\x1b[0m".toList :=
  ⟨C7_escape_pair_amended.1 "a".toList "b".toList 256 (by decide) (by decide) (by decide),
    C7_escape_pair_amended.2.2.2.1 "a".toList "b r|x|".toList 256 256 (by decide) (by decide)
      (by decide) (by decide),
    by decide⟩

/-- Claim C8: for every input `s` without delimiter and every `max_len ≥ 1`,
`parse_color_tags` and `strip_color_tags` both return the first
`min (length s) (max_len - 1)` characters of `s`, hence `s` itself when
`length s ≤ max_len - 1`. -/
theorem C8_plain_text_identity (s : List Char) (max_len : Int) (hp : '|' ∉ s)
    (hm : 1 ≤ max_len) :
    parse_color_tags s max_len = .ok (s.take (min s.length (max_len - 1).toNat)) ∧
    strip_color_tags s max_len = .ok (s.take (min s.length (max_len - 1).toNat)) ∧
    ((s.length : Int) ≤ max_len - 1 →
      parse_color_tags s max_len = .ok s ∧ strip_color_tags s max_len = .ok s) := by
  have hmin : s.take (min s.length (max_len - 1).toNat) = s.take (max_len - 1).toNat := by
    rw [List.take_eq_take]; simp [min_comm]
  have hlen : ((s.take (max_len - 1).toNat).length : Int) < max_len := by
    have := List.length_take_le (max_len - 1).toNat s
    omega
  have hr : parse_color_tags s max_len = .ok (s.take (max_len - 1).toNat) := by
    apply parse_color_tags_of_scan _ _ false
    · rw [render_rec_plain_trunc max_len s none false [] hp (by simp; omega)]
      simp
    · exact hlen
  have hs : strip_color_tags s max_len = .ok (s.take (max_len - 1).toNat) := by
    apply strip_color_tags_of_scan _ _ false
    · rw [strip_rec_plain_trunc max_len s false [] hp (by simp; omega)]
      simp
    · exact hlen
  rw [hmin]
  refine ⟨hr, hs, ?_⟩
  intro hle
  have ht : s.take (max_len - 1).toNat = s := List.take_of_length_le (by omega)
  rw [hr, hs, ht]
  exact ⟨rfl, rfl⟩

/-- Witness of C8: `hello` with `max_len = 4` is cut to `hel`. -/
theorem C8_witness :
    parse_color_tags "hello".toList 4 = .ok "hel".toList ∧
    strip_color_tags "hello".toList 4 = .ok "hel".toList :=
  ⟨(C8_plain_text_identity "hello".toList 4 (by decide) (by decide)).1,
   (C8_plain_text_identity "hello".toList 4 (by decide) (by decide)).2.1⟩

/-- Claim C9, evaluated on the code: on the input `|x` with `max_len = 8`,
`parse_color_tags` reads `input[-1]`, the character before the input, to decide whether to
rewind the cursor from 0 to -1; no bounded string is produced. -/
theorem C9_render_reads_before_input :
    parse_color_tags "|x".toList 8 = .error (.read (-1)) := by
  decide

/-- Counterexample to C10 as stated: capacity 16, the buffer holds `ab` and its line
terminator (cursor 4), the invariant holds and the flush condition is met, but the line
has 16 characters: after the flush 15 of them are copied, the cursor is set to 16 and the
terminator is written at index 16, outside the buffer. -/
theorem C10_counterexample :
    after_ab16.wf ∧ BufferedWriter_write fresh16 "ab".toList = .ok after_ab16 ∧
    (after_ab16.buffer_pos + (("0123456789abcdef".toList.length : Nat) : Int) + 1
      ≥ after_ab16.buffer.length ∧ after_ab16.buffer_pos > 0) ∧
    BufferedWriter_write after_ab16 "0123456789abcdef".toList = .error (.write 16) := by
  decide

/-- Claim C10, amended: for every writer state that satisfies the buffer invariant, with
cursor `p` and content `content`, and every line of length `len ≤ capacity - 1`: `write`
hands content to the output target if and only if `p + len + 1 ≥ capacity` and `p > 0`; in
that case it hands over exactly `content`, once, before storing, and afterwards the buffer
holds only the line, followed by CR LF when `len + 2 < capacity`; otherwise nothing is
handed over and the buffer holds `content`, the line, and CR LF when
`p + len + 2 < capacity`. The invariant and the capacity are preserved. The line is a C
string: it holds no NUL. -/
theorem C10_write_flushes_on_overflow (w : Writer) (line : List Char) (hw : w.wf)
    (hz : '\x00' ∉ line) (hfit : (line.length : Int) + 1 ≤ w.buffer.length) :
    ∃ content w2, get_buffer w = .ok content ∧ BufferedWriter_write w line = .ok w2 ∧
      (if w.buffer_pos + (line.length : Int) + 1 ≥ w.buffer.length ∧ w.buffer_pos > 0 then
        w2.printed = w.printed ++ [content] ∧
        get_buffer w2 = .ok (line ++
          line_end (decide ((line.length : Int) + 2 < w.buffer.length)))
      else
        w2.printed = w.printed ∧
        get_buffer w2 = .ok (content ++ line ++
          line_end (decide (w.buffer_pos + (line.length : Int) + 2 < w.buffer.length)))) ∧
      w2.wf ∧ w2.buffer.length = w.buffer.length := by
  obtain ⟨content, w2, h1, _, h2, h3, h4, h5⟩ := BufferedWriter_write_spec w line hw hz hfit
  exact ⟨content, w2, h1, h2, h3, h4, h5⟩

/-- Witness of C10 amended (the scenario of the specification): capacity 16, `ab` has been
appended, then `cdefghijklmno` is appended: the first line is handed over and the buffer
holds the second line only. -/
theorem C10_witness :
    ∃ content w2, get_buffer after_ab16 = .ok content ∧
      BufferedWriter_write after_ab16 "cdefghijklmno".toList = .ok w2 ∧
      (w2.printed = after_ab16.printed ++ [content] ∧
        get_buffer w2 = .ok ("cdefghijklmno".toList ++ ['\r', '\n'])) ∧
      w2.wf ∧ w2.buffer.length = after_ab16.buffer.length :=
  C10_write_flushes_on_overflow after_ab16 "cdefghijklmno".toList (by decide) (by decide)
    (by decide)

/-- The scenario of the specification, evaluated: capacity 16, `ab` then `cdefghijklmno`. -/
theorem scenario16 :
    BufferedWriter_writes fresh16 ["ab".toList, "cdefghijklmno".toList]
      = .ok ⟨"cdefghijklmno\r\n".toList ++ ['\x00'], 15, ["ab\r\n".toList]⟩ := by
  decide

/-! ## Further facts: unknown tag letters, escape sequences, well-formed messages -/

/-- A character that is not a tag letter of the table, followed by an opening delimiter:
the character stays in the output and no colour code is written. -/
theorem render_rec_letter_unknown (max_len : Int) (prev : Option Char) (x : Char)
    (rest out : List Char) (hx : x ≠ '|') (hc : ANSI_COLORS_find x = none)
    (hr : rest.head? ≠ some '|') (hm : (out.length : Int) + 1 < max_len - 1) :
    render_rec max_len prev (x :: '|' :: rest) (st false out)
      = render_rec max_len (some '|') rest (st true (out ++ [x])) := by
  have h1 := render_rec_plain_st max_len [x] ('|' :: rest) prev false out
    (by simpa using hx.symm) (by simp; omega)
  simp only [List.singleton_append, List.getLast?_singleton, Option.or_some] at h1
  rw [h1, render_rec_open_unknown max_len x rest _ hc hr (by simp; omega)]

/-- What `parse_color_tags` does with a span whose letter is not in the table: the letter
stays in the output, no colour code is written, the reset code is. -/
theorem render_unknown_span (x : Char) (t : List Char) (max_len : Int)
    (hx : x ≠ '|') (hc : ANSI_COLORS_find x = none) (ht : t ≠ []) (hp : '|' ∉ t)
    (hm : (t.length : Int) + 7 ≤ max_len) :
    parse_color_tags (x :: '|' :: (t ++ ['|'])) max_len = .ok (x :: t ++ RESET) := by
  have hR := RESET_length
  apply parse_color_tags_of_scan _ _ false
  · rw [render_rec_letter_unknown max_len none x _ [] hx hc (head_ne_pipe t _ ht hp)
        (by simp; omega),
      render_rec_plain_st max_len t ['|'] _ true _ hp (by simp; omega),
      render_rec_close max_len _ [] _ (by simp; omega), render_rec_nil]
    simp
  · simp [hR]; omega

/-- What `parse_color_tags` does with a span of unknown letter followed by a span of a
letter of the table. -/
theorem render_unknown_then_known (x c : Char) (code t u : List Char) (max_len : Int)
    (hx : x ≠ '|') (hxc : ANSI_COLORS_find x = none) (hc : ANSI_COLORS_find c = some code)
    (ht : t ≠ []) (hu : u ≠ []) (hpt : '|' ∉ t) (hpu : '|' ∉ u)
    (hm : (t.length : Int) + u.length + 16 ≤ max_len) :
    parse_color_tags (x :: '|' :: (t ++ '|' :: c :: '|' :: (u ++ ['|']))) max_len
      = .ok (x :: t ++ RESET ++ code ++ u ++ RESET) := by
  obtain ⟨hcp, hlen⟩ := find_some c code hc
  have hR := RESET_length
  apply parse_color_tags_of_scan _ _ false
  · rw [render_rec_letter_unknown max_len none x _ [] hx hxc (head_ne_pipe t _ ht hpt)
        (by simp; omega),
      render_rec_plain_st max_len t _ _ true _ hpt (by simp; omega),
      render_rec_close max_len _ _ _ (by simp; omega),
      render_rec_open max_len _ c code _ _ hc (head_ne_pipe u _ hu hpu) (by simp [hR]; omega),
      render_rec_plain_st max_len u _ _ true _ hpu (by simp [hR, hlen]; omega),
      render_rec_close max_len _ [] _ (by simp [hR, hlen]; omega), render_rec_nil]
    simp
  · simp [hR, hlen]; omega

theorem ANSI_COLORS_codes_inj :
    ∀ p ∈ ANSI_COLORS, ∀ q ∈ ANSI_COLORS, p.2 = q.2 → p.1 = q.1 := by decide

theorem ANSI_COLORS_keys_mem :
    ∀ c ∈ "rgybpalsmotnfzwk".toList, (ANSI_COLORS_find c).isSome = true := by decide

theorem ANSI_COLORS_no_reset : ∀ p ∈ ANSI_COLORS, p.2 ≠ RESET := by decide

theorem escape_sequences_head : ∀ e ∈ escape_sequences, e.head? = some '\x1b' := by decide

theorem delete_escapes_skip : ∀ (l rest : List Char),
    delete_escapes l.length (l ++ rest) = delete_escapes 0 rest := by
  intro l
  induction l with
  | nil => intro rest; rfl
  | cons a l ih =>
    intro rest
    simp only [List.length_cons, List.cons_append, delete_escapes]
    exact ih rest

theorem delete_escapes_seq (e : List Char) (he : e ∈ escape_sequences) (rest : List Char) :
    delete_escapes 0 (e ++ rest) = delete_escapes 0 rest := by
  simp only [escape_sequences, ANSI_COLORS, RESET, List.map, List.mem_cons, List.mem_nil_iff,
    or_false] at he
  rcases he with h | h | h | h | h | h | h | h | h | h | h | h | h | h | h | h | h <;>
  · subst h
    simp [delete_escapes, escape_sequences, ANSI_COLORS, RESET, starts_with, List.find?]

theorem escape_sequences_no_start (c : Char) (rest : List Char) (hc : c ≠ '\x1b') :
    escape_sequences.find? (fun e => starts_with (c :: rest) e) = none := by
  rw [List.find?_eq_none]
  intro e he
  have hh := escape_sequences_head e he
  cases e with
  | nil => simp at hh
  | cons a e =>
    have ha : a = '\x1b' := by simpa using hh
    subst ha
    simp [starts_with, hc]

/-- Text without ESC survives the deletion of escape sequences. -/
theorem delete_escapes_text (t rest : List Char) (ht : '\x1b' ∉ t) :
    delete_escapes 0 (t ++ rest) = t ++ delete_escapes 0 rest := by
  induction t with
  | nil => rfl
  | cons a t ih =>
    have ha : a ≠ '\x1b' := fun h => ht (by simp [h])
    have ht2 : '\x1b' ∉ t := fun h => ht (List.mem_cons_of_mem _ h)
    simp only [List.cons_append, delete_escapes, escape_sequences_no_start a _ ha]
    exact congrArg (List.cons a) (ih ht2)

theorem find_mem_escape_sequences (c : Char) (code : List Char)
    (h : ANSI_COLORS_find c = some code) : code ∈ escape_sequences := by
  have := lookup_mem _ _ _ h
  simp only [escape_sequences, List.mem_cons, List.mem_map]
  exact Or.inr ⟨(c, code), this, rfl⟩

theorem RESET_mem_escape_sequences : RESET ∈ escape_sequences := by
  simp [escape_sequences]

/-- Deleting the escape sequences from the rendering of well-formed pieces leaves their
texts. -/
theorem delete_escapes_pieces (ps : List Piece) (h : ∀ p ∈ ps, p.ok) :
    delete_escapes 0 (pieces_rendered ps) = pieces_text ps := by
  induction ps with
  | nil => rfl
  | cons p ps ih =>
    have hp := h p (List.mem_cons_self _ _)
    have ih2 := ih (fun q hq => h q (List.mem_cons_of_mem _ hq))
    cases p with
    | plain t =>
      obtain ⟨_, he⟩ := hp
      simp only [pieces_rendered, pieces_text, Piece.rendered, Piece.text]
      rw [delete_escapes_text t _ he, ih2]
    | span c t =>
      obtain ⟨hc, _, _, he⟩ := hp
      obtain ⟨code, hcode⟩ := Option.isSome_iff_exists.mp hc
      simp only [pieces_rendered, pieces_text, Piece.rendered, Piece.text, hcode,
        Option.getD_some, List.append_assoc]
      rw [delete_escapes_seq code (find_mem_escape_sequences c code hcode),
        delete_escapes_text t _ he, delete_escapes_seq RESET RESET_mem_escape_sequences, ih2]

theorem escape_sequences_no_pipe : ∀ e ∈ escape_sequences, '|' ∉ e := by decide

/-- The rendering of well-formed pieces holds no delimiter. -/
theorem pieces_rendered_no_pipe (ps : List Piece) (h : ∀ p ∈ ps, p.ok) :
    '|' ∉ pieces_rendered ps := by
  induction ps with
  | nil => simp [pieces_rendered]
  | cons p ps ih =>
    have hp := h p (List.mem_cons_self _ _)
    have ih2 := ih (fun q hq => h q (List.mem_cons_of_mem _ hq))
    cases p with
    | plain t =>
      obtain ⟨hpipe, _⟩ := hp
      simp only [pieces_rendered, Piece.rendered, List.mem_append, not_or]
      exact ⟨hpipe, ih2⟩
    | span c t =>
      obtain ⟨hc, _, hpipe, _⟩ := hp
      obtain ⟨code, hcode⟩ := Option.isSome_iff_exists.mp hc
      simp only [pieces_rendered, Piece.rendered, hcode, Option.getD_some, List.mem_append,
        not_or]
      exact ⟨⟨⟨escape_sequences_no_pipe code (find_mem_escape_sequences c code hcode), hpipe⟩,
        escape_sequences_no_pipe RESET RESET_mem_escape_sequences⟩, ih2⟩

/-- The render loop on well-formed pieces, with room for their whole rendering. -/
theorem render_rec_pieces (max_len : Int) :
    ∀ (ps : List Piece) (prev : Option Char) (out : List Char), (∀ p ∈ ps, p.ok) →
      (out.length : Int) + (pieces_rendered ps).length < max_len - 1 →
      render_rec max_len prev (pieces_source ps) (st false out)
        = .ok (st false (out ++ pieces_rendered ps)) := by
  intro ps
  induction ps with
  | nil => intro prev out _ _; simp [pieces_source, pieces_rendered, render_rec]
  | cons p ps ih =>
    intro prev out h hm
    have hp := h p (List.mem_cons_self _ _)
    have hps : ∀ q ∈ ps, q.ok := fun q hq => h q (List.mem_cons_of_mem _ hq)
    have hR := RESET_length
    cases p with
    | plain t =>
      obtain ⟨hpipe, _⟩ := hp
      simp only [pieces_rendered, Piece.rendered, List.length_append, Nat.cast_add] at hm
      simp only [pieces_source, pieces_rendered, Piece.source, Piece.rendered]
      rw [render_rec_plain_st max_len t _ prev false out hpipe (by omega),
        ih _ _ hps (by simp; omega)]
      simp
    | span c t =>
      obtain ⟨hc, ht, hpipe, _⟩ := hp
      obtain ⟨code, hcode⟩ := Option.isSome_iff_exists.mp hc
      obtain ⟨_, hlen⟩ := find_some c code hcode
      simp only [pieces_rendered, Piece.rendered, hcode, Option.getD_some, List.length_append,
        Nat.cast_add, hlen, hR] at hm
      simp only [pieces_source, pieces_rendered, Piece.source, Piece.rendered, hcode,
        Option.getD_some, List.cons_append, List.append_assoc, List.nil_append]
      rw [render_rec_open max_len prev c code _ out hcode (head_ne_pipe t _ ht hpipe)
          (by omega),
        render_rec_plain_st max_len t _ _ true _ hpipe (by simp [hlen]; omega),
        render_rec_close max_len _ _ _ (by simp [hlen]; omega),
        ih _ _ hps (by simp [hlen, hR]; omega)]
      simp

/-- The function `parse_color_tags` on a message of well-formed pieces. -/
theorem render_pieces (ps : List Piece) (max_len : Int) (h : ∀ p ∈ ps, p.ok)
    (hm : ((pieces_rendered ps).length : Int) + 2 ≤ max_len) :
    parse_color_tags (pieces_source ps) max_len = .ok (pieces_rendered ps) := by
  apply parse_color_tags_of_scan _ _ false
  · rw [render_rec_pieces max_len ps none [] h (by simp; omega)]
    simp
  · omega

/-- The function `strip_color_tags` returns a text without delimiter as it is. -/
theorem strip_plain (s : List Char) (max_len : Int) (hp : '|' ∉ s)
    (hm : (s.length : Int) + 1 ≤ max_len) : strip_color_tags s max_len = .ok s := by
  apply strip_color_tags_of_scan _ _ false
  · have := strip_rec_plain max_len s [] false [] hp (by simp; omega)
    simp only [List.append_nil, List.nil_append] at this
    rw [this, strip_rec_nil]
  · omega

/-- The function `parse_color_tags` on one span of a letter of the table. -/
theorem render_known_span (c : Char) (code t : List Char) (max_len : Int)
    (hc : ANSI_COLORS_find c = some code) (ht : t ≠ []) (hp : '|' ∉ t)
    (hm : (t.length : Int) + 11 ≤ max_len) :
    parse_color_tags (c :: '|' :: (t ++ ['|'])) max_len = .ok (code ++ t ++ RESET) := by
  obtain ⟨hcp, hlen⟩ := find_some c code hc
  have hR := RESET_length
  apply parse_color_tags_of_scan _ _ false
  · rw [render_rec_open max_len none c code _ [] hc (head_ne_pipe t _ ht hp) (by simp; omega),
      render_rec_plain_st max_len t ['|'] _ true _ hp (by simp [hlen]; omega),
      render_rec_close max_len _ [] _ (by simp [hlen]; omega), render_rec_nil]
    simp
  · simp [hlen, hR]; omega

/-! ## Further facts: flush, over-long lines, runs of operations -/

/-- What `BufferedWriter::flush` does on a buffer that satisfies the invariant. -/
theorem BufferedWriter_flush_spec (w : Writer) (hw : w.wf) :
    ∃ content w2, get_buffer w = .ok content ∧ (content.length : Int) = w.buffer_pos ∧
      BufferedWriter_flush w = .ok w2 ∧
      (if is_empty w = false then w2.printed = w.printed ++ [content]
        else w2 = w) ∧
      w2.buffer_pos = 0 ∧ get_buffer w2 = .ok [] ∧ is_empty w2 = true ∧
      w2.wf ∧ w2.buffer.length = w.buffer.length := by
  obtain ⟨content, junk, hb, hc, hp⟩ := wf_split w hw
  obtain ⟨buffer, buffer_pos, printed⟩ := w
  simp only at hb hp
  subst hb hp
  refine ⟨content, ?_⟩
  by_cases hne : content = []
  · subst hne
    have hfe := BufferedWriter_flush_empty
      ⟨[] ++ '\x00' :: junk, (([] : List Char).length : Nat), printed⟩ (by simp)
    refine ⟨_, cstr_at _ _ hc, rfl, hfe, ?_, by simp, cstr_at _ _ hc, by simp [is_empty], hw,
      rfl⟩
    simp [is_empty]
  · have hfl := BufferedWriter_flush_nonempty content junk printed hc hne
    have hpos : ¬ ((content.length : Nat) : Int) = 0 := by
      have := List.length_pos.mpr hne
      omega
    refine ⟨_, cstr_at _ _ hc, rfl, hfl, ?_, rfl, ?_, by simp [is_empty], ?_, ?_⟩
    · simp [is_empty, hpos]
    · exact cstr_at [] _ (by simp)
    · exact wf_of_split [] _ _ (by simp)
    · simp
      omega

theorem store_outside (buf : List Char) (k : Int) (c : Char) (h : (buf.length : Int) ≤ k) :
    store buf k c = .error (.write k) := by
  have : ¬ (0 ≤ k ∧ k < buf.length) := by omega
  simp [store, this]

theorem strncpy_whole (buf line : List Char) (hb : buf ≠ []) :
    ∃ buf1, strncpy buf 0 line ((buf.length : Int) - 0 - 1) = .ok buf1 ∧
      buf1.length = buf.length := by
  have hpos := List.length_pos.mpr hb
  have h1 : (0 : Int) ≤ (buf.length : Int) - 0 - 1 := by omega
  have h2 : (0 : Int) + ((buf.length : Int) - 0 - 1) ≤ buf.length := by omega
  have hcond : (0 : Int) ≤ 0 ∧ (0 : Int) ≤ (buf.length : Int) - 0 - 1 ∧
      (0 : Int) + ((buf.length : Int) - 0 - 1) ≤ buf.length := ⟨le_refl _, h1, h2⟩
  refine ⟨_, by rw [strncpy, if_pos hcond], ?_⟩
  have e1 : ((buf.length : Int) - 0 - 1).toNat = buf.length - 1 := by omega
  simp only [e1, List.length_append, List.length_take, List.length_replicate,
    List.length_drop, Int.toNat_zero]
  omega

/-- The store phase of `write` for a line at least as long as the buffer: the copy is cut
but the cursor advances by the whole length, and the terminator is written outside. -/
theorem write_store_overlong (buf line : List Char) (printed : List (List Char))
    (hb : buf ≠ []) (h : buf.length ≤ line.length) :
    write_store ⟨buf, 0, printed⟩ line = .error (.write line.length) := by
  obtain ⟨buf1, hcp, hlen⟩ := strncpy_whole buf line hb
  have h3 : ¬ ((line.length : Int) + 2 < buf.length) := by omega
  have hs := store_outside buf1 (line.length : Int) '\x00' (by omega)
  simp only [write_store, hcp, zero_add, h3, if_false, hs]

/-- The method `write` on a line at least as long as the buffer writes outside the buffer. -/
theorem BufferedWriter_write_overlong (w : Writer) (line : List Char) (hw : w.wf)
    (h : w.buffer.length ≤ line.length) :
    BufferedWriter_write w line = .error (.write line.length) := by
  obtain ⟨content, w2, _, hlen, hfl, hif, hpos, _, _, _, hcap⟩ := BufferedWriter_flush_spec w hw
  have hne : w.buffer ≠ [] := by
    obtain ⟨h0, h1, _⟩ := hw
    intro e; rw [e] at h1; simp at h1; omega
  have htrig : w.buffer_pos + (line.length : Int) + 1 ≥ w.buffer.length := by
    have := hw.1; omega
  rw [BufferedWriter_write, BaseBufferedWriter_write_eq]
  simp only [htrig, if_true, hfl]
  obtain ⟨b2, p2, pr2⟩ := w2
  simp only at hpos hcap
  subst hpos
  exact write_store_overlong b2 line pr2 (by intro e; rw [e] at hcap; simp at hcap; exact hne (List.length_eq_zero.mp hcap.symm)) (by omega)

theorem terminated_append (a b : List (List Char)) :
    terminated (a ++ b) = terminated a ++ terminated b := by
  induction a with
  | nil => rfl
  | cons l a ih => simp [terminated, ih]

theorem handed_ok_mono (cap : Nat) (done : List (List Char)) (l p : List Char)
    (h : handed_ok cap done p) : handed_ok cap (done ++ [l]) p := by
  refine ⟨h.1, fun hlt => ?_⟩
  obtain ⟨pre, ls, post, hd, hp⟩ := h.2 hlt
  exact ⟨pre, ls, post ++ [l], by rw [hd]; simp, hp⟩

theorem line_end_length (b : Bool) : (line_end b).length = if b then 2 else 0 := by
  cases b <;> rfl

/-- One `write` keeps the invariant of a run. -/
theorem run_inv_append (cap : Nat) (done : List (List Char)) (w : Writer) (l : List Char)
    (hi : run_inv cap done w) (hz : '\x00' ∉ l) (hfit : l.length + 1 ≤ cap) :
    ∃ w2, BufferedWriter_write w l = .ok w2 ∧ run_inv cap (done ++ [l]) w2 := by
  obtain ⟨hw, hcap, hpr, content0, hgb0, hcl⟩ := hi
  obtain ⟨content, w2, hgb, hlen, hwr, hif, hwf2, hcap2⟩ :=
    BufferedWriter_write_spec w l hw hz (by rw [hcap]; omega)
  have hc0 : content0 = content := by
    rw [hgb0] at hgb; exact Except.ok.inj hgb
  subst hc0
  refine ⟨w2, hwr, hwf2, by rw [hcap2, hcap], ?_, ?_⟩
  · -- the contents handed over
    by_cases hcond : w.buffer_pos + (l.length : Int) + 1 ≥ w.buffer.length ∧ w.buffer_pos > 0
    · rw [if_pos hcond] at hif
      intro p hp
      rw [hif.1] at hp
      rcases List.mem_append.mp hp with hp | hp
      · exact handed_ok_mono cap done l p (hpr p hp)
      · have hpe : p = content0 := by simpa using hp
        subst hpe
        refine ⟨?_, fun hlt => ?_⟩
        · intro e; rw [e] at hlen; simp at hlen; omega
        · obtain ⟨pre, pend, hd, hc⟩ := hcl hlt
          exact ⟨pre, pend, [l], by rw [hd], hc⟩
    · rw [if_neg hcond] at hif
      intro p hp
      rw [hif.1] at hp
      exact handed_ok_mono cap done l p (hpr p hp)
  · -- the content of the buffer
    by_cases hcond : w.buffer_pos + (l.length : Int) + 1 ≥ w.buffer.length ∧ w.buffer_pos > 0
    · rw [if_pos hcond] at hif
      refine ⟨_, hif.2, fun hlt => ?_⟩
      by_cases hb : (l.length : Int) + 2 < w.buffer.length
      · refine ⟨done, [l], rfl, ?_⟩
        simp [hb, line_end, terminated]
      · exfalso
        simp only [hb, decide_False, line_end, List.append_nil, Bool.false_eq_true,
          if_false] at hlt
        rw [hcap] at hb
        omega
    · rw [if_neg hcond] at hif
      refine ⟨_, hif.2, fun hlt => ?_⟩
      by_cases hb : w.buffer_pos + (l.length : Int) + 2 < w.buffer.length
      · simp only [hb, decide_True, line_end, if_true, List.length_append, List.length_cons,
          List.length_nil, Nat.cast_add] at hlt
        obtain ⟨pre, pend, hd, hc⟩ := hcl (by omega)
        refine ⟨pre, pend ++ [l], by rw [hd]; simp, ?_⟩
        simp [hb, line_end, terminated_append, terminated, hc]
      · exfalso
        simp only [hb, decide_False, line_end, List.append_nil, Bool.false_eq_true,
          if_false, List.length_append, Nat.cast_add] at hlt
        rw [hcap] at hb
        omega

/-- One `flush` keeps the invariant of a run. -/
theorem run_inv_flush (cap : Nat) (done : List (List Char)) (w : Writer)
    (hi : run_inv cap done w) :
    ∃ w2, BufferedWriter_flush w = .ok w2 ∧ run_inv cap done w2 := by
  obtain ⟨hw, hcap, hpr, content0, hgb0, hcl⟩ := hi
  obtain ⟨content, w2, hgb, hlen, hfl, hif, hpos2, hgb2, _, hwf2, hcap2⟩ :=
    BufferedWriter_flush_spec w hw
  have hc0 : content0 = content := by
    rw [hgb0] at hgb; exact Except.ok.inj hgb
  subst hc0
  refine ⟨w2, hfl, hwf2, by rw [hcap2, hcap], ?_, ⟨[], hgb2, fun _ => ⟨done, [], by simp, rfl⟩⟩⟩
  by_cases he : is_empty w = false
  · rw [if_pos he] at hif
    intro p hp
    rw [hif] at hp
    rcases List.mem_append.mp hp with hp | hp
    · exact hpr p hp
    · have hpe : p = content0 := by simpa using hp
      subst hpe
      refine ⟨?_, fun hlt => ?_⟩
      · intro e
        rw [e] at hlen
        simp [is_empty] at he
        simp at hlen
        exact he hlen.symm
      · obtain ⟨pre, pend, hd, hc⟩ := hcl hlt
        exact ⟨pre, pend, [], by rw [hd]; simp, hc⟩
  · rw [if_neg he] at hif
    rw [hif]
    exact hpr

/-- A run of operations whose lines fit in the buffer ends without fault and keeps the
invariant of a run. -/
theorem run_inv_run (cap : Nat) :
    ∀ (ops : List Op) (w : Writer) (done : List (List Char)), run_inv cap done w →
      (∀ l ∈ lines_of ops, '\x00' ∉ l ∧ l.length + 1 ≤ cap) →
      ∃ w2, BufferedWriter_run w ops = .ok w2 ∧ run_inv cap (done ++ lines_of ops) w2 := by
  intro ops
  induction ops with
  | nil => intro w done hi _; exact ⟨w, rfl, by simpa [lines_of] using hi⟩
  | cons op ops ih =>
    intro w done hi hl
    cases op with
    | append l =>
      obtain ⟨hz, hfit⟩ := hl l (by simp [lines_of])
      obtain ⟨w1, h1, hi1⟩ := run_inv_append cap done w l hi hz hfit
      obtain ⟨w2, h2, hi2⟩ := ih w1 (done ++ [l]) hi1
        (fun x hx => hl x (by simp [lines_of, hx]))
      refine ⟨w2, ?_, ?_⟩
      · simp only [BufferedWriter_run, BufferedWriter_step, h1, h2]
      · simpa [lines_of] using hi2
    | flush =>
      obtain ⟨w1, h1, hi1⟩ := run_inv_flush cap done w hi
      obtain ⟨w2, h2, hi2⟩ := ih w1 done hi1 (fun x hx => hl x (by simpa [lines_of] using hx))
      refine ⟨w2, ?_, ?_⟩
      · simp only [BufferedWriter_run, BufferedWriter_step, h1, h2]
      · simpa [lines_of] using hi2

/-- A writer with an empty buffer and nothing handed over satisfies the invariant of a
run. -/
theorem run_inv_fresh (w : Writer) (hw : w.wf) (hp : w.buffer_pos = 0)
    (hpr : w.printed = []) : run_inv w.buffer.length [] w := by
  obtain ⟨content, w2, hgb, hlen, _⟩ := BufferedWriter_flush_spec w hw
  have hc : content = [] := by
    rw [hp] at hlen
    exact List.length_eq_zero.mp (by exact_mod_cast hlen)
  subst hc
  exact ⟨hw, rfl, by simp [hpr], [], hgb, fun _ => ⟨[], [], rfl, rfl⟩⟩

theorem fresh1024_length : fresh1024.buffer.length = BUFFER_SIZE := by
  simp only [fresh1024, List.length_cons, List.length_replicate]
  rfl

theorem fresh1024_wf : fresh1024.wf := by
  refine ⟨le_refl _, ?_, ?_, ?_⟩
  · rw [fresh1024_length]; decide
  · rfl
  · show '\x00' ∉ List.take 0 fresh1024.buffer
    simp

theorem fresh1024_new :
    BaseBufferedWriter_new (List.replicate BUFFER_SIZE 'u') = .ok fresh1024 := by
  have hne : List.replicate BUFFER_SIZE 'u' ≠ [] := by
    intro h
    have := congrArg List.length h
    rw [List.length_replicate] at this
    exact absurd this (by decide)
  rw [BaseBufferedWriter_new, store_zero _ _ hne, List.tail_replicate]
  rfl

/-- A run of terminated lines that is not empty ends with CR LF. -/
theorem terminated_ends (ls : List (List Char)) (h : ls ≠ []) :
    ∃ q, terminated ls = q ++ ['\r', '\n'] := by
  induction ls with
  | nil => exact absurd rfl h
  | cons l ls ih =>
    by_cases hls : ls = []
    · subst hls
      exact ⟨l, by simp [terminated]⟩
    · obtain ⟨q, hq⟩ := ih hls
      exact ⟨l ++ ['\r', '\n'] ++ q, by simp [terminated, hq]⟩

/-! ## Further facts: the logger -/

theorem invalid_notice_valid :
    validate_color_tags_runtime "Invalid color tags".toList = .ok true := by decide

/-! ## The claims, continued -/

/-- Claim C11, evaluated on the code: a freshly constructed writer of capacity
`BUFFER_SIZE` = 1024 receives one line of 1024 characters: `strncpy` copies 1023 of them,
the cursor is advanced by the whole length to 1024, and the terminator is written at index
1024, outside the buffer. -/
theorem C11_overlong_line_writes_outside :
    BaseBufferedWriter_new (List.replicate BUFFER_SIZE 'u') = .ok fresh1024 ∧
    BufferedWriter_run fresh1024 [.append (List.replicate BUFFER_SIZE 'a')]
      = .error (.write 1024) := by
  refine ⟨fresh1024_new, ?_⟩
  have h := BufferedWriter_write_overlong fresh1024 (List.replicate BUFFER_SIZE 'a')
    fresh1024_wf (by rw [fresh1024_length, List.length_replicate])
  rw [List.length_replicate] at h
  simp only [BufferedWriter_run, BufferedWriter_step, h]
  rfl

/-- Claim C12: on every writer state that satisfies the buffer invariant,
`BufferedWriter::flush` hands exactly the current content to the output target when the
buffer is not empty and nothing when it is empty; afterwards the cursor is 0, the content
is the empty string and `is_empty()` is true; an empty writer is left unchanged, so a
second `flush` changes nothing. -/
theorem C12_flush_postcondition (w : Writer) (hw : w.wf) :
    ∃ content w2, get_buffer w = .ok content ∧ BufferedWriter_flush w = .ok w2 ∧
      (if is_empty w = false then content ≠ [] ∧ w2.printed = w.printed ++ [content]
        else w2 = w) ∧
      w2.buffer_pos = 0 ∧ get_buffer w2 = .ok [] ∧ is_empty w2 = true ∧
      BufferedWriter_flush w2 = .ok w2 := by
  obtain ⟨content, w2, hgb, hlen, hfl, hif, hpos, hgb2, hemp, _, _⟩ :=
    BufferedWriter_flush_spec w hw
  refine ⟨content, w2, hgb, hfl, ?_, hpos, hgb2, hemp, BufferedWriter_flush_empty w2 hpos⟩
  by_cases he : is_empty w = false
  · rw [if_pos he] at hif ⊢
    refine ⟨fun e => ?_, hif⟩
    rw [e] at hlen
    simp [is_empty] at he
    simp at hlen
    exact he hlen.symm
  · rw [if_neg he] at hif ⊢
    exact hif

/-- Witness of C12: the writer of capacity 16 that holds `ab` and its line terminator. -/
theorem C12_witness :
    ∃ content w2, get_buffer after_ab16 = .ok content ∧
      BufferedWriter_flush after_ab16 = .ok w2 ∧
      (if is_empty after_ab16 = false then
        content ≠ [] ∧ w2.printed = after_ab16.printed ++ [content]
        else w2 = after_ab16) ∧
      w2.buffer_pos = 0 ∧ get_buffer w2 = .ok [] ∧ is_empty w2 = true ∧
      BufferedWriter_flush w2 = .ok w2 :=
  C12_flush_postcondition after_ab16 (by decide)

/-- Claim C13, evaluated on the code: when the writer of capacity 16 that holds `ab` and
its line terminator is destroyed, the destructor clears the buffer and hands nothing to the
output target, whereas `BufferedWriter::flush` hands over the content. -/
theorem C13_destructor_loses_content :
    BufferedWriter_destroy after_ab16
      = .ok ⟨'\x00' :: after_ab16.buffer.tail, 0, []⟩ ∧
    BufferedWriter_flush after_ab16
      = .ok ⟨'\x00' :: after_ab16.buffer.tail, 0, ["ab\r\n".toList]⟩ := by
  decide

/-- Claim C14: for a message whose level is at or above the threshold, `log_internal`
hands every pair an entry with the original message and level when
`validate_color_tags_runtime` accepts the message, and otherwise an entry with the fixed
text `Invalid color tags` at level `ERROR_`; every message handed over passes runtime
validation. -/
theorem C14_validation_gate {ι : Type} (current_level level : LogLevel) (pairs : List ι)
    (file : List Char) (line : Int) (message : List Char)
    (h : current_level.value ≤ level.value) :
    ∃ valid, validate_color_tags_runtime message = .ok valid ∧
      log_internal current_level pairs level file line message
        = .ok (pairs.map (fun pair => (pair,
            if valid then (⟨level, file, line, message⟩ : LogEntry)
            else ⟨.ERROR_, file, line, "Invalid color tags".toList⟩))) ∧
      ∀ handed, log_internal current_level pairs level file line message = .ok handed →
        ∀ x ∈ handed, validate_color_tags_runtime x.2.message = .ok true := by
  obtain ⟨valid, hv⟩ := validate_color_tags_runtime_total message
  have hlt : ¬ level.value < current_level.value := by omega
  have heq : log_internal current_level pairs level file line message
      = .ok (pairs.map (fun pair => (pair,
          if valid then (⟨level, file, line, message⟩ : LogEntry)
          else ⟨.ERROR_, file, line, "Invalid color tags".toList⟩))) := by
    cases valid <;> simp [log_internal, hlt, hv, create_log_entry]
  refine ⟨valid, hv, heq, ?_⟩
  intro handed hh x hx
  rw [heq] at hh
  have := Except.ok.inj hh
  subst this
  obtain ⟨p, _, rfl⟩ := List.mem_map.mp hx
  cases valid with
  | true => simpa using hv
  | false => simpa using invalid_notice_valid

/-- Witness of C14: threshold `INFO_`, one pair, the unclosed message `r|hello` at level
`WARN_`. -/
theorem C14_witness :
    ∃ valid, validate_color_tags_runtime "r|hello".toList = .ok valid ∧
      log_internal .INFO_ [0] .WARN_ "main.cpp".toList 28 "r|hello".toList
        = .ok ([0].map (fun pair => (pair,
            if valid then (⟨.WARN_, "main.cpp".toList, 28, "r|hello".toList⟩ : LogEntry)
            else ⟨.ERROR_, "main.cpp".toList, 28, "Invalid color tags".toList⟩))) ∧
      ∀ handed, log_internal .INFO_ [0] .WARN_ "main.cpp".toList 28 "r|hello".toList
          = .ok handed →
        ∀ x ∈ handed, validate_color_tags_runtime x.2.message = .ok true :=
  C14_validation_gate .INFO_ .WARN_ [0] "main.cpp".toList 28 "r|hello".toList (by decide)

/-- Counterexample to C15 as stated: capacity 16, a line of 14 characters is appended to
the empty buffer and flushed: no flush precedes the copy (0 + 14 + 1 < 16), the cursor
becomes 14 and the terminator is not written (14 + 2 < 16 fails), so the content handed
over is the bare line, without CR LF. -/
theorem C15_counterexample :
    (BufferedWriter_run fresh16 [.append "0123456789abcd".toList, .flush]).map
      (fun w => w.printed) = .ok ["0123456789abcd".toList] := by
  decide

/-- Claim C15, amended: for every sequence of appends of lines shorter than the capacity
and of flushes on a `BufferedWriter` that starts empty, the run ends without fault, every
content handed to the output target is non-empty, and every such content shorter than
`capacity - 2` consists of complete lines: it is a run of consecutive appended lines, each
followed by CR LF, and so ends with CR LF. (A content of `capacity - 2` characters or more
may end with a line that has no terminator.) The lines are C strings: they hold no NUL. -/
theorem C15_flushed_content_terminated (w0 : Writer) (ops : List Op) (hw : w0.wf)
    (h0 : w0.buffer_pos = 0) (hp : w0.printed = [])
    (hl : ∀ l ∈ lines_of ops, '\x00' ∉ l ∧ l.length + 1 ≤ w0.buffer.length) :
    ∃ w, BufferedWriter_run w0 ops = .ok w ∧
      ∀ p ∈ w.printed, p ≠ [] ∧ ((p.length : Int) + 2 < w0.buffer.length →
        (∃ q, p = q ++ ['\r', '\n']) ∧
        ∃ pre ls post, lines_of ops = pre ++ ls ++ post ∧ p = terminated ls) := by
  obtain ⟨w, hrun, _, _, hpr, _⟩ :=
    run_inv_run w0.buffer.length ops w0 [] (run_inv_fresh w0 hw h0 hp) hl
  refine ⟨w, hrun, fun p hpm => ?_⟩
  obtain ⟨hne, hcl⟩ := hpr p hpm
  refine ⟨hne, fun hlt => ?_⟩
  obtain ⟨pre, ls, post, hd, hpe⟩ := hcl hlt
  refine ⟨?_, pre, ls, post, by simpa using hd, hpe⟩
  have hls : ls ≠ [] := by
    intro e; subst e; exact hne (by simpa [terminated] using hpe)
  obtain ⟨q, hq⟩ := terminated_ends ls hls
  exact ⟨q, by rw [hpe, hq]⟩

/-- Witness of C15 amended: capacity 16, `ab`, then `cdefghijklmno`, then a flush. -/
theorem C15_witness :
    ∃ w, BufferedWriter_run fresh16
        [.append "ab".toList, .append "cdefghijklmno".toList, .flush] = .ok w ∧
      ∀ p ∈ w.printed, p ≠ [] ∧ ((p.length : Int) + 2 < fresh16.buffer.length →
        (∃ q, p = q ++ ['\r', '\n']) ∧
        ∃ pre ls post,
          lines_of [.append "ab".toList, .append "cdefghijklmno".toList, .flush]
            = pre ++ ls ++ post ∧ p = terminated ls) :=
  C15_flushed_content_terminated fresh16
    [.append "ab".toList, .append "cdefghijklmno".toList, .flush] (by decide) (by decide)
    (by decide) (by decide)

/-- Counterexample to C16 as stated: `c` is not a letter of the colour table, and
`parse_color_tags` of `c|x|` is `cx` followed by the reset code, not `x` followed by the
reset code: the letter is not rewound out of the output. -/
theorem C16_counterexample :
    parse_color_tags "c|x|".toList 256 = .ok ("cx".toList ++ RESET) ∧
    parse_color_tags "c|x|".toList 256 ≠ .ok ("x".toList ++ RESET) := by
  decide

/-- Claim C16, amended: the character before the opening delimiter is removed from the
output only when it is a letter of the colour table; for every other character `x` (not the
delimiter) and every non-empty text `t` without delimiter, `parse_color_tags` of `x|t|` is
`x`, then `t`, then the reset code: the character stays and no colour code is written. -/
theorem C16_unknown_letter_stays (x : Char) (t : List Char) (max_len : Int)
    (hx : x ≠ '|') (hc : ANSI_COLORS_find x = none) (ht : t ≠ []) (hp : '|' ∉ t)
    (hm : (t.length : Int) + 7 ≤ max_len) :
    parse_color_tags (x :: '|' :: (t ++ ['|'])) max_len = .ok (x :: t ++ RESET) :=
  render_unknown_span x t max_len hx hc ht hp hm

/-- Witness of C16 amended: the message `c|hello|`. -/
theorem C16_witness :
    parse_color_tags "c|hello|".toList 256 = .ok ("chello".toList ++ "\x1b[0m".toList) :=
  C16_unknown_letter_stays 'c' "hello".toList 256 (by decide) (by decide) (by decide)
    (by decide) (by decide)

/-- Claim C17: a span whose letter `x` is not in the colour table does not desynchronise
the scan: `parse_color_tags` of `x|t|c|u|` writes no colour code for `x`, writes the reset
code at the delimiter that closes `t`, and ends with the colour code of `c`, `u` and the
reset code, which is the whole output of `c|u|`. -/
theorem C17_unknown_letter_keeps_sync (x c : Char) (code t u : List Char) (max_len : Int)
    (hx : x ≠ '|') (hxc : ANSI_COLORS_find x = none) (hc : ANSI_COLORS_find c = some code)
    (ht : t ≠ []) (hu : u ≠ []) (hpt : '|' ∉ t) (hpu : '|' ∉ u)
    (hm : (t.length : Int) + u.length + 16 ≤ max_len) :
    parse_color_tags (x :: '|' :: (t ++ '|' :: c :: '|' :: (u ++ ['|']))) max_len
      = .ok (x :: t ++ RESET ++ (code ++ u ++ RESET)) ∧
    parse_color_tags (c :: '|' :: (u ++ ['|'])) max_len = .ok (code ++ u ++ RESET) := by
  refine ⟨?_, render_known_span c code u max_len hc hu hpu (by omega)⟩
  rw [render_unknown_then_known x c code t u max_len hx hxc hc ht hu hpt hpu hm]
  simp

/-- Witness of C17: the message `c|x|r|y|`. -/
theorem C17_witness :
    parse_color_tags "c|x|r|y|".toList 256
      = .ok ("cx".toList ++ RESET ++ ("\x1b[31m".toList ++ "y".toList ++ RESET)) ∧
    parse_color_tags "r|y|".toList 256 = .ok ("\x1b[31m".toList ++ "y".toList ++ RESET) :=
  C17_unknown_letter_keeps_sync 'c' 'r' "\x1b[31m".toList "x".toList "y".toList 256
    (by decide) (by decide) (by decide) (by decide) (by decide) (by decide) (by decide)
    (by decide)

/-- Claim C18, evaluated on the code: on the input `|hello|`, which begins with a lone
delimiter, `parse_color_tags` performs the lookup `input[i - 1]` with `i = 0`: it reads
index -1, outside the input. -/
theorem C18_render_reads_index_minus_one :
    parse_color_tags "|hello|".toList 256 = .error (.read (-1)) := by
  decide

/-- Counterexample to C19 as stated: for `a||b`, `parse_color_tags` returns `a|b`, whose
delimiter `strip_color_tags` then drops: `strip(render(s))` is `ab`, it holds no escape
sequence, and `strip(s)` is `a|b`. -/
theorem C19_counterexample :
    parse_color_tags "a||b".toList 256 = .ok "a|b".toList ∧
    strip_color_tags "a|b".toList 256 = .ok "ab".toList ∧
    delete_escapes 0 "ab".toList = "ab".toList ∧
    strip_color_tags "a||b".toList 256 = .ok "a|b".toList ∧
    "ab".toList ≠ "a|b".toList := by
  decide

/-- Claim C19, amended: rendering never alters non-markup characters: for every message
made of plain texts and of spans `c|t|` with `c` a letter of the colour table and `t` not
empty, all texts free of delimiters and of ESC, and `max_len` large enough for the whole
rendering, `parse_color_tags` returns the texts with each span text between its colour code
and the reset code; this rendering holds no delimiter, so `strip_color_tags` returns it
unchanged; and deleting the colour and reset sequences from it leaves exactly the texts of
the message, in order. -/
theorem C19_render_keeps_text (ps : List Piece) (max_len : Int) (h : ∀ p ∈ ps, p.ok)
    (hm : ((pieces_rendered ps).length : Int) + 2 ≤ max_len) :
    parse_color_tags (pieces_source ps) max_len = .ok (pieces_rendered ps) ∧
    strip_color_tags (pieces_rendered ps) max_len = .ok (pieces_rendered ps) ∧
    delete_escapes 0 (pieces_rendered ps) = pieces_text ps :=
  ⟨render_pieces ps max_len h hm,
   strip_plain _ max_len (pieces_rendered_no_pipe ps h) (by omega),
   delete_escapes_pieces ps h⟩

/-- Witness of C19 amended: the message `see r|red| and g|green|.`. -/
theorem C19_witness :
    parse_color_tags "see r|red| and g|green|.".toList 256
      = .ok "see \x1b[31mred\x1b[0m and \x1b[32mgreen\x1b[0m.".toList ∧
    strip_color_tags "see \x1b[31mred\x1b[0m and \x1b[32mgreen\x1b[0m.".toList 256
      = .ok "see \x1b[31mred\x1b[0m and \x1b[32mgreen\x1b[0m.".toList ∧
    delete_escapes 0 "see \x1b[31mred\x1b[0m and \x1b[32mgreen\x1b[0m.".toList
      = "see red and green.".toList :=
  C19_render_keeps_text
    [.plain "see ".toList, .span 'r' "red".toList, .plain " and ".toList,
      .span 'g' "green".toList, .plain ".".toList] 256 (by decide) (by decide)

/-- Claim C20: the colour table has exactly the sixteen keys r, g, y, b, p, a, l, s, m, o,
t, n, f, z, w, k; the sixteen codes are pairwise distinct, so the mapping from key to code
is injective; and the reset code is none of them. -/
theorem C20_colour_table :
    ANSI_COLORS.map Prod.fst = "rgybpalsmotnfzwk".toList ∧
    (ANSI_COLORS.map Prod.fst).Nodup ∧ ANSI_COLORS.length = 16 ∧
    (ANSI_COLORS.map Prod.snd).Nodup ∧ RESET ∉ ANSI_COLORS.map Prod.snd ∧
    (∀ c, (ANSI_COLORS_find c).isSome = true ↔ c ∈ "rgybpalsmotnfzwk".toList) ∧
    (∀ c d code, ANSI_COLORS_find c = some code → ANSI_COLORS_find d = some code → c = d) ∧
    (∀ c, ANSI_COLORS_find c ≠ some RESET) := by
  refine ⟨by decide, by decide, by decide, by decide, by decide, ?_, ?_, ?_⟩
  · intro c
    constructor
    · intro hs
      obtain ⟨code, hcode⟩ := Option.isSome_iff_exists.mp hs
      have hm := lookup_mem _ _ _ hcode
      have hk : ANSI_COLORS.map Prod.fst = "rgybpalsmotnfzwk".toList := by decide
      rw [← hk]
      exact List.mem_map.mpr ⟨(c, code), hm, rfl⟩
    · exact ANSI_COLORS_keys_mem c
  · intro c d code hc hd
    exact ANSI_COLORS_codes_inj (c, code) (lookup_mem _ _ _ hc) (d, code)
      (lookup_mem _ _ _ hd) rfl
  · intro c hc
    exact ANSI_COLORS_no_reset (c, RESET) (lookup_mem _ _ _ hc) rfl

/-- Witness of C20: `k` is a key, `c` is not, and the code of `r` is not the reset code. -/
theorem C20_witness :
    (ANSI_COLORS_find 'k').isSome = true ∧ ¬ (ANSI_COLORS_find 'c').isSome = true ∧
    ANSI_COLORS_find 'r' ≠ some RESET :=
  ⟨(C20_colour_table.2.2.2.2.2.1 'k').mpr (by decide),
   fun h => absurd ((C20_colour_table.2.2.2.2.2.1 'c').mp h) (by decide),
   C20_colour_table.2.2.2.2.2.2.2 'r'⟩

/-! ## Further facts: what the validators accept -/

theorem tag_letters_cons (prev : Option Char) (odd : Bool) (c : Char) (rest : List Char) :
    tag_letters prev odd (c :: rest) =
      if c ≠ '|' then tag_letters (some c) odd rest
      else if !odd then
        if rest.head? = some '|' then tag_letters (some '|') odd rest.tail
        else prev.toList ++ tag_letters (some c) true rest
      else tag_letters (some c) false rest := by
  cases rest with
  | nil =>
    simp only [tag_letters, List.head?_nil, List.tail_nil]
    repeat' split
    all_goals first | rfl | simp_all [tag_letters]
  | cons d rest2 =>
    simp only [tag_letters, List.head?_cons, List.tail_cons, Option.some.injEq]
    repeat' split
    all_goals first | rfl | simp_all

/-- Once a character has been passed, the validator loop accepts exactly when no tag letter
is rejected and the scan ends outside a span. -/
theorem valid_rec_eq_letters (bad : Char → Bool) :
    ∀ (n : Nat) (rest : List Char), rest.length ≤ n → ∀ (p : Char) (odd : Bool),
      valid_rec bad (some p) rest odd =
        .ok ((tag_letters (some p) odd rest).all (fun c => !bad c)
          && !scan_pipe_odd odd rest) := by
  intro n
  induction n with
  | zero =>
    intro rest hl p odd
    have : rest = [] := List.length_eq_zero.mp (Nat.le_zero.mp hl)
    subst this
    simp [valid_rec, scan_pipe_odd, tag_letters]
  | succ n ih =>
    intro rest hl p odd
    cases rest with
    | nil => simp [valid_rec, scan_pipe_odd, tag_letters]
    | cons c rest =>
      have hl1 : rest.length ≤ n := by simpa using hl
      have hl2 : rest.tail.length ≤ n := by simp; omega
      rw [valid_rec_cons, scan_pipe_odd_cons, tag_letters_cons]
      by_cases hc : c = '|'
      · simp only [hc, ne_eq, not_true_eq_false, if_false]
        cases odd with
        | true =>
          simp only [Bool.not_true, Bool.false_eq_true, if_false]
          exact ih rest hl1 _ _
        | false =>
          simp only [Bool.not_false, if_true]
          by_cases hh : rest.head? = some '|'
          · simp only [hh, if_true]
            exact ih _ hl2 _ _
          · simp only [hh, if_false, readPrev]
            by_cases hb : bad p = true
            · simp [hb]
            · simp only [hb, if_false]
              rw [ih rest hl1 _ _]
              simp [hb]
      · simp only [ne_eq, hc, not_false_eq_true, if_true]
        exact ih rest hl1 _ _

/-- Behind the leading-delimiter check the validator loop accepts exactly when no tag letter
is rejected and the scan ends outside a span. -/
theorem valid_rec_eq_letters_top (bad : Char → Bool) (input : List Char)
    (h : input.head? ≠ some '|') :
    valid_rec bad none input false =
      .ok ((tag_letters none false input).all (fun c => !bad c)
        && !scan_pipe_odd false input) := by
  cases input with
  | nil => simp [valid_rec, scan_pipe_odd, tag_letters]
  | cons c rest =>
    have hc : c ≠ '|' := by simpa using h
    rw [valid_rec_cons, scan_pipe_odd_cons, tag_letters_cons]
    simp only [ne_eq, hc, not_false_eq_true, if_true]
    exact valid_rec_eq_letters bad rest.length rest (le_refl _) c false

/-- The function `check_colors_ct` accepts exactly the inputs that do not begin with a
delimiter, whose tag letters all lie in `a`..`z` and whose scan ends outside a span. -/
theorem check_colors_ct_accepts_iff (input : List Char) :
    check_colors_ct input = .ok true ↔
      input.head? ≠ some '|' ∧ (∀ c ∈ tag_letters none false input, 'a' ≤ c ∧ c ≤ 'z') ∧
        scan_pipe_odd false input = false := by
  rw [check_colors_ct_eq]
  by_cases h : input.head? = some '|'
  · simp [h]
  · simp only [h, if_false, valid_rec_eq_letters_top _ _ h, ne_eq, not_false_eq_true,
      true_and, Except.ok.injEq, Bool.and_eq_true, List.all_eq_true, Bool.not_eq_true']
    simp [bad_ct, not_or]

/-- The function `validate_color_tags_runtime` accepts exactly the inputs that do not begin
with a delimiter, whose tag letters are all keys of the colour table and whose scan ends
outside a span. -/
theorem validate_color_tags_runtime_accepts_iff (input : List Char) :
    validate_color_tags_runtime input = .ok true ↔
      input.head? ≠ some '|' ∧
        (∀ c ∈ tag_letters none false input, (ANSI_COLORS_find c).isSome = true) ∧
        scan_pipe_odd false input = false := by
  rw [validate_color_tags_runtime_eq]
  by_cases h : input.head? = some '|'
  · simp [h]
  · simp only [h, if_false, valid_rec_eq_letters_top _ _ h, ne_eq, not_false_eq_true,
      true_and, Except.ok.injEq, Bool.and_eq_true, List.all_eq_true, Bool.not_eq_true']
    have hk : ∀ c, bad_rt c = false ↔ (ANSI_COLORS_find c).isSome = true := by
      intro c
      cases hf : (ANSI_COLORS_find c).isSome <;> simp [bad_rt, ANSI_COLORS_count, hf]
    simp [hk]

/-- A run of text without delimiters holds no tag letter; the character before what
follows is its last. -/
theorem tag_letters_plain (t rest : List Char) :
    ∀ (prev : Option Char) (odd : Bool), '|' ∉ t →
      tag_letters prev odd (t ++ rest) = tag_letters ((t.getLast?).or prev) odd rest := by
  induction t with
  | nil => intro prev odd _; simp
  | cons a t ih =>
    intro prev odd hp
    have ha : a ≠ '|' := fun h => hp (by simp [h])
    have ht : '|' ∉ t := fun h => hp (List.mem_cons_of_mem _ h)
    rw [List.cons_append, tag_letters_cons]
    simp only [ne_eq, ha, not_false_eq_true, if_true]
    rw [ih (some a) odd ht, getLast?_cons_or]

theorem scan_pipe_odd_plain_append (t rest : List Char) (odd : Bool) (hp : '|' ∉ t) :
    scan_pipe_odd odd (t ++ rest) = scan_pipe_odd odd rest := by
  induction t with
  | nil => simp
  | cons a t ih =>
    have ha : a ≠ '|' := fun h => hp (by simp [h])
    have ht : '|' ∉ t := fun h => hp (List.mem_cons_of_mem _ h)
    rw [List.cons_append, scan_pipe_odd_cons]
    simp only [ne_eq, ha, not_false_eq_true, if_true]
    exact ih ht

/-- An escape pair met outside a span, behind text without delimiters, is skipped by the
scan: it has no tag letter and leaves the state outside a span. -/
theorem scan_after_escape (u rest : List Char) (hu : '|' ∉ u) :
    tag_letters none false (u ++ '|' :: '|' :: rest) = tag_letters (some '|') false rest ∧
      scan_pipe_odd false (u ++ '|' :: '|' :: rest) = scan_pipe_odd false rest := by
  rw [tag_letters_plain u _ none false hu, scan_pipe_odd_plain_append u _ false hu,
    tag_letters_cons, scan_pipe_odd_cons]
  simp

/-- Behind non-empty text without delimiters and an escape pair, the validators accept
exactly when the tag letters of what follows pass and its scan ends outside a span. -/
theorem validators_after_escape (u rest : List Char) (hu0 : u ≠ []) (hu : '|' ∉ u) :
    (check_colors_ct (u ++ '|' :: '|' :: rest) = .ok true ↔
      (∀ c ∈ tag_letters (some '|') false rest, 'a' ≤ c ∧ c ≤ 'z') ∧
        scan_pipe_odd false rest = false) ∧
    (validate_color_tags_runtime (u ++ '|' :: '|' :: rest) = .ok true ↔
      (∀ c ∈ tag_letters (some '|') false rest, (ANSI_COLORS_find c).isSome = true) ∧
        scan_pipe_odd false rest = false) := by
  obtain ⟨e1, e2⟩ := scan_after_escape u rest hu
  have hh := head_ne_pipe u ('|' :: '|' :: rest) hu0 hu
  rw [check_colors_ct_accepts_iff, validate_color_tags_runtime_accepts_iff, e1, e2]
  exact ⟨⟨fun h => h.2, fun h => ⟨hh, h⟩⟩, ⟨fun h => h.2, fun h => ⟨hh, h⟩⟩⟩

/-- Text without delimiters, an escape pair and text without delimiters: accepted. -/
theorem validators_accept_escape (u v : List Char) (hu0 : u ≠ []) (hu : '|' ∉ u)
    (hv : '|' ∉ v) :
    check_colors_ct (u ++ '|' :: '|' :: v) = .ok true ∧
      validate_color_tags_runtime (u ++ '|' :: '|' :: v) = .ok true := by
  obtain ⟨h1, h2⟩ := validators_after_escape u v hu0 hu
  have e1 : tag_letters (some '|') false v = [] := by
    have := tag_letters_plain v [] (some '|') false hv
    simpa [tag_letters] using this
  have e2 := scan_pipe_odd_plain v false hv
  exact ⟨h1.mpr ⟨by simp [e1], e2⟩, h2.mpr ⟨by simp [e1], e2⟩⟩

/-! ## Further facts: runs under the length bound of the pipeline -/

theorem lines_of_append (a b : List Op) : lines_of (a ++ b) = lines_of a ++ lines_of b := by
  induction a with
  | nil => rfl
  | cons op a ih => cases op <;> simp [lines_of, ih]

/-- The constructor leaves a writer that satisfies the buffer invariant, with an empty
buffer and nothing handed over. -/
theorem BaseBufferedWriter_new_spec (cells : List Char) (h : cells ≠ []) :
    ∃ w0, BaseBufferedWriter_new cells = .ok w0 ∧ w0.wf ∧ w0.buffer_pos = 0 ∧
      w0.printed = [] ∧ w0.buffer.length = cells.length := by
  obtain ⟨a, t, rfl⟩ := List.exists_cons_of_ne_nil h
  refine ⟨⟨'\x00' :: t, 0, []⟩, ?_, ?_, rfl, rfl, by simp⟩
  · rw [BaseBufferedWriter_new, store_zero _ _ h]
    rfl
  · exact wf_of_split [] t [] (by simp)

/-- One operation on a writer that satisfies the buffer invariant, the line fitting in the
buffer: no fault, the invariant is kept, and after an append the content ends with the
whole line, followed by CR LF or by nothing. -/
theorem BufferedWriter_step_spec (w : Writer) (op : Op) (hw : w.wf)
    (hl : ∀ line, op = .append line → '\x00' ∉ line ∧ (line.length : Int) + 1 ≤ w.buffer.length) :
    ∃ w2, BufferedWriter_step w op = .ok w2 ∧ w2.wf ∧ w2.buffer.length = w.buffer.length ∧
      ∀ line, op = .append line →
        ∃ pre room, get_buffer w2 = .ok (pre ++ line ++ line_end room) := by
  cases op with
  | append l =>
    obtain ⟨hz, hfit⟩ := hl l rfl
    obtain ⟨content, w2, _, _, hwr, hcase, hwf, hlen⟩ := BufferedWriter_write_spec w l hw hz hfit
    refine ⟨w2, hwr, hwf, hlen, fun line hline => ?_⟩
    have e : l = line := by injection hline
    subst e
    split at hcase
    · exact ⟨[], _, by simpa using hcase.2⟩
    · exact ⟨content, _, hcase.2⟩
  | flush =>
    obtain ⟨_, w2, _, _, hfl, _, _, _, _, hwf, hlen⟩ := BufferedWriter_flush_spec w hw
    exact ⟨w2, hfl, hwf, hlen, fun line hline => by cases hline⟩

/-- Every operation of a run on a freshly constructed writer of `BUFFER_SIZE` cells, with
lines of at most `LOG_FMT_SIZE - 1` characters, ends without fault and leaves the cursor in
`0 .. BUFFER_SIZE - 1`; an append leaves the whole line in the buffer. -/
theorem run_steps_in_bounds (cells : List Char) (before after : List Op) (op : Op)
    (hc : cells.length = BUFFER_SIZE)
    (hl : ∀ l ∈ lines_of (before ++ op :: after), '\x00' ∉ l ∧ l.length ≤ LOG_FMT_SIZE - 1) :
    ∃ w0 w w2, BaseBufferedWriter_new cells = .ok w0 ∧ BufferedWriter_run w0 before = .ok w ∧
      BufferedWriter_step w op = .ok w2 ∧
      0 ≤ w2.buffer_pos ∧ w2.buffer_pos ≤ (BUFFER_SIZE : Int) - 1 ∧
      w2.buffer.length = BUFFER_SIZE ∧
      ∀ line, op = .append line →
        ∃ pre room, get_buffer w2 = .ok (pre ++ line ++ line_end room) := by
  have hne : cells ≠ [] := by
    intro e
    rw [e] at hc
    exact absurd hc (by decide)
  obtain ⟨w0, hnew, hw0, hp0, hpr0, hlen0⟩ := BaseBufferedWriter_new_spec cells hne
  have hcap : w0.buffer.length = BUFFER_SIZE := by rw [hlen0, hc]
  have hfmt : LOG_FMT_SIZE - 1 + 1 ≤ BUFFER_SIZE := by decide
  have hi0 := run_inv_fresh w0 hw0 hp0 hpr0
  rw [hcap] at hi0
  obtain ⟨w, hrun, hwf, hlen, _⟩ := run_inv_run BUFFER_SIZE before w0 [] hi0 (fun l hm => by
    have := hl l (by rw [lines_of_append]; exact List.mem_append_left _ hm)
    exact ⟨this.1, by omega⟩)
  obtain ⟨w2, hstep, hwf2, hlen2, hline⟩ := BufferedWriter_step_spec w op hwf (fun line hop => by
    have := hl line (by
      rw [lines_of_append, hop]
      exact List.mem_append_right _ (by simp [lines_of]))
    refine ⟨this.1, ?_⟩
    rw [hlen]
    have h2 := this.2
    omega)
  refine ⟨w0, w, w2, hnew, hrun, hstep, hwf2.1, ?_, by rw [hlen2, hlen], hline⟩
  have := hwf2.2.1
  rw [hlen2, hlen] at this
  omega

theorem concat_all_append (a b : List (List Char)) :
    concat_all (a ++ b) = concat_all a ++ concat_all b := by
  induction a with
  | nil => rfl
  | cons p a ih => simp [concat_all, ih]

theorem lines_with_ends_snoc (ls : List (List Char)) :
    ∀ (rooms : List Bool) (l : List Char) (room : Bool), rooms.length = ls.length →
      lines_with_ends (ls ++ [l]) (rooms ++ [room])
        = lines_with_ends ls rooms ++ l ++ line_end room := by
  induction ls with
  | nil =>
    intro rooms l room h
    have : rooms = [] := List.length_eq_zero.mp h
    subst this
    simp [lines_with_ends]
  | cons a ls ih =>
    intro rooms l room h
    cases rooms with
    | nil => simp at h
    | cons r rooms =>
      have h2 : rooms.length = ls.length := by simpa using h
      simp [lines_with_ends, ih rooms l room h2]

/-- One operation keeps what was handed over and the buffer content together equal to the
lines appended so far. -/
theorem conserved_step (done : List (List Char)) (w : Writer) (op : Op) (hw : w.wf)
    (hc : conserved done w)
    (hl : ∀ line, op = .append line → '\x00' ∉ line ∧ (line.length : Int) + 1 ≤ w.buffer.length) :
    ∃ w2, BufferedWriter_step w op = .ok w2 ∧ w2.wf ∧ w2.buffer.length = w.buffer.length ∧
      conserved (done ++ lines_of [op]) w2 := by
  obtain ⟨content, rooms, hgb, hrl, hcat⟩ := hc
  cases op with
  | append l =>
    obtain ⟨hz, hfit⟩ := hl l rfl
    obtain ⟨content2, w2, hgb2, _, hwr, hcase, hwf, hlen⟩ :=
      BufferedWriter_write_spec w l hw hz hfit
    have e : content2 = content := by
      rw [hgb] at hgb2
      injection hgb2 with h
      exact h.symm
    subst e
    refine ⟨w2, hwr, hwf, hlen, ?_⟩
    split at hcase
    · refine ⟨_, rooms ++ [decide ((l.length : Int) + 2 < w.buffer.length)], hcase.2,
        by simp [lines_of, hrl], ?_⟩
      rw [hcase.1, concat_all_append]
      simp only [lines_of]
      rw [lines_with_ends_snoc _ _ _ _ hrl, ← hcat]
      simp [concat_all]
    · refine ⟨_, rooms ++ [decide (w.buffer_pos + (l.length : Int) + 2 < w.buffer.length)],
        hcase.2, by simp [lines_of, hrl], ?_⟩
      rw [hcase.1]
      simp only [lines_of]
      rw [lines_with_ends_snoc _ _ _ _ hrl, ← hcat]
      simp
  | flush =>
    obtain ⟨content2, w2, hgb2, hclen, hfl, hcase, _, hgb3, _, hwf, hlen⟩ :=
      BufferedWriter_flush_spec w hw
    have e : content2 = content := by
      rw [hgb] at hgb2
      injection hgb2 with h
      exact h.symm
    subst e
    refine ⟨w2, hfl, hwf, hlen, [], rooms, hgb3, by simp [lines_of, hrl], ?_⟩
    simp only [lines_of, List.append_nil]
    by_cases hem : is_empty w = false
    · rw [if_pos hem] at hcase
      rw [hcase, concat_all_append, ← hcat]
      simp [concat_all]
    · rw [if_neg hem] at hcase
      rw [hcase, ← hcat]
      have hz : content2 = [] := by
        have hpos : w.buffer_pos = 0 := by
          simpa [is_empty] using hem
        rw [hpos] at hclen
        exact List.length_eq_zero.mp (by exact_mod_cast hclen)
      simp [hz]

/-- A run of operations keeps what was handed over and the buffer content together equal
to the lines appended so far. -/
theorem conserved_run :
    ∀ (ops : List Op) (w : Writer) (done : List (List Char)), w.wf → conserved done w →
      (∀ l ∈ lines_of ops, '\x00' ∉ l ∧ (l.length : Int) + 1 ≤ w.buffer.length) →
      ∃ w2, BufferedWriter_run w ops = .ok w2 ∧ w2.wf ∧ conserved (done ++ lines_of ops) w2 := by
  intro ops
  induction ops with
  | nil => intro w done hw hc _; exact ⟨w, rfl, hw, by simpa [lines_of] using hc⟩
  | cons op ops ih =>
    intro w done hw hc hl
    obtain ⟨w1, h1, hw1, hlen1, hc1⟩ := conserved_step done w op hw hc (fun line hop =>
      hl line (by rw [hop]; simp [lines_of]))
    obtain ⟨w2, h2, hw2, hc2⟩ := ih w1 _ hw1 hc1 (fun l hm => by
      rw [hlen1]
      exact hl l (by
        have := lines_of_append [op] ops
        simp only [List.singleton_append] at this
        rw [this]
        exact List.mem_append_right _ hm))
    refine ⟨w2, by simp only [BufferedWriter_run, h1, h2], hw2, ?_⟩
    have := lines_of_append [op] ops
    simp only [List.singleton_append] at this
    rw [this, ← List.append_assoc]
    exact hc2

/-- From an empty buffer with nothing handed over, at capacity `BUFFER_SIZE` and with lines
of at most `LOG_FMT_SIZE - 1` characters: the run ends without fault, and what was handed
over followed by the buffer content is the appended lines in order, each followed by CR LF
or by nothing. -/
theorem run_conserves_lines (w0 : Writer) (ops : List Op) (hw : w0.wf)
    (h0 : w0.buffer_pos = 0) (hp : w0.printed = []) (hcap : w0.buffer.length = BUFFER_SIZE)
    (hl : ∀ l ∈ lines_of ops, '\x00' ∉ l ∧ l.length ≤ LOG_FMT_SIZE - 1) :
    ∃ w content rooms, BufferedWriter_run w0 ops = .ok w ∧ get_buffer w = .ok content ∧
      rooms.length = (lines_of ops).length ∧
      concat_all w.printed ++ content = lines_with_ends (lines_of ops) rooms := by
  obtain ⟨content0, _, hgb0, hclen, _⟩ := BufferedWriter_flush_spec w0 hw
  have hz : content0 = [] := by
    rw [h0] at hclen
    exact List.length_eq_zero.mp (by exact_mod_cast hclen)
  subst hz
  have hfmt : LOG_FMT_SIZE - 1 + 1 ≤ BUFFER_SIZE := by decide
  obtain ⟨w, hrun, _, content, rooms, hgb, hrl, hcat⟩ := conserved_run ops w0 [] hw
    ⟨[], [], hgb0, rfl, by simp [hp, concat_all, lines_with_ends]⟩ (fun l hm => by
      have := hl l hm
      refine ⟨this.1, ?_⟩
      rw [hcap]
      have h2 := this.2
      omega)
  exact ⟨w, content, rooms, hrun, hgb, by simpa using hrl, by simpa using hcat⟩

/-! ## Further facts: the output of `parse_color_tags` is made of whole units -/

theorem concat_all_snoc (a : List (List Char)) (t : List Char) :
    concat_all (a ++ [t]) = concat_all a ++ t := by
  induction a with
  | nil => simp [concat_all]
  | cons p a ih => simp [concat_all, ih]

theorem whole_units_nil (input : List Char) : whole_units input [] :=
  ⟨[], rfl, by simp⟩

theorem whole_units_snoc (input out t : List Char) (h : whole_units input out)
    (ht : is_unit input t) : whole_units input (out ++ t) := by
  obtain ⟨units, he, hu⟩ := h
  refine ⟨units ++ [t], by rw [concat_all_snoc, he], fun x hx => ?_⟩
  rcases List.mem_append.mp hx with h1 | h1
  · exact hu x h1
  · have : x = t := by simpa using h1
    rw [this]; exact ht

theorem take_pred_of_take (out pre : List Char) (p : Char) (k : Nat)
    (hk : k ≤ out.length) (h : out.take k = pre ++ [p]) : out.take (k - 1) = pre := by
  have hlen : k = pre.length + 1 := by
    have := congrArg List.length h
    simp [List.length_take, Nat.min_eq_left hk] at this
    exact this
  have : out.take (k - 1) = (out.take k).take (k - 1) := by
    rw [List.take_take, Nat.min_eq_left (Nat.sub_le _ _)]
  rw [this, h, hlen]
  simp

theorem units_inv_poke (input : List Char) (p c : Char) (s : Scan) (odd : Bool)
    (hi : units_inv input p s) (hc : c ∈ input) :
    units_inv input c ⟨odd, s.out_pos + 1, s.output.take s.out_pos.toNat ++ [c]⟩ := by
  obtain ⟨h0, h1, h2, _⟩ := hi
  have e : (s.out_pos + 1).toNat = (s.output.take s.out_pos.toNat ++ [c]).length := by
    simp [List.length_take, Nat.min_eq_left h1]
    omega
  refine ⟨by simp; omega, by simp only; omega, ?_, fun _ => ?_⟩
  · simp only [e, List.take_length]
    exact whole_units_snoc _ _ _ h2 (Or.inl ⟨c, hc, rfl⟩)
  · simp only [e, List.take_length]
    exact ⟨_, rfl, h2⟩

theorem units_inv_strcpy (input : List Char) (s : Scan) (odd : Bool) (k : Int)
    (e : List Char) (h0 : 0 ≤ k) (h1 : k.toNat ≤ s.output.length)
    (h2 : whole_units input (s.output.take k.toNat)) (he : e ∈ escape_sequences) :
    units_inv input '|' ⟨odd, k + e.length, s.output.take k.toNat ++ e⟩ := by
  have e1 : (k + e.length).toNat = (s.output.take k.toNat ++ e).length := by
    simp [List.length_take, Nat.min_eq_left h1]
    omega
  refine ⟨by simp; omega, by simp only; omega, ?_, fun h => absurd rfl h⟩
  simp only [e1, List.take_length]
  exact whole_units_snoc _ _ _ h2 (Or.inr he)

theorem units_inv_keep (input : List Char) (p : Char) (s : Scan) (odd : Bool)
    (hi : units_inv input p s) : units_inv input '|' ⟨odd, s.out_pos, s.output⟩ :=
  ⟨hi.1, hi.2.1, hi.2.2.1, fun h => absurd rfl h⟩

/-- The rewind `out_pos--` removes the tag letter, which is the last unit written. -/
theorem units_inv_rewind (input : List Char) (p : Char) (s : Scan) (hi : units_inv input p s)
    (hp : p ≠ '|') :
    0 ≤ s.out_pos - 1 ∧ (s.out_pos - 1).toNat ≤ s.output.length ∧
      whole_units input (s.output.take (s.out_pos - 1).toNat) := by
  obtain ⟨h0, h1, _, h3⟩ := hi
  obtain ⟨pre, hpre, hu⟩ := h3 hp
  have hlen : s.out_pos.toNat = pre.length + 1 := by
    have := congrArg List.length hpre
    simp [List.length_take, Nat.min_eq_left h1] at this
    exact this
  have e : (s.out_pos - 1).toNat = s.out_pos.toNat - 1 := by omega
  refine ⟨by omega, by omega, ?_⟩
  rw [e, take_pred_of_take _ _ _ _ h1 hpre]
  exact hu

/-- The loop of `parse_color_tags` keeps its output a concatenation of units. -/
theorem render_rec_units (input : List Char) (max_len : Int) :
    ∀ (n : Nat) (rest : List Char), rest.length ≤ n → ∀ (p : Char) (s s2 : Scan),
      (∀ c ∈ rest, c ∈ input) → units_inv input p s →
      render_rec max_len (some p) rest s = .ok s2 →
      whole_units input (s2.output.take s2.out_pos.toNat) := by
  intro n
  induction n with
  | zero =>
    intro rest hl p s s2 _ hi h
    have : rest = [] := List.length_eq_zero.mp (Nat.le_zero.mp hl)
    subst this
    simp only [render_rec, Except.ok.injEq] at h
    subst h
    exact hi.2.2.1
  | succ n ih =>
    intro rest hl p s s2 hin hi h
    cases rest with
    | nil =>
      simp only [render_rec, Except.ok.injEq] at h
      subst h
      exact hi.2.2.1
    | cons c rest =>
      have hl1 : rest.length ≤ n := by simpa using hl
      have hl2 : rest.tail.length ≤ n := by simp; omega
      have hin1 : ∀ x ∈ rest, x ∈ input := fun x hx => hin x (List.mem_cons_of_mem _ hx)
      have hin2 : ∀ x ∈ rest.tail, x ∈ input := fun x hx => hin1 x (List.mem_of_mem_tail hx)
      have hcin : c ∈ input := hin c (List.mem_cons_self _ _)
      have h0 := hi.1
      rw [render_rec_cons] at h
      by_cases hlt : s.out_pos < max_len - 1
      · have hpk : ∀ x, poke max_len s.out_pos s.output x
            = .ok (s.output.take s.out_pos.toNat ++ [x]) := by
          intro x
          have : s.out_pos < max_len := by omega
          simp [poke, h0, this]
        simp only [hlt, if_true, hpk] at h
        by_cases hc : c = '|'
        · simp only [hc, ne_eq, not_true_eq_false, if_false] at h
          subst hc
          cases hodd : s.pipe_odd with
          | true =>
            simp only [hodd, Bool.not_true, Bool.false_eq_true, if_false, close_tag] at h
            by_cases hfit : s.out_pos + RESET.length < max_len - 1
            · have hcp : strcpy max_len s.out_pos s.output RESET
                  = .ok (s.output.take s.out_pos.toNat ++ RESET) := by
                have : s.out_pos + RESET.length < max_len := by omega
                simp [strcpy, h0, this]
              simp only [hfit, if_true, hcp] at h
              exact ih rest hl1 _ _ _ hin1
                (units_inv_strcpy input s false s.out_pos RESET h0 hi.2.1 hi.2.2.1
                  RESET_mem_escape_sequences) h
            · simp only [hfit, if_false] at h
              exact ih rest hl1 _ _ _ hin1 (units_inv_keep input p s false hi) h
          | false =>
            simp only [hodd, Bool.not_false, if_true] at h
            by_cases hh : rest.head? = some '|'
            · simp only [hh, if_true] at h
              exact ih _ hl2 _ _ _ hin2 (units_inv_poke input p '|' s false hi hcin) h
            · simp only [hh, if_false, open_tag, readPrev] at h
              cases hf : ANSI_COLORS_find p with
              | none =>
                simp only [hf] at h
                exact ih rest hl1 _ _ _ hin1 (units_inv_keep input p s true hi) h
              | some code =>
                obtain ⟨hr0, hr1, hr2⟩ := units_inv_rewind input p s hi (find_some p code hf).1
                simp only [hf] at h
                by_cases hfit : s.out_pos - 1 + code.length < max_len - 1
                · have hcp : strcpy max_len (s.out_pos - 1) s.output code
                      = .ok (s.output.take (s.out_pos - 1).toNat ++ code) := by
                    have : s.out_pos - 1 + code.length < max_len := by omega
                    simp [strcpy, hr0, this]
                  simp only [hfit, if_true, hcp] at h
                  exact ih rest hl1 _ _ _ hin1
                    (units_inv_strcpy input s true (s.out_pos - 1) code hr0 hr1 hr2
                      (find_mem_escape_sequences p code hf)) h
                · simp only [hfit, if_false] at h
                  exact ih rest hl1 _ _ _ hin1 ⟨hr0, hr1, hr2, fun h => absurd rfl h⟩ h
        · simp only [ne_eq, hc, not_false_eq_true, if_true] at h
          exact ih rest hl1 _ _ _ hin1 (units_inv_poke input p c s s.pipe_odd hi hcin) h
      · simp only [hlt, if_false, Except.ok.injEq] at h
        subst h
        exact hi.2.2.1

theorem terminate_ok (max_len out_pos : Int) (output out : List Char)
    (h : terminate max_len out_pos output = .ok out) : out = output.take out_pos.toNat := by
  unfold terminate at h
  split at h
  · injection h with h
    exact h.symm
  · cases h

theorem units_inv_start (input : List Char) : units_inv input '|' ⟨false, 0, []⟩ :=
  ⟨le_refl _, by simp, by simpa using whole_units_nil input, fun h => absurd rfl h⟩

/-- Whenever `parse_color_tags` returns, its output is a concatenation of single characters
of the input and of whole escape sequences. -/
theorem parse_color_tags_whole_units (input : List Char) (max_len : Int) (out : List Char)
    (h : parse_color_tags input max_len = .ok out) : whole_units input out := by
  rw [parse_color_tags_eq] at h
  have fin : ∀ s2, render_rec max_len none input ⟨false, 0, []⟩ = .ok s2 →
      whole_units input (s2.output.take s2.out_pos.toNat) := by
    intro s2 hr
    cases input with
    | nil =>
      simp only [render_rec, Except.ok.injEq] at hr
      subst hr
      simpa using whole_units_nil []
    | cons c rest =>
      rw [render_rec_cons] at hr
      by_cases hlt : (0 : Int) < max_len - 1
      · have hpk : ∀ x, poke max_len 0 [] x = .ok ([].take (0 : Int).toNat ++ [x]) := by
          intro x
          have : (0 : Int) < max_len := by omega
          simp [poke, this]
        simp only [hlt, if_true, hpk] at hr
        have hst := units_inv_start (c :: rest)
        by_cases hc : c = '|'
        · subst hc
          simp only [ne_eq, not_true_eq_false, if_false, Bool.not_false, if_true] at hr
          by_cases hh : rest.head? = some '|'
          · simp only [hh, if_true] at hr
            exact render_rec_units _ max_len _ _ (le_refl _) _ _ _
              (fun x hx => List.mem_cons_of_mem _ (List.mem_of_mem_tail hx))
              (units_inv_poke _ '|' '|' _ false hst (List.mem_cons_self _ _)) hr
          · simp [hh, open_tag, readPrev] at hr
        · simp only [ne_eq, hc, not_false_eq_true, if_true] at hr
          exact render_rec_units _ max_len _ _ (le_refl _) _ _ _
            (fun x hx => List.mem_cons_of_mem _ hx)
            (units_inv_poke _ '|' c _ false hst (List.mem_cons_self _ _)) hr
      · simp only [hlt, if_false, Except.ok.injEq] at hr
        subst hr
        simpa using whole_units_nil (c :: rest)
  cases hr : render_rec max_len none input ⟨false, 0, []⟩ with
  | error e => simp [hr] at h
  | ok s2 =>
    simp only [hr] at h
    rw [terminate_ok _ _ _ _ h]
    exact fin s2 hr

/-- Unless the input begins with a lone delimiter and the buffer has room for a character,
`parse_color_tags` returns at most `max_len - 1` characters, a concatenation of single
characters of the input and of whole escape sequences. -/
theorem parse_color_tags_whole_sequences (input : List Char) (max_len : Int)
    (hm : 1 ≤ max_len) (h : ¬ (lone_lead input ∧ 2 ≤ max_len)) :
    ∃ out, parse_color_tags input max_len = .ok out ∧ (out.length : Int) ≤ max_len - 1 ∧
      whole_units input out := by
  obtain ⟨out, h1, h2⟩ := parse_color_tags_bound input max_len hm h
  exact ⟨out, h1, h2, parse_color_tags_whole_units input max_len out h1⟩

/-- A colour code that does not fit is left out whole, with its tag letter, and so is a
reset code: with `max_len = 7`, of `ar|xy|` only `axy` is written; with `max_len = 11` the
colour code fits and the reset code does not. -/
theorem parse_color_tags_drops_whole :
    parse_color_tags "ar|xy|".toList 7 = .ok "axy".toList ∧
      parse_color_tags "ar|xy|".toList 11 = .ok "a\x1b[31mxy".toList := by
  decide

/-! ## The claims, concluded -/

/-- Counterexample to C21 as stated: the input `||hello` begins with an escape pair, not
with a lone delimiter; its scan opens no span, so it has no tag letter, and it ends outside
a span; yet `check_colors_ct` and `validate_color_tags_runtime` both return false, because
the check before the loop rejects every input whose first character is the delimiter. -/
theorem C21_counterexample :
    ¬ lone_lead "||hello".toList ∧ tag_letters none false "||hello".toList = [] ∧
      scan_pipe_odd false "||hello".toList = false ∧
      check_colors_ct "||hello".toList = .ok false ∧
      validate_color_tags_runtime "||hello".toList = .ok false := by
  decide

/-- Claim C21, amended: the validators fail only for three reasons, the first being that
the input begins with a delimiter, escaped or not. `check_colors_ct` returns true exactly
when the first character of the input is not the delimiter, every tag letter (the
character before a delimiter that opens a span) lies in `a`..`z`, and the scan ends outside
a span; `validate_color_tags_runtime` returns true exactly when the first character is not
the delimiter, every tag letter is a key of the colour table, and the scan ends outside a
span. So an input that meets the three conditions of the runtime validator is accepted by
both. An escape pair met outside a span, behind non-empty text `u` without delimiters, is
skipped: each validator accepts `u`, the pair and `rest` exactly when the tag letters of
`rest` (scanned with the literal delimiter before it) pass and the scan of `rest` ends
outside a span, and both accept when `rest` holds no delimiter. Inside an open span there
is no escape pair: `r|a||b|` is rejected by both. -/
theorem C21_validators_fail_only_for (input : List Char) :
    (check_colors_ct input = .ok true ↔
      input.head? ≠ some '|' ∧ (∀ c ∈ tag_letters none false input, 'a' ≤ c ∧ c ≤ 'z') ∧
        scan_pipe_odd false input = false) ∧
    (validate_color_tags_runtime input = .ok true ↔
      input.head? ≠ some '|' ∧
        (∀ c ∈ tag_letters none false input, (ANSI_COLORS_find c).isSome = true) ∧
        scan_pipe_odd false input = false) ∧
    (input.head? ≠ some '|' →
      (∀ c ∈ tag_letters none false input, (ANSI_COLORS_find c).isSome = true) →
      scan_pipe_odd false input = false →
      check_colors_ct input = .ok true ∧ validate_color_tags_runtime input = .ok true) ∧
    (∀ (u rest : List Char), u ≠ [] → '|' ∉ u →
      (check_colors_ct (u ++ '|' :: '|' :: rest) = .ok true ↔
        (∀ c ∈ tag_letters (some '|') false rest, 'a' ≤ c ∧ c ≤ 'z') ∧
          scan_pipe_odd false rest = false) ∧
      (validate_color_tags_runtime (u ++ '|' :: '|' :: rest) = .ok true ↔
        (∀ c ∈ tag_letters (some '|') false rest, (ANSI_COLORS_find c).isSome = true) ∧
          scan_pipe_odd false rest = false)) ∧
    (∀ (u v : List Char), u ≠ [] → '|' ∉ u → '|' ∉ v →
      check_colors_ct (u ++ '|' :: '|' :: v) = .ok true ∧
        validate_color_tags_runtime (u ++ '|' :: '|' :: v) = .ok true) ∧
    (check_colors_ct "r|a||b|".toList = .ok false ∧
      validate_color_tags_runtime "r|a||b|".toList = .ok false) := by
  refine ⟨check_colors_ct_accepts_iff input, validate_color_tags_runtime_accepts_iff input,
    fun h1 h2 h3 => ⟨?_, ?_⟩, fun u rest hu0 hu => validators_after_escape u rest hu0 hu,
    fun u v hu0 hu hv => validators_accept_escape u v hu0 hu hv, by decide⟩
  · exact (check_colors_ct_accepts_iff input).mpr
      ⟨h1, fun c hc => find_isSome_lower c (h2 c hc), h3⟩
  · exact (validate_color_tags_runtime_accepts_iff input).mpr ⟨h1, h2, h3⟩

/-- Witness of C21 amended: `a||b r|x|` holds an escape pair behind its first character
and one span with the table letter `r`; both validators accept it. -/
theorem C21_witness :
    tag_letters none false "a||b r|x|".toList = ['r'] ∧
      check_colors_ct "a||b r|x|".toList = .ok true ∧
      validate_color_tags_runtime "a||b r|x|".toList = .ok true :=
  ⟨by decide,
    (C21_validators_fail_only_for "a||b r|x|".toList).2.2.1 (by decide) (by decide)
      (by decide)⟩

/-- Claim C22: the runtime validator refines the compile-time one. Every key of the colour
table lies in `a`..`z`; the two functions are the same scan (`valid_rec`) behind the same
leading check and differ in the test of the tag letter only; so every input accepted by
`validate_color_tags_runtime` is accepted by `check_colors_ct`. The converse fails: `c|x|`
is a span whose letter is in `a`..`z` and not in the table, accepted by `check_colors_ct`
and rejected by `validate_color_tags_runtime`. -/
theorem C22_runtime_refines_ct :
    (∀ p ∈ ANSI_COLORS, 'a' ≤ p.1 ∧ p.1 ≤ 'z') ∧
    (∀ s, check_colors_ct s
        = (if s.head? = some '|' then .ok false else valid_rec bad_ct none s false) ∧
      validate_color_tags_runtime s
        = (if s.head? = some '|' then .ok false else valid_rec bad_rt none s false)) ∧
    (∀ s, validate_color_tags_runtime s = .ok true → check_colors_ct s = .ok true) ∧
    ('a' ≤ 'c' ∧ 'c' ≤ 'z' ∧ ANSI_COLORS_find 'c' = none ∧
      check_colors_ct "c|x|".toList = .ok true ∧
      validate_color_tags_runtime "c|x|".toList = .ok false) := by
  refine ⟨ANSI_COLORS_keys_lower,
    fun s => ⟨check_colors_ct_eq s, validate_color_tags_runtime_eq s⟩, fun s h => ?_,
    by decide⟩
  obtain ⟨h1, h2, h3⟩ := (validate_color_tags_runtime_accepts_iff s).mp h
  exact (check_colors_ct_accepts_iff s).mpr ⟨h1, fun c hc => find_isSome_lower c (h2 c hc), h3⟩

/-- Witness of C22: `r|hello|` is accepted by the runtime validator, hence by
`check_colors_ct`. -/
theorem C22_witness :
    validate_color_tags_runtime "r|hello|".toList = .ok true ∧
      check_colors_ct "r|hello|".toList = .ok true :=
  ⟨by decide, C22_runtime_refines_ct.2.2.1 "r|hello|".toList (by decide)⟩

/-- Claim C23: under the length bound of the pipeline the buffer is never overrun. From a
freshly constructed writer of `BUFFER_SIZE` cells (whatever they held before), for every
sequence of operations whose lines have at most `LOG_FMT_SIZE - 1 = 511` characters, and at
every operation `op` of the sequence: the operations before it and `op` itself end without
fault (a store outside the array is the fault `Fault.write`, so every index written by the
copy, by CR, by LF and by the terminator is at most `BUFFER_SIZE - 1`); afterwards
`0 ≤ cursor ≤ BUFFER_SIZE - 1 = 1023`; and after an append the buffer content ends with the
whole line, followed by CR LF or by nothing. The lines are C strings: they hold no NUL. -/
theorem C23_buffer_never_overrun (cells : List Char) (before after : List Op) (op : Op)
    (hc : cells.length = BUFFER_SIZE)
    (hl : ∀ l ∈ lines_of (before ++ op :: after), '\x00' ∉ l ∧ l.length ≤ LOG_FMT_SIZE - 1) :
    LOG_FMT_SIZE - 1 = 511 ∧ (BUFFER_SIZE : Int) - 1 = 1023 ∧
    ∃ w0 w w2, BaseBufferedWriter_new cells = .ok w0 ∧ BufferedWriter_run w0 before = .ok w ∧
      BufferedWriter_step w op = .ok w2 ∧
      0 ≤ w2.buffer_pos ∧ w2.buffer_pos ≤ (BUFFER_SIZE : Int) - 1 ∧
      w2.buffer.length = BUFFER_SIZE ∧
      ∀ line, op = .append line →
        ∃ pre room, get_buffer w2 = .ok (pre ++ line ++ line_end room) :=
  ⟨by decide, by decide, run_steps_in_bounds cells before after op hc hl⟩

/-- Witness of C23: `ab` is appended, then `cd`, then the buffer is flushed; the statement
is taken at the second append. -/
theorem C23_witness :
    LOG_FMT_SIZE - 1 = 511 ∧ (BUFFER_SIZE : Int) - 1 = 1023 ∧
    ∃ w0 w w2, BaseBufferedWriter_new (List.replicate BUFFER_SIZE 'u') = .ok w0 ∧
      BufferedWriter_run w0 [.append "ab".toList] = .ok w ∧
      BufferedWriter_step w (.append "cd".toList) = .ok w2 ∧
      0 ≤ w2.buffer_pos ∧ w2.buffer_pos ≤ (BUFFER_SIZE : Int) - 1 ∧
      w2.buffer.length = BUFFER_SIZE ∧
      ∀ line, Op.append "cd".toList = .append line →
        ∃ pre room, get_buffer w2 = .ok (pre ++ line ++ line_end room) :=
  C23_buffer_never_overrun (List.replicate BUFFER_SIZE 'u') [.append "ab".toList] [.flush]
    (.append "cd".toList) (List.length_replicate _ _) (by decide)

/-- Claim C24: no line is lost, duplicated or reordered by buffering. On a `BufferedWriter`
of `BUFFER_SIZE` cells that starts empty, for every sequence of appends of lines of at most
`LOG_FMT_SIZE - 1 = 511` characters interleaved with flushes, the run ends without fault
and the concatenation of the contents handed to the output target, followed by the buffer
content, is `l1 ++ t1 ++ ... ++ ln ++ tn`: the appended lines in order, each followed by
`ti`, which is CR LF (`rooms[i]` true) or empty. Every initial part of a sequence is a
sequence, so this holds after each operation. The lines are C strings: they hold no NUL. -/
theorem C24_no_line_lost (w0 : Writer) (ops : List Op) (hw : w0.wf)
    (h0 : w0.buffer_pos = 0) (hp : w0.printed = []) (hcap : w0.buffer.length = BUFFER_SIZE)
    (hl : ∀ l ∈ lines_of ops, '\x00' ∉ l ∧ l.length ≤ LOG_FMT_SIZE - 1) :
    ∃ w content rooms, BufferedWriter_run w0 ops = .ok w ∧ get_buffer w = .ok content ∧
      rooms.length = (lines_of ops).length ∧
      concat_all w.printed ++ content = lines_with_ends (lines_of ops) rooms :=
  run_conserves_lines w0 ops hw h0 hp hcap hl

/-- Witness of C24: on a freshly constructed writer, `ab` is appended, the buffer is
flushed, `cd` is appended. -/
theorem C24_witness :
    ∃ w content rooms,
      BufferedWriter_run fresh1024 [.append "ab".toList, .flush, .append "cd".toList] = .ok w ∧
      get_buffer w = .ok content ∧
      rooms.length = (lines_of [.append "ab".toList, .flush, .append "cd".toList]).length ∧
      concat_all w.printed ++ content
        = lines_with_ends (lines_of [.append "ab".toList, .flush, .append "cd".toList]) rooms :=
  C24_no_line_lost fresh1024 [.append "ab".toList, .flush, .append "cd".toList] fresh1024_wf
    rfl rfl fresh1024_length (by decide)

/-- Claim C25, evaluated on the code: on the input `|`, a lone delimiter, with
`max_len = 2`, `parse_color_tags` has no defined output: at `i = 0` it looks up
`input[i - 1]`, the byte before the input. -/
theorem C25_render_undefined_on_lone_delimiter :
    parse_color_tags "|".toList 2 = .error (.read (-1)) := by
  decide

end ColorLogPP
